import Mathlib

/-!
Verification development for the worktreefoundry repository core.

This file gives a shallow embedding, in Lean, of the parts of the Go
source that the specification talks about: the restricted YAML codec
(ParseSimpleYAMLObject / MarshalSimpleYAMLObject), value normalization
(normalizeObjectValue), the object store (ParseObjectFile, ReadObject,
ListObjectsForType, LoadObjects, WriteObject), the schema registry
(normalizeSchema / LoadSchemas), per-property schema validation
(validateProperty), and the structured three-way merge engine
(mergeThreeWayObject, the apply/rollback section of MergeWorkspace,
backupPaths / restorePaths, objectFromPathAndData).

Modelling conventions:
- Go strings are modelled as `List Char` (`Str`).  The Go code under
  study compares, slices and trims strings at rune granularity for all
  the characters that matter here (all delimiters are ASCII), so the
  byte/rune distinction is immaterial for the modelled operations.
- Go `map[string]T` values are modelled as association lists sorted
  strictly by key: the canonical representative of the finite map.
  A Go map insert is modelled by sorted insertion.
- Go `float64` values are modelled exactly as the dyadic rational
  numbers they denote; `strconv.ParseFloat` is modelled as exact
  decimal evaluation followed by correct IEEE-754 binary64 rounding
  (round to nearest, ties to even, gradual underflow), with the same
  out-of-range rejections.  NaN never arises from the accepted number
  grammar, and `-0` is identified with `0`, which matches the equality
  (`==` / reflect.DeepEqual) the program applies to float64 values.
- File systems are modelled as association lists from repo-relative
  paths to file contents, sorted by path.
-/

namespace WF

/-- Character list standing for a Go string. -/
abbrev Str := List Char

/-- Shorthand turning a Lean string literal into its character list. -/
def cs (s : String) : Str := s.data

/-- Go `unicode.IsSpace` (the white-space runes of Unicode). -/
def goIsSpace (c : Char) : Bool :=
  c = ' ' ∨ c = '\t' ∨ c = '\n' ∨ c = (Char.ofNat 11) ∨ c = (Char.ofNat 12) ∨
  c = '\r' ∨ c = (Char.ofNat 0x85) ∨ c = (Char.ofNat 0xA0) ∨
  c = (Char.ofNat 0x1680) ∨ (0x2000 ≤ c.toNat ∧ c.toNat ≤ 0x200A) ∨
  c = (Char.ofNat 0x2028) ∨ c = (Char.ofNat 0x2029) ∨ c = (Char.ofNat 0x202F) ∨
  c = (Char.ofNat 0x205F) ∨ c = (Char.ofNat 0x3000)

/-- Membership in the cutset of `strings.TrimRight(line, " \t")`. -/
def isSpaceTab (c : Char) : Bool := c = ' ' ∨ c = '\t'

/-- Go `strings.TrimLeft` for a character predicate. -/
def trimLeftP (p : Char → Bool) (s : Str) : Str := s.dropWhile p

/-- Go `strings.TrimRight` for a character predicate. -/
def trimRightP (p : Char → Bool) (s : Str) : Str := (s.reverse.dropWhile p).reverse

/-- Go `strings.TrimRight(s, " \t")`, as used on every input line. -/
def trimRightCut (s : Str) : Str := trimRightP isSpaceTab s

/-- Go `strings.TrimSpace`. -/
def trimSpace (s : Str) : Str := trimLeftP goIsSpace (trimRightP goIsSpace s)

/-- Does `pre` occur at the start of `s`?  (Go `strings.HasPrefix`.) -/
def startsWithSeq : Str → Str → Bool
  | [], _ => true
  | _ :: _, [] => false
  | p :: ps, c :: rest => p = c ∧ startsWithSeq ps rest

/-- Drops a known leading sequence (Go `strings.TrimPrefix` after a
successful `HasPrefix` test). -/
def dropSeq (pre s : Str) : Str := s.drop pre.length

/-- Does the string contain the adjacent pair `' '`, `'#'`?  This is Go
`strings.Contains(line, " #")` for the two-character needle. -/
def hasSpHash : Str → Bool
  | [] => false
  | [_] => false
  | a :: b :: rest => (a = ' ' ∧ b = '#') ∨ hasSpHash (b :: rest)

/-- Index of the first occurrence of a character (Go `strings.IndexRune`,
with `none` for `-1`). -/
def idxOf (c : Char) : Str → Option Nat
  | [] => none
  | a :: rest => if a = c then some 0 else (idxOf c rest).map (· + 1)

/-- Splits on `'\n'` exactly as Go `strings.Split(text, "\n")` does:
a trailing newline yields a final empty field. -/
def splitNL : Str → List Str
  | [] => [[]]
  | c :: rest =>
    if c = '\n' then [] :: splitNL rest
    else
      match splitNL rest with
      | [] => [[c]]
      | s :: ss => (c :: s) :: ss

/-- Go `strings.ReplaceAll(text, "\r\n", "\n")`. -/
def replaceCRLF : Str → Str
  | [] => []
  | [c] => [c]
  | a :: b :: rest =>
    if a = '\r' ∧ b = '\n' then '\n' :: replaceCRLF rest
    else a :: replaceCRLF (b :: rest)

/-- Lexicographic strict order on strings by code point, which agrees
with Go's bytewise string order on UTF-8 text. -/
def strLtB : Str → Str → Bool
  | [], [] => false
  | [], _ :: _ => true
  | _ :: _, [] => false
  | a :: as_, b :: bs => if a < b then true else if b < a then false else strLtB as_ bs

/-- Normalized object field values: the closed set of variants a parsed
object field can hold (Go `any` restricted to the parser's range:
string, float64, bool, nil, []any).  Numbers carry the exact rational
value of the float64. -/
inductive Value where
  | vstr (s : Str)
  | vnum (q : ℚ)
  | vbool (b : Bool)
  | vnull
  | varr (items : List Value)
  deriving Repr

mutual

/-- Structural equality of values: Go `reflect.DeepEqual` on the
normalized value range (element-wise and order-sensitive on arrays). -/
def Value.beq : Value → Value → Bool
  | .vstr a, .vstr b => a = b
  | .vnum a, .vnum b => a = b
  | .vbool a, .vbool b => a = b
  | .vnull, .vnull => true
  | .varr a, .varr b => Value.beqList a b
  | _, _ => false

/-- Element-wise structural equality of value lists. -/
def Value.beqList : List Value → List Value → Bool
  | [], [] => true
  | x :: xs, y :: ys => Value.beq x y ∧ Value.beqList xs ys
  | _, _ => false

end

mutual

theorem Value.beq_iff : ∀ a b : Value, Value.beq a b = true ↔ a = b
  | .vstr a, .vstr b => by simp [Value.beq]
  | .vstr _, .vnum _ => by simp [Value.beq]
  | .vstr _, .vbool _ => by simp [Value.beq]
  | .vstr _, .vnull => by simp [Value.beq]
  | .vstr _, .varr _ => by simp [Value.beq]
  | .vnum _, .vstr _ => by simp [Value.beq]
  | .vnum a, .vnum b => by simp [Value.beq]
  | .vnum _, .vbool _ => by simp [Value.beq]
  | .vnum _, .vnull => by simp [Value.beq]
  | .vnum _, .varr _ => by simp [Value.beq]
  | .vbool _, .vstr _ => by simp [Value.beq]
  | .vbool _, .vnum _ => by simp [Value.beq]
  | .vbool a, .vbool b => by simp [Value.beq]
  | .vbool _, .vnull => by simp [Value.beq]
  | .vbool _, .varr _ => by simp [Value.beq]
  | .vnull, .vstr _ => by simp [Value.beq]
  | .vnull, .vnum _ => by simp [Value.beq]
  | .vnull, .vbool _ => by simp [Value.beq]
  | .vnull, .vnull => by simp [Value.beq]
  | .vnull, .varr _ => by simp [Value.beq]
  | .varr _, .vstr _ => by simp [Value.beq]
  | .varr _, .vnum _ => by simp [Value.beq]
  | .varr _, .vbool _ => by simp [Value.beq]
  | .varr _, .vnull => by simp [Value.beq]
  | .varr a, .varr b => by
    simp only [Value.beq, Value.varr.injEq]
    exact Value.beqList_iff a b

theorem Value.beqList_iff : ∀ a b : List Value, Value.beqList a b = true ↔ a = b
  | [], [] => by simp [Value.beqList]
  | [], _ :: _ => by simp [Value.beqList]
  | _ :: _, [] => by simp [Value.beqList]
  | x :: xs, y :: ys => by
    simp only [Value.beqList, Bool.decide_and, Bool.and_eq_true, decide_eq_true_eq,
      List.cons.injEq]
    exact and_congr (Value.beq_iff x y) (Value.beqList_iff xs ys)

end

instance : DecidableEq Value := fun a b =>
  decidable_of_iff (Value.beq a b = true) (Value.beq_iff a b)

/-- Association-list lookup by string key (the canonical finite-map
model of Go `m[k]`). -/
def lookupA {α : Type} (k : Str) : List (Str × α) → Option α
  | [] => none
  | (k1, v1) :: rest => if k = k1 then some v1 else lookupA k rest

/-- Lookup specialized to object field maps. -/
abbrev lookupV (k : Str) (o : List (Str × Value)) : Option Value := lookupA k o

/-- Parsed object: a Go `map[string]any` in canonical sorted form. -/
abbrev Obj := List (Str × Value)

/-- Sorted insertion: the canonical model of a Go map assignment
`m[k] = v`. -/
def insertSortedA {α : Type} (k : Str) (v : α) : List (Str × α) → List (Str × α)
  | [] => [(k, v)]
  | (k1, v1) :: rest =>
    if strLtB k k1 then (k, v) :: (k1, v1) :: rest
    else if k = k1 then (k, v) :: rest
    else (k1, v1) :: insertSortedA k v rest

/-- Sorted insertion specialized to object field maps. -/
abbrev insertSortedV (k : Str) (v : Value) (o : List (Str × Value)) : List (Str × Value) :=
  insertSortedA k v o

/-- Keys of an object, in representation order. -/
def keysOf (o : Obj) : List Str := o.map Prod.fst

/-- Strictly-ascending-key predicate: the canonicity invariant of the
map representation. -/
def ObjSorted : Obj → Prop
  | [] => True
  | [_] => True
  | (k1, _) :: (k2, v2) :: rest => strLtB k1 k2 = true ∧ ObjSorted ((k2, v2) :: rest)

/-- Ascending insertion into a sorted string list. -/
def insertStr (x : Str) : List Str → List Str
  | [] => [x]
  | y :: ys => if strLtB x y then x :: y :: ys else y :: insertStr x ys

/-- Go `sort.Strings`, as insertion sort (same sorted result). -/
def sortStrs (l : List Str) : List Str := l.foldr insertStr []

/-! ## Schema registry (schema.go: rawSchema, normalizeSchema, LoadSchemas)

The JSON decoding step is elided: the model starts from the decoded
`rawSchema` records, which is the input `normalizeSchema` receives.
Error payloads are abbreviated; only error-versus-success matters to
the properties under study. -/

/-- Decoded form of one property of a `*.schema.json` document
(Go `rawSchemaProp`). -/
structure RawSchemaProp where
  ty : Str
  enum : List Str
  minLength : Option Int
  maxLength : Option Int
  minimum : Option ℚ
  maximum : Option ℚ
  items : Option Str
  deriving DecidableEq, Repr

/-- Decoded form of a `*.schema.json` document (Go `rawSchema`). -/
structure RawSchema where
  ty : Str
  required : List Str
  properties : List (Str × RawSchemaProp)
  deriving DecidableEq, Repr

/-- Normalized schema property (Go `SchemaProperty`). -/
structure SchemaProperty where
  ty : Str
  enum : List Str
  minLength : Option Int
  maxLength : Option Int
  minimum : Option ℚ
  maximum : Option ℚ
  itemsType : Str
  deriving DecidableEq, Repr

/-- Normalized schema (Go `Schema`). -/
structure Schema where
  ty : Str
  required : List Str
  properties : List (Str × SchemaProperty)
  deriving DecidableEq, Repr

/-- Per-property section of Go `normalizeSchema`: the property copy with
sorted enum, the `switch p.Type` kind checks, and the enum / length /
range applicability checks, in source order. -/
def normalizeProp (p : RawSchemaProp) : Except Str SchemaProperty :=
  let sp0 : SchemaProperty :=
    { ty := p.ty, enum := sortStrs p.enum, minLength := p.minLength,
      maxLength := p.maxLength, minimum := p.minimum, maximum := p.maximum,
      itemsType := [] }
  let kindChecked : Except Str SchemaProperty :=
    if p.ty = cs "string" ∨ p.ty = cs "number" ∨ p.ty = cs "integer" ∨ p.ty = cs "boolean" then
      .ok sp0
    else if p.ty = cs "array" then
      match p.items with
      | none => .error (cs "array missing items.type")
      | some it =>
        if it = cs "string" ∨ it = cs "number" ∨ it = cs "integer" then
          .ok { sp0 with itemsType := it }
        else .error (cs "array items.type must be string/number/integer")
    else .error (cs "unsupported type")
  kindChecked.bind fun sp =>
  if p.ty = cs "array" ∧ p.enum ≠ [] then .error (cs "enum not supported for array")
  else if p.ty ≠ cs "string" ∧ (p.minLength.isSome ∨ p.maxLength.isSome) then
    .error (cs "minLength/maxLength only valid for string")
  else if (p.ty ≠ cs "number" ∧ p.ty ≠ cs "integer") ∧ (p.minimum.isSome ∨ p.maximum.isSome) then
    .error (cs "minimum/maximum only valid for number/integer")
  else .ok sp

/-- The property loop of Go `normalizeSchema`. -/
def normalizeProps : List (Str × RawSchemaProp) → Except Str (List (Str × SchemaProperty))
  | [] => .ok []
  | (f, p) :: rest =>
    match normalizeProp p with
    | .error e => .error e
    | .ok sp =>
      match normalizeProps rest with
      | .error e => .error e
      | .ok sps => .ok ((f, sp) :: sps)

/-- Go `normalizeSchema`. -/
def normalizeSchema (typeName : Str) (raw : RawSchema) : Except Str Schema :=
  if raw.ty ≠ cs "object" then .error (cs "root type must be object")
  else
    match normalizeProps raw.properties with
    | .error e => .error e
    | .ok props =>
      if (lookupA (cs "_id") props).isSome then
        .error (cs "_id must not appear in schema properties")
      else if (lookupA (cs "_type") props).isSome then
        .error (cs "_type must not appear in schema properties")
      else .ok { ty := typeName, required := raw.required, properties := props }

/-- Go `LoadSchemas`, starting from the decoded schema documents (one
per `config/schemas/<type>.schema.json` file, type name = filename
stem).  The first `normalizeSchema` failure aborts the load. -/
def loadSchemas : List (Str × RawSchema) → Except Str (List (Str × Schema))
  | [] => .ok []
  | (name, raw) :: rest =>
    match normalizeSchema name raw with
    | .error e => .error e
    | .ok s =>
      match loadSchemas rest with
      | .error e => .error e
      | .ok ss => .ok ((name, s) :: ss)

/-- Go `LoadSchemas` including the final zero-schemas rejection. -/
def loadSchemasChecked (docs : List (Str × RawSchema)) : Except Str (List (Str × Schema)) :=
  match loadSchemas docs with
  | .error e => .error e
  | .ok ss => if ss = [] then .error (cs "no schema files found") else .ok ss

/-- Did the computation fail?  (`err != nil` on the Go side.) -/
def isErr {α : Type} : Except Str α → Bool
  | .error _ => true
  | .ok _ => false

instance {ε α : Type} [DecidableEq ε] [DecidableEq α] : DecidableEq (Except ε α) := fun a b =>
  match a, b with
  | .error e1, .error e2 => decidable_of_iff (e1 = e2) (by simp)
  | .ok v1, .ok v2 => decidable_of_iff (v1 = v2) (by simp)
  | .error _, .ok _ => isFalse (by intro h; cases h)
  | .ok _, .error _ => isFalse (by intro h; cases h)

theorem normalizeProp_array_enum (p : RawSchemaProp) (h1 : p.ty = cs "array")
    (h2 : p.enum ≠ []) : isErr (normalizeProp p) = true := by
  have hne : ¬(p.ty = cs "string" ∨ p.ty = cs "number" ∨ p.ty = cs "integer" ∨
      p.ty = cs "boolean") := by
    rw [h1]; decide
  simp only [normalizeProp, if_neg hne, if_pos h1]
  rcases p.items with _ | it
  · rfl
  · show isErr ((if it = cs "string" ∨ it = cs "number" ∨ it = cs "integer" then
        Except.ok (SchemaProperty.mk p.ty (sortStrs p.enum) p.minLength
          p.maxLength p.minimum p.maximum it)
      else Except.error (cs "array items.type must be string/number/integer")).bind _) = true
    by_cases hit : it = cs "string" ∨ it = cs "number" ∨ it = cs "integer"
    · rw [if_pos hit]
      show isErr (if p.ty = cs "array" ∧ p.enum ≠ [] then _ else _) = true
      rw [if_pos (And.intro h1 h2)]
      rfl
    · rw [if_neg hit]; rfl

theorem normalizeProps_mem_err (l : List (Str × RawSchemaProp)) (field : Str)
    (p : RawSchemaProp) (hm : (field, p) ∈ l) (he : isErr (normalizeProp p) = true) :
    isErr (normalizeProps l) = true := by
  induction l with
  | nil => cases hm
  | cons hd tl ih =>
    obtain ⟨f0, p0⟩ := hd
    rcases List.mem_cons.mp hm with heq | htl
    · obtain ⟨h1, h2⟩ := Prod.mk.injEq .. ▸ heq
      have hep0 : isErr (normalizeProp p0) = true := by rw [← h2]; exact he
      simp only [normalizeProps]
      cases hnp : normalizeProp p0 with
      | error e => rfl
      | ok sp => rw [hnp] at hep0; cases hep0
    · simp only [normalizeProps]
      cases hnp : normalizeProp p0 with
      | error e => rfl
      | ok sp =>
        have hrest := ih htl
        cases hps : normalizeProps tl with
        | error e => rfl
        | ok sps => rw [hps] at hrest; cases hrest

theorem normalizeSchema_mem_err (name : Str) (raw : RawSchema) (field : Str)
    (p : RawSchemaProp) (hm : (field, p) ∈ raw.properties)
    (he : isErr (normalizeProp p) = true) :
    isErr (normalizeSchema name raw) = true := by
  by_cases hty : raw.ty = cs "object"
  · have hcond : ¬ raw.ty ≠ cs "object" := fun h => h hty
    simp only [normalizeSchema, if_neg hcond]
    have hprops := normalizeProps_mem_err raw.properties field p hm he
    cases hps : normalizeProps raw.properties with
    | error e => rfl
    | ok props => rw [hps] at hprops; cases hprops
  · simp only [normalizeSchema, if_pos hty]
    rfl

theorem loadSchemas_mem_err (docs : List (Str × RawSchema)) (name : Str)
    (raw : RawSchema) (hm : (name, raw) ∈ docs)
    (he : isErr (normalizeSchema name raw) = true) :
    isErr (loadSchemasChecked docs) = true := by
  have main : isErr (loadSchemas docs) = true := by
    induction docs with
    | nil => cases hm
    | cons hd tl ih =>
      obtain ⟨n0, r0⟩ := hd
      rcases List.mem_cons.mp hm with heq | htl
      · obtain ⟨h1, h2⟩ := Prod.mk.injEq .. ▸ heq
        have he0 : isErr (normalizeSchema n0 r0) = true := by rw [← h1, ← h2]; exact he
        simp only [loadSchemas]
        cases hns : normalizeSchema n0 r0 with
        | error e => rfl
        | ok s => rw [hns] at he0; cases he0
      · simp only [loadSchemas]
        cases hns : normalizeSchema n0 r0 with
        | error e => rfl
        | ok s =>
          have hrest := ih htl
          cases hls : loadSchemas tl with
          | error e => rfl
          | ok ss => rw [hls] at hrest; cases hrest
  simp only [loadSchemasChecked]
  cases hls : loadSchemas docs with
  | error e => rfl
  | ok ss => rw [hls] at main; cases main

/-- Schema document with a `number`-kind property carrying a non-empty
enum list: the concrete input on which claim C8 fails. -/
def enumNumberDoc : RawSchema :=
  { ty := cs "object", required := [],
    properties := [(cs "x",
      { ty := cs "number", enum := [cs "a"], minLength := none, maxLength := none,
        minimum := none, maximum := none, items := none })] }

/-- Loaded form of `enumNumberDoc`. -/
def enumNumberLoaded : List (Str × Schema) :=
  [(cs "t",
    { ty := cs "t", required := [],
      properties := [(cs "x",
        { ty := cs "number", enum := [cs "a"], minLength := none, maxLength := none,
          minimum := none, maximum := none, itemsType := [] })] })]

/-- C8 counterexample: a schema document declaring a non-empty `enum`
on a property whose kind is `number` (not `string`) is accepted by
schema loading, contradicting the claim that LoadSchemas fails for
every non-string property kind declaring an enum. -/
theorem C8_counterexample :
    (lookupA (cs "x") enumNumberDoc.properties).map RawSchemaProp.ty = some (cs "number")
    ∧ (lookupA (cs "x") enumNumberDoc.properties).map RawSchemaProp.enum = some [cs "a"]
    ∧ loadSchemasChecked [(cs "t", enumNumberDoc)] = .ok enumNumberLoaded :=
  ⟨rfl, rfl, rfl⟩

/-- Enum irrelevance of `normalizeSchema`'s per-property checks on the
scalar non-string kinds: a `number`-, `integer`- or `boolean`-kind
property with no length options (and, for `boolean`, no range options)
is accepted whatever its enum list, which is merely sorted. -/
theorem normalizeProp_scalar_enum_ok (p : RawSchemaProp)
    (hty : p.ty = cs "number" ∨ p.ty = cs "integer" ∨ p.ty = cs "boolean")
    (hmnl : p.minLength = none) (hmxl : p.maxLength = none)
    (hb : p.ty = cs "boolean" → p.minimum = none ∧ p.maximum = none) :
    normalizeProp p = .ok ⟨p.ty, sortStrs p.enum, p.minLength, p.maxLength,
      p.minimum, p.maximum, []⟩ := by
  have hsc : p.ty = cs "string" ∨ p.ty = cs "number" ∨ p.ty = cs "integer" ∨
      p.ty = cs "boolean" := Or.inr hty
  have hna : p.ty ≠ cs "array" := by
    rcases hty with h | h | h <;> rw [h] <;> decide
  have h2 : ¬(p.ty ≠ cs "string" ∧ (p.minLength.isSome ∨ p.maxLength.isSome)) := by
    rw [hmnl, hmxl]
    rintro ⟨-, h | h⟩ <;> simp at h
  have h3 : ¬((p.ty ≠ cs "number" ∧ p.ty ≠ cs "integer") ∧
      (p.minimum.isSome ∨ p.maximum.isSome)) := by
    rcases hty with h | h | h
    · rintro ⟨⟨hn, -⟩, -⟩; exact hn h
    · rintro ⟨⟨-, hi⟩, -⟩; exact hi h
    · obtain ⟨hmin, hmax⟩ := hb h
      rw [hmin, hmax]
      rintro ⟨-, hx | hx⟩ <;> simp at hx
  simp only [normalizeProp, if_pos hsc]
  show (if p.ty = cs "array" ∧ p.enum ≠ [] then Except.error (cs "enum not supported for array")
    else if p.ty ≠ cs "string" ∧ (p.minLength.isSome ∨ p.maxLength.isSome) then
      Except.error (cs "minLength/maxLength only valid for string")
    else if (p.ty ≠ cs "number" ∧ p.ty ≠ cs "integer") ∧
        (p.minimum.isSome ∨ p.maximum.isSome) then
      Except.error (cs "minimum/maximum only valid for number/integer")
    else Except.ok (SchemaProperty.mk p.ty (sortStrs p.enum) p.minLength p.maxLength
      p.minimum p.maximum [])) = Except.ok (SchemaProperty.mk p.ty (sortStrs p.enum)
      p.minLength p.maxLength p.minimum p.maximum [])
  rw [if_neg (fun h => hna h.1), if_neg h2, if_neg h3]

/-- Schema document with an array-kind property declaring an enum, used
to exercise the C8 theorem. -/
def enumArrayDoc : RawSchema :=
  { ty := cs "object", required := [],
    properties := [(cs "x",
      { ty := cs "array", enum := [cs "a"], minLength := none, maxLength := none,
        minimum := none, maximum := none, items := some (cs "string") })] }

/-! ## Exact model of IEEE-754 binary64 (Go float64)

Values are modelled as the exact rational numbers they denote.
`roundQ` is round-to-nearest, ties-to-even, with gradual underflow and
an unbounded top exponent; `goParseFloat` adds Go's out-of-range
rejections (`strconv.ParseFloat` returns a non-nil error on overflow
and on underflow-to-zero of a non-zero literal, and the parser treats
any such error as "invalid number").  NaN cannot arise (the accepted
number grammar has no NaN/Inf literals) and `-0` is identified with
`0`, matching `==`/`reflect.DeepEqual` on float64. -/

/-- Largest finite binary64 value. -/
def maxF64 : ℚ := (2 ^ 53 - 1) * 2 ^ 971

/-- Floor of the base-two logarithm of a positive rational. -/
def ilogb (x : ℚ) : ℤ :=
  let e0 : ℤ := (x.num.natAbs.log2 : ℤ) - (x.den.log2 : ℤ)
  if x < (2 : ℚ) ^ e0 then e0 - 1 else e0

/-- Round to the nearest integer, ties to even. -/
def rne (r : ℚ) : ℤ :=
  let n := ⌊r⌋
  let f := r - n
  if f < 1 / 2 then n
  else if 1 / 2 < f then n + 1
  else if n % 2 = 0 then n else n + 1

/-- Correct rounding of an exact rational to the binary64 grid
(round to nearest, ties to even, subnormal granularity below
`2 ^ (-1022)`, exponent unbounded above; overflow is detected by the
caller by comparing with `maxF64`). -/
def roundQ (q : ℚ) : ℚ :=
  if q = 0 then 0
  else
    let x := |q|
    let e := ilogb x
    let ulp : ℤ := max (e - 52) (-1074)
    let r := (rne (x / (2 : ℚ) ^ ulp) : ℚ) * (2 : ℚ) ^ ulp
    if q < 0 then -r else r

/-- Go `strconv.ParseFloat` on an exact decimal value: correct rounding
plus the `ErrRange` rejections (overflow to infinity, and underflow of
a non-zero value to zero). -/
def goParseFloat (q : ℚ) : Option ℚ :=
  let r := roundQ q
  if maxF64 < |r| then none
  else if q ≠ 0 ∧ r = 0 then none
  else some r

/-- Representable finite binary64 values. -/
def ReprQ (q : ℚ) : Prop :=
  ∃ m e : ℤ, |m| < 2 ^ 53 ∧ -1074 ≤ e ∧ q = (m : ℚ) * (2 : ℚ) ^ e ∧ |q| ≤ maxF64

/-- Truncation toward zero (the mathematical part of Go's float-to-int
conversion). -/
def ratTrunc (q : ℚ) : ℤ := if 0 ≤ q then ⌊q⌋ else -⌊-q⌋

/-- Go conversion `int64(n)` for a float64 value.  For values whose
truncation is outside the int64 range the Go specification leaves the
result implementation-specific; this models the x86-64 behaviour
(CVTTSD2SI), which produces the "integer indefinite" value `-2 ^ 63`
for every out-of-range input. -/
def goInt64 (q : ℚ) : ℤ :=
  let t := ratTrunc q
  if -(2 ^ 63) ≤ t ∧ t < 2 ^ 63 then t else -(2 ^ 63)

/-- Go conversion `float64(k)` of an int64 value: correct rounding of
the integer. -/
def floatOfInt64 (k : ℤ) : ℚ := roundQ (k : ℚ)

/-! ## Decimal digit strings -/

/-- Decimal digit character for a value below ten. -/
def digitCh (d : ℕ) : Char := Char.ofNat (48 + d)

/-- Is this an ASCII decimal digit? -/
def isDigitCh (c : Char) : Bool := 48 ≤ c.toNat ∧ c.toNat ≤ 57

/-- Numeric value of a digit character. -/
def digVal (c : Char) : ℕ := c.toNat - 48

/-- Value of a digit string, most significant first. -/
def digitsVal (s : Str) : ℕ := s.foldl (fun acc c => 10 * acc + digVal c) 0

/-- Little-endian digits of a positive natural number. -/
def natDigitsCore : ℕ → Str
  | 0 => []
  | n + 1 => digitCh ((n + 1) % 10) :: natDigitsCore ((n + 1) / 10)
decreasing_by exact Nat.div_lt_self (Nat.succ_pos n) (by omega)

/-- Decimal digit string of a natural number, most significant first. -/
def natDigits (n : ℕ) : Str := if n = 0 then [digitCh 0] else (natDigitsCore n).reverse

/-- Decimal string of an integer (Go `fmt.Sprintf("%d", k)`). -/
def intDec (k : ℤ) : Str :=
  if k < 0 then '-' :: natDigits k.natAbs else natDigits k.natAbs

/-- Exact decimal expansion of a dyadic rational (used as the terminal
formatting candidate; every dyadic rational has a finite decimal
expansion, which round-trips exactly). -/
def exactDec (q : ℚ) : Str :=
  let k := q.den.log2
  let ds := natDigits (q.num * 5 ^ k).natAbs
  let body :=
    if k = 0 then ds
    else
      let padded := if ds.length ≤ k then List.replicate (k + 1 - ds.length) (digitCh 0) ++ ds else ds
      padded.take (padded.length - k) ++ '.' :: padded.drop (padded.length - k)
  if q.num < 0 then '-' :: body else body

/-- Fuel-bounded search for the decimal exponent of a positive rational
below one (the least `j ≥ 1` with `x * 10 ^ j ≥ 1`, negated). -/
def decExpSmall (x : ℚ) : ℕ → ℕ → ℤ
  | 0, j => -(j : ℤ)
  | fuel + 1, j => if 1 ≤ x * 10 ^ j then -(j : ℤ) else decExpSmall x fuel (j + 1)

/-- Decimal exponent of a positive rational: the integer `d` with
`10 ^ d ≤ x < 10 ^ (d + 1)` (approximate for inputs far outside the
float64 range; every use is guarded by a round-trip check). -/
def decExp (x : ℚ) : ℤ :=
  if 1 ≤ x then ((natDigits ⌊x⌋.toNat).length : ℤ) - 1
  else decExpSmall x 1200 1

/-- Drops trailing zero digits. -/
def stripZeros (ds : Str) : Str := trimRightP (fun c => c = digitCh 0) ds

/-- Renders a decimal exponent as Go does inside `%g` output: sign and
at least two exponent digits. -/
def expPart (x : ℤ) : Str :=
  let ds := natDigits x.natAbs
  let ds2 := if ds.length < 2 then digitCh 0 :: ds else ds
  (if x < 0 then '-' :: ds2 else '+' :: ds2)

/-- Renders `p` significant digits of `q` in Go `%g` style (fixed-point
form for decimal exponents in `[-4, 21)`, exponent form otherwise;
trailing zeros removed).  Used only to enumerate formatting candidates;
each candidate is validated by an exact parse-back check. -/
def formatSig (q : ℚ) (p : ℕ) : Str :=
  let x := |q|
  let d10 := decExp x
  let m0 := rne (x * (10 : ℚ) ^ ((p : ℤ) - 1 - d10))
  let (m, d) := if m0 = 10 ^ p then ((10 : ℤ) ^ (p - 1), d10 + 1) else (m0, d10)
  let dsFull := natDigits m.natAbs
  let ds := stripZeros dsFull
  let ds := if ds = [] then [digitCh 0] else ds
  let body :=
    if d < -4 ∨ 21 ≤ d then
      (match ds with
       | [c] => [c]
       | c :: rest => c :: '.' :: rest
       | [] => [digitCh 0]) ++ 'e' :: expPart d
    else if 0 ≤ d then
      if ds.length ≤ d.toNat + 1 then ds ++ List.replicate (d.toNat + 1 - ds.length) (digitCh 0)
      else ds.take (d.toNat + 1) ++ '.' :: ds.drop (d.toNat + 1)
    else List.replicate 1 (digitCh 0) ++ '.' :: List.replicate (d.natAbs - 1) (digitCh 0) ++ ds
  if q < 0 then '-' :: body else body

/-! ## Number literal grammar and formatting

`parseNumberLit` implements exactly the anchored pattern
`[+-]?(\d+\.?\d*|\.\d+)([eE][+-]?\d+)?` and simultaneously computes the
exact decimal value; `numberLiteralPattern.MatchString(s)` is
`(parseNumberLit s).isSome`, and `strconv.ParseFloat` on a matching
string is `goParseFloat` of the exact value. -/

/-- Splits leading digits from the rest. -/
def spanDigits (s : Str) : Str × Str := (s.takeWhile isDigitCh, s.dropWhile isDigitCh)

/-- Exponent-and-end part of the number literal grammar; `ids`, `fds`
are the integral and fractional digits already consumed. -/
def parseExpTail (sgn : ℚ) (ids fds : Str) (rest : Str) : Option ℚ :=
  let mant : ℚ := (digitsVal ids : ℚ) + (digitsVal fds : ℚ) / 10 ^ fds.length
  match rest with
  | [] => some (sgn * mant)
  | e :: r2 =>
    if e = 'e' ∨ e = 'E' then
      let (esgn, r3) : ℤ × Str :=
        match r2 with
        | '+' :: r => (1, r)
        | '-' :: r => (-1, r)
        | r => (1, r)
      let (eds, r4) := spanDigits r3
      if eds = [] ∨ r4 ≠ [] then none
      else some (sgn * mant * (10 : ℚ) ^ (esgn * (digitsVal eds : ℤ)))
    else none

/-- Anchored match of the Go `numberLiteralPattern` together with the
exact rational value of the literal. -/
def parseNumberLit (s : Str) : Option ℚ :=
  let (sgn, s1) : ℚ × Str :=
    match s with
    | '+' :: r => (1, r)
    | '-' :: r => (-1, r)
    | r => (1, r)
  let (ids, s2) := spanDigits s1
  if ids ≠ [] then
    match s2 with
    | '.' :: r2 =>
      let (fds, s3) := spanDigits r2
      parseExpTail sgn ids fds s3
    | _ => parseExpTail sgn ids [] s2
  else
    match s1 with
    | '.' :: r2 =>
      let (fds, s3) := spanDigits r2
      if fds = [] then none else parseExpTail sgn [] fds s3
    | _ => none

/-- Does this digit string parse back (through the number grammar and
float64 rounding) to exactly `q`?  Go's shortest `%g` output is by
definition the shortest digit string with this property. -/
def chkNum (q : ℚ) (s : Str) : Bool :=
  match parseNumberLit s with
  | none => false
  | some e => goParseFloat e = some q

/-- Go `strconv.FormatFloat(q, 'g', -1, 64)`: the shortest significant
digit count (at most 17) whose correctly rounded rendering parses back
to `q`, in `%g` style; the exact decimal expansion is a terminal
fallback with the same parse-back guarantee. -/
def gFormat (q : ℚ) : Str :=
  (((List.range 17).map (fun i => formatSig q (i + 1))).find? (chkNum q)).getD (exactDec q)

/-- Go `formatNumber`: integral values in int64 range print as `%d` of
the truncation, everything else as shortest `%g`. -/
def formatNumber (q : ℚ) : Str :=
  if floatOfInt64 (goInt64 q) = q then intDec (goInt64 q) else gFormat q

/-! ## Quoted strings (strconv.Quote / strconv.Unquote)

One simplification relative to Go: `strconv.Quote` keeps printable
non-ASCII runes literal while this model escapes every non-ASCII rune
with `\u`/`\U`.  Both encodings unquote to the same string, so every
property proved here (and every counterexample) is insensitive to the
difference; only the exact escape bytes chosen for exotic runes differ. -/

/-- Lowercase hexadecimal digit. -/
def hexCh (d : ℕ) : Char := if d < 10 then digitCh d else Char.ofNat (87 + d)

/-- Fixed-width big-endian hexadecimal rendering. -/
def hexDigits (len n : ℕ) : Str := ((List.range len).reverse).map fun i => hexCh (n / 16 ^ i % 16)

/-- Escape of one character inside a double-quoted Go string literal. -/
def quoteChar (c : Char) : Str :=
  if c = '"' then ['\\', '"']
  else if c = '\\' then ['\\', '\\']
  else if 0x20 ≤ c.toNat ∧ c.toNat ≤ 0x7E then [c]
  else if c = '\n' then ['\\', 'n']
  else if c = '\t' then ['\\', 't']
  else if c = '\r' then ['\\', 'r']
  else if c.toNat = 7 then ['\\', 'a']
  else if c.toNat = 8 then ['\\', 'b']
  else if c.toNat = 12 then ['\\', 'f']
  else if c.toNat = 11 then ['\\', 'v']
  else if c.toNat < 0x80 then '\\' :: 'x' :: hexDigits 2 c.toNat
  else if c.toNat < 0x10000 then '\\' :: 'u' :: hexDigits 4 c.toNat
  else '\\' :: 'U' :: hexDigits 8 c.toNat

/-- Go `strconv.Quote`. -/
def goQuote (s : Str) : Str := '"' :: (s.map quoteChar).flatten ++ ['"']

/-- Value of one hexadecimal digit character. -/
def hexVal (c : Char) : Option ℕ :=
  if 48 ≤ c.toNat ∧ c.toNat ≤ 57 then some (c.toNat - 48)
  else if 97 ≤ c.toNat ∧ c.toNat ≤ 102 then some (c.toNat - 87)
  else if 65 ≤ c.toNat ∧ c.toNat ≤ 70 then some (c.toNat - 55)
  else none

/-- Consumes exactly `n` hexadecimal digits. -/
def readHex : ℕ → ℕ → Str → Option (ℕ × Str)
  | 0, acc, rest => some (acc, rest)
  | _ + 1, _, [] => none
  | n + 1, acc, c :: r =>
    match hexVal c with
    | some d => readHex n (16 * acc + d) r
    | none => none

/-- Value of one octal digit character. -/
def octVal (c : Char) : Option ℕ :=
  if 48 ≤ c.toNat ∧ c.toNat ≤ 55 then some (c.toNat - 48) else none

/-- Consumes exactly `n` octal digits. -/
def readOct : ℕ → ℕ → Str → Option (ℕ × Str)
  | 0, acc, rest => some (acc, rest)
  | _ + 1, _, [] => none
  | n + 1, acc, c :: r =>
    match octVal c with
    | some d => readOct n (8 * acc + d) r
    | none => none

/-- Builds the character a `\u`/`\U` escape denotes; values beyond the
rune range are rejected, surrogate code points decode to U+FFFD just as
Go's re-encoding through `utf8.EncodeRune` produces. -/
def mkEscCh (n : ℕ) : Option Char :=
  if 0x10FFFF < n then none
  else if 0xD800 ≤ n ∧ n ≤ 0xDFFF then some (Char.ofNat 0xFFFD)
  else some (Char.ofNat n)

/-- Go `strconv.UnquoteChar` after a backslash, inside a double-quoted
literal (so `\'` is rejected).  Returns the decoded character and the
number of characters the escape consumed. -/
def unquoteEsc : Str → Option (Char × ℕ)
  | [] => none
  | c :: rest =>
    if c = 'a' then some (Char.ofNat 7, 1)
    else if c = 'b' then some (Char.ofNat 8, 1)
    else if c = 'f' then some (Char.ofNat 12, 1)
    else if c = 'n' then some ('\n', 1)
    else if c = 'r' then some ('\r', 1)
    else if c = 't' then some ('\t', 1)
    else if c = 'v' then some (Char.ofNat 11, 1)
    else if c = '\\' then some ('\\', 1)
    else if c = '"' then some ('"', 1)
    else if c = 'x' then
      match readHex 2 0 rest with
      | some (v, _) => some (Char.ofNat v, 3)
      | none => none
    else if c = 'u' then
      match readHex 4 0 rest with
      | some (v, _) => (mkEscCh v).map fun ch => (ch, 5)
      | none => none
    else if c = 'U' then
      match readHex 8 0 rest with
      | some (v, _) => (mkEscCh v).map fun ch => (ch, 9)
      | none => none
    else
      match octVal c with
      | some d =>
        match readOct 2 d rest with
        | some (v, _) => if 255 < v then none else some (Char.ofNat v, 3)
        | none => none
      | none => none

/-- Body loop of Go `strconv.Unquote` for a double-quoted literal: no
raw newline, no unescaped quote, escapes decoded by `unquoteEsc`. -/
def unquoteBody (s : Str) : Option Str :=
  match s with
  | [] => some []
  | c :: rest =>
    if c = '"' then none
    else if c = '\n' then none
    else if c = '\\' then
      match unquoteEsc rest with
      | none => none
      | some (ch, k) => (unquoteBody (rest.drop k)).map (ch :: ·)
    else (unquoteBody rest).map (c :: ·)
termination_by s.length
decreasing_by
  · have := List.length_drop k rest
    simp only [List.length_cons]
    omega
  · simp only [List.length_cons]; omega

/-! ## Scalar values (parseYAMLScalar and the render functions) -/

/-- Interior of a delimited literal: drops the first and last character. -/
def stripEnds (s : Str) : Str := (s.drop 1).dropLast

/-- Go `parseYAMLScalar`. -/
def parseYAMLScalar (raw : Str) : Except Str Value :=
  if raw = cs "[]" then .ok (.varr [])
  else if 2 ≤ raw.length ∧ raw.head? = some '"' ∧ raw.getLast? = some '"' then
    match unquoteBody (stripEnds raw) with
    | none => .error (cs "invalid quoted string")
    | some s => .ok (.vstr s)
  else if 2 ≤ raw.length ∧ raw.head? = some '\'' ∧ raw.getLast? = some '\'' then
    .ok (.vstr (stripEnds raw))
  else if raw = cs "true" then .ok (.vbool true)
  else if raw = cs "false" then .ok (.vbool false)
  else if raw = cs "null" then .ok .vnull
  else
    match parseNumberLit raw with
    | some e =>
      match goParseFloat e with
      | some f => .ok (.vnum f)
      | none => .error (cs "invalid number")
    | none => .ok (.vstr raw)

/-- ASCII lower-casing; Go's `strings.ToLower` also folds a handful of
non-ASCII runes, none of which can turn a string into exactly
`true`/`false`/`null`, and the guard using this function is protective
only (the parser itself compares against the exact lowercase words), so
the difference is invisible to every property in this file. -/
def asciiLower (c : Char) : Char :=
  if 65 ≤ c.toNat ∧ c.toNat ≤ 90 then Char.ofNat (c.toNat + 32) else c

/-- Membership in the Go safe-string class: letters, digits, underscore, dot, slash, hyphen. -/
def isSafeCh (c : Char) : Bool :=
  (65 ≤ c.toNat ∧ c.toNat ≤ 90) ∨ (97 ≤ c.toNat ∧ c.toNat ≤ 122) ∨
  (48 ≤ c.toNat ∧ c.toNat ≤ 57) ∨ c = '_' ∨ c = '.' ∨ c = '/' ∨ c = '-'

/-- Go `renderYAMLString`. -/
def renderYAMLString (s : Str) : Str :=
  if s = [] then ['"', '"']
  else
    let lower := s.map asciiLower
    if lower = cs "true" ∨ lower = cs "false" ∨ lower = cs "null" ∨
        (parseNumberLit s).isSome then goQuote s
    else if s.all isSafeCh then s
    else goQuote s

/-- Go `renderYAMLScalar`.  The `int`/`int64` cases of the Go function
are unreachable here: model values only carry the parser's range, in
which every number is a float64. -/
def renderYAMLScalar (v : Value) : Except Str Str :=
  match v with
  | .vstr s => .ok (renderYAMLString s)
  | .vnum q => .ok (formatNumber q)
  | .vnull => .ok (cs "null")
  | _ => .error (cs "unsupported scalar type")

/-! ## Whole documents (ParseSimpleYAMLObject / MarshalSimpleYAMLObject) -/

/-- Emitted lines for the sequence items of one array field. -/
def renderItems : List Value → Except Str (List Str)
  | [] => .ok []
  | it :: rest =>
    match renderYAMLScalar it with
    | .error e => .error e
    | .ok s =>
      match renderItems rest with
      | .error e => .error e
      | .ok ls => .ok ((cs "  - " ++ s) :: ls)

/-- Emitted lines for one `key`/`value` entry of the object. -/
def marshalEntry (k : Str) (v : Value) : Except Str (List Str) :=
  match v with
  | .vnull => .ok [k ++ cs ": null"]
  | .vstr s => .ok [k ++ cs ": " ++ renderYAMLString s]
  | .vbool true => .ok [k ++ cs ": true"]
  | .vbool false => .ok [k ++ cs ": false"]
  | .vnum q => .ok [k ++ cs ": " ++ formatNumber q]
  | .varr [] => .ok [k ++ cs ": []"]
  | .varr items =>
    match renderItems items with
    | .error e => .error e
    | .ok ls => .ok ((k ++ [':']) :: ls)

/-- Line list emitted for an object.  The object is held in canonical
ascending-key form, so iterating it in order is exactly Go's iteration
over `sort.Strings`-sorted keys. -/
def marshalLines : Obj → Except Str (List Str)
  | [] => .ok []
  | (k, v) :: rest =>
    match marshalEntry k v with
    | .error e => .error e
    | .ok ls =>
      match marshalLines rest with
      | .error e => .error e
      | .ok more => .ok (ls ++ more)

/-- Joins emitted lines, one trailing newline each. -/
def joinNL (ls : List Str) : Str := (ls.map (· ++ ['\n'])).flatten

/-- Go `MarshalSimpleYAMLObject`. -/
def marshalSimple (o : Obj) : Except Str Str :=
  match marshalLines o with
  | .error e => .error e
  | .ok ls => .ok (joinNL ls)

/-- Array-item loop of `ParseSimpleYAMLObject`: consumes the `  - `
lines (and interleaved blank lines) after a `key:` header, returning
the items and the still-unconsumed lines. -/
def parseArrayLines : List Str → Except Str (List Value × List Str)
  | [] => .ok ([], [])
  | l :: ls =>
    let line := trimRightCut l
    if trimSpace line = [] then parseArrayLines ls
    else if startsWithSeq (cs "#") (trimSpace line) ∨ hasSpHash line then
      .error (cs "comments are not allowed")
    else if startsWithSeq (cs "  - ") line then
      match parseYAMLScalar (trimSpace (dropSeq (cs "  - ") line)) with
      | .error e => .error e
      | .ok item =>
        match parseArrayLines ls with
        | .error e => .error e
        | .ok (items, rest) => .ok (item :: items, rest)
    else .ok ([], l :: ls)

theorem parseArrayLines_rest_len : ∀ ls items rest,
    parseArrayLines ls = .ok (items, rest) → rest.length ≤ ls.length := by
  intro ls
  induction ls with
  | nil => intro items rest h; cases h; simp
  | cons l tl ih =>
    intro items rest h
    simp only [parseArrayLines] at h
    split at h
    · have := ih _ _ h; simpa using Nat.le_succ_of_le this
    · split at h
      · cases h
      · split at h
        · cases hsc : parseYAMLScalar (trimSpace (dropSeq (cs "  - ") (trimRightCut l))) with
          | error e => rw [hsc] at h; cases h
          | ok item =>
            rw [hsc] at h
            cases hrec : parseArrayLines tl with
            | error e => rw [hrec] at h; cases h
            | ok pr =>
              obtain ⟨items2, rest2⟩ := pr
              rw [hrec] at h
              cases h
              have := ih _ _ hrec
              simpa using Nat.le_succ_of_le this
        · cases h; simp

/-- Main loop of Go `ParseSimpleYAMLObject`, over the split lines.
`acc` is the map built so far (`out`); map assignment is sorted
insertion. -/
def parseLines : List Str → Obj → Except Str Obj
  | [], acc => .ok acc
  | l :: ls, acc =>
    let line := trimRightCut l
    if trimSpace line = [] then parseLines ls acc
    else if startsWithSeq (cs "#") (trimSpace line) ∨ hasSpHash line then
      .error (cs "comments are not allowed")
    else if startsWithSeq (cs " ") line ∨ startsWithSeq (cs "\t") line then
      .error (cs "unexpected indentation")
    else
      match idxOf ':' line with
      | none => .error (cs "line is not key: value")
      | some 0 => .error (cs "line is not key: value")
      | some n =>
        let key := trimSpace (line.take n)
        let rest := trimSpace (line.drop (n + 1))
        if key = [] then .error (cs "line has empty key")
        else if (lookupV key acc).isSome then .error (cs "duplicate key")
        else if rest = [] then
          match hp : parseArrayLines ls with
          | .error e => .error e
          | .ok (items, remaining) => parseLines remaining (insertSortedV key (.varr items) acc)
        else
          match parseYAMLScalar rest with
          | .error e => .error e
          | .ok v => parseLines ls (insertSortedV key v acc)
termination_by ls _ => ls.length
decreasing_by
  · simp only [List.length_cons]; omega
  · have := parseArrayLines_rest_len ls items remaining hp
    simp only [List.length_cons]; omega
  · simp only [List.length_cons]; omega

/-- Go `ParseSimpleYAMLObject`. -/
def parseSimple (input : Str) : Except Str Obj :=
  parseLines (splitNL (replaceCRLF input)) []

/-- Fuel-indexed restatement of `parseLines` (structural recursion on
the fuel), used to evaluate the parser on concrete documents; it agrees
with `parseLines` whenever the fuel covers the number of lines
(`parseLinesF_eq`). -/
def parseLinesF : ℕ → List Str → Obj → Except Str Obj
  | _, [], acc => .ok acc
  | 0, _ :: _, _ => .error []
  | fuel + 1, l :: ls, acc =>
    let line := trimRightCut l
    if trimSpace line = [] then parseLinesF fuel ls acc
    else if startsWithSeq (cs "#") (trimSpace line) ∨ hasSpHash line then
      .error (cs "comments are not allowed")
    else if startsWithSeq (cs " ") line ∨ startsWithSeq (cs "\t") line then
      .error (cs "unexpected indentation")
    else
      match idxOf ':' line with
      | none => .error (cs "line is not key: value")
      | some 0 => .error (cs "line is not key: value")
      | some n =>
        let key := trimSpace (line.take n)
        let rest := trimSpace (line.drop (n + 1))
        if key = [] then .error (cs "line has empty key")
        else if (lookupV key acc).isSome then .error (cs "duplicate key")
        else if rest = [] then
          match parseArrayLines ls with
          | .error e => .error e
          | .ok (items, remaining) => parseLinesF fuel remaining (insertSortedV key (.varr items) acc)
        else
          match parseYAMLScalar rest with
          | .error e => .error e
          | .ok v => parseLinesF fuel ls (insertSortedV key v acc)

/-! ## Value normalization (normalizeObjectValue) -/

mutual

/-- Go `normalizeObjectValue`.  The `int`/`int64` cases collapse into
`vnum` (the parser already produces float64 only), and the
`map[string]any` case is unrepresentable in the parser's value range,
exactly as it is unreachable from `ParseSimpleYAMLObject` output. -/
def normalizeValue : Value → Except Str Value
  | .vstr s => .ok (.vstr s)
  | .vbool b => .ok (.vbool b)
  | .vnull => .ok .vnull
  | .vnum q => .ok (.vnum q)
  | .varr [] => .ok (.varr [])
  | .varr (x :: xs) =>
    match normArrGo (x :: xs) [] with
    | .error e => .error e
    | .ok items => .ok (.varr items)

/-- Element loop of `normalizeObjectValue` over a non-empty array;
the second argument is `elemKind` (empty, `string`, or `number`). -/
def normArrGo : List Value → Str → Except Str (List Value)
  | [], _ => .ok []
  | x :: xs, kind =>
    match normalizeValue x with
    | .error e => .error e
    | .ok nv =>
      match nv with
      | .vstr s =>
        if kind = [] ∨ kind = cs "string" then
          match normArrGo xs (cs "string") with
          | .error e => .error e
          | .ok rest => .ok (.vstr s :: rest)
        else .error (cs "array elements must all be same primitive type")
      | .vnum q =>
        if kind = [] ∨ kind = cs "number" then
          match normArrGo xs (cs "number") with
          | .error e => .error e
          | .ok rest => .ok (.vnum q :: rest)
        else .error (cs "array elements must all be same primitive type")
      | _ => .error (cs "arrays may contain only strings or numbers")

end

/-- Field loop applying `normalizeObjectValue` to every value of a
parsed map (as `readObjectAtRef` and `ParseObjectFile` both do). -/
def normalizeObj : Obj → Except Str Obj
  | [] => .ok []
  | (k, v) :: rest =>
    match normalizeValue v with
    | .error e => .error e
    | .ok nv =>
      match normalizeObj rest with
      | .error e => .error e
      | .ok more => .ok ((k, nv) :: more)

/-! ## Three-way merge (mergeThreeWayObject and helpers) -/

/-- Splits on an arbitrary separator character (Go `strings.Split`). -/
def splitCh (sep : Char) : Str → List Str
  | [] => [[]]
  | c :: rest =>
    if c = sep then [] :: splitCh sep rest
    else
      match splitCh sep rest with
      | [] => [[c]]
      | s :: ss => (c :: s) :: ss

/-- Go `conflictKey`. -/
def conflictKey (file field : Str) : Str := file ++ cs "::" ++ field

/-- Go `FieldConflict`.  The `base`/`main`/`ws` slots hold the compared
values, with `vnull` standing for Go's `nil` exactly as in the source
(a missing field was nil-filled before the struct is built). -/
structure FieldConflict where
  file : Str
  field : Str
  base : Value
  main : Value
  ws : Value
  key : Str
  deriving DecidableEq, Repr

/-- Go `parseManualFieldValue`, followed by the caller's `nil` test:
`ok none` is a Go `nil` manual value (drop the field). -/
def parseManualParts : List Str → Except Str (List Value)
  | [] => .ok []
  | p :: rest =>
    match parseYAMLScalar (trimSpace p) with
    | .error e => .error e
    | .ok v =>
      match parseManualParts rest with
      | .error e => .error e
      | .ok vs => .ok (v :: vs)

/-- Go `parseManualFieldValue`. -/
def parseManualFieldValue (raw : Str) : Except Str (Option Value) :=
  let trimmed := trimSpace raw
  if trimmed = [] then .ok none
  else if (idxOf ',' trimmed).isSome then
    match parseManualParts (splitCh ',' trimmed) with
    | .error e => .error e
    | .ok vs => .ok (some (.varr vs))
  else
    match parseYAMLScalar trimmed with
    | .error e => .error e
    | .ok v => .ok (if v = .vnull then none else some v)

/-- Value of a field in a possibly-nil map (`m[field]` with the `ok`
flag: `none` is `ok = false`). -/
def lookupOpt (k : Str) : Option Obj → Option Value
  | none => none
  | some o => lookupV k o

/-- Nil-filling of a missing field value, as the merge loop does before
comparing (`if !bOK { b = nil }` and so on). -/
def fill (o : Option Value) : Value := o.getD .vnull

/-- Keys of a possibly-nil map. -/
def keysOpt : Option Obj → List Str
  | none => []
  | some o => keysOf o

/-- Deduplicating ascending insertion into a string list. -/
def insertKeyU (x : Str) : List Str → List Str
  | [] => [x]
  | y :: ys =>
    if strLtB x y then x :: y :: ys
    else if x = y then y :: ys
    else y :: insertKeyU x ys

/-- Sorted union of the field names of the three versions (the `keys`
set followed by `sort.Strings(keyList)`). -/
def unionKeys (base main ws : Option Obj) : List Str :=
  (keysOpt base ++ keysOpt main ++ keysOpt ws).foldr insertKeyU []

/-- Outcome of the merge loop body for one field: store a value into
the merged map, store nothing, or record a conflict. -/
inductive FieldOut where
  | put (v : Value)
  | skip
  | clash (c : FieldConflict)
  deriving DecidableEq, Repr

/-- Body of the field loop of Go `mergeThreeWayObject`, for one field
of the sorted key union. -/
def mergeFieldOut (rel : Str) (res man : List (Str × Str))
    (base main ws : Option Obj) (field : Str) : FieldOut :=
  let bO := lookupOpt field base
  let mO := lookupOpt field main
  let wO := lookupOpt field ws
  let b := fill bO
  let m := fill mO
  let w := fill wO
  if m = w then (if mO.isSome then .put m else .skip)
  else if m = b then (if wO.isSome then .put w else .skip)
  else if w = b then (if mO.isSome then .put m else .skip)
  else
    let key := conflictKey rel field
    let choice := (lookupA key res).getD []
    if choice = cs "main" then (if mO.isSome then .put m else .skip)
    else if choice = cs "workspace" then (if wO.isSome then .put w else .skip)
    else if choice = cs "manual" then
      match parseManualFieldValue ((lookupA key man).getD []) with
      | .error _ => .clash ⟨rel, field, b, m, w, key⟩
      | .ok none => .skip
      | .ok (some v) => .put v
    else .clash ⟨rel, field, b, m, w, key⟩

/-- Field loop of Go `mergeThreeWayObject` over the sorted key union:
the merged map accumulates the `put` fields (insertion in ascending
key order is exactly map assignment on the canonical representation)
and conflicts accumulate in field order. -/
def mergeFields (rel : Str) (res man : List (Str × Str))
    (base main ws : Option Obj) : List Str → Obj × List FieldConflict
  | [] => ([], [])
  | f :: fs =>
    let rest := mergeFields rel res man base main ws fs
    match mergeFieldOut rel res man base main ws f with
    | .put v => ((f, v) :: rest.1, rest.2)
    | .skip => rest
    | .clash c => (rest.1, c :: rest.2)

/-- Go `mergeThreeWayObject`: the field loop plus the trailing `_id` /
emptiness checks that decide between "merged map" and "delete file"
(`nil`). -/
def mergeThreeWayObject (rel : Str) (base main ws : Option Obj)
    (res man : List (Str × Str)) : Option Obj × List FieldConflict :=
  let mc := mergeFields rel res man base main ws (unionKeys base main ws)
  if (lookupV (cs "_id") mc.1).isNone ∧ base.isSome then (none, mc.2)
  else if mc.1 = [] then (none, mc.2)
  else (some mc.1, mc.2)

/-! ## Object store (ParseObjectFile, ReadObject, ListObjectsForType,
LoadObjects, WriteObject, objectFromPathAndData)

The file system is an association list from repo-relative forward-slash
paths to byte contents, in canonical sorted form; directory listings
are passed as lists of `(name, content)` pairs. -/

/-- Does `suf` occur at the end of `s`?  (Go `strings.HasSuffix`.) -/
def endsWithSeq (suf s : Str) : Bool := startsWithSeq suf.reverse s.reverse

/-- Go `strings.TrimSuffix`. -/
def dropSuffix (suf s : Str) : Str :=
  if endsWithSeq suf s then s.take (s.length - suf.length) else s

/-- Go `Object`: identity, type, field map, repo-relative path. -/
structure ObjRec where
  id : Str
  ty : Str
  data : Obj
  path : Str
  deriving DecidableEq, Repr

/-- Go `ParseObjectFile` on the file contents (the `os.ReadFile` step
is the file-system lookup at the call sites). -/
def parseObjectFile (content : Str) (expectedType expectedID : Str) : Except Str ObjRec :=
  match parseSimple content with
  | .error e => .error (cs "parse YAML: " ++ e)
  | .ok m =>
    if m = [] then .error (cs "YAML root must contain fields")
    else
      match normalizeObj m with
      | .error e => .error e
      | .ok normalized =>
        match lookupV (cs "_id") normalized with
        | some (.vstr idVal) =>
          if idVal = [] then .error (cs "missing _id string")
          else
            match lookupV (cs "_type") normalized with
            | some (.vstr typeVal) =>
              if typeVal = [] then .error (cs "missing _type string")
              else if expectedID ≠ [] ∧ idVal ≠ expectedID then
                .error (cs "_id does not match filename")
              else if expectedType ≠ [] ∧ typeVal ≠ expectedType then
                .error (cs "_type does not match folder")
              else .ok ⟨idVal, typeVal, normalized, []⟩
            | _ => .error (cs "missing _type string")
        | _ => .error (cs "missing _id string")

/-- File-system model: repo-relative path to contents, sorted by path. -/
abbrev FS := List (Str × Str)

/-- Removal of a path from the file system (`os.Remove`, with missing
files tolerated). -/
def eraseFS {α : Type} (k : Str) : List (Str × α) → List (Str × α)
  | [] => []
  | (k1, v1) :: rest => if k = k1 then rest else (k1, v1) :: eraseFS k rest

/-- Repo-relative path of an object file. -/
def dataPath (ty id : Str) : Str := cs "data/" ++ ty ++ cs "/" ++ id ++ cs ".yaml"

/-- Go `ReadObject`. -/
def readObject (fs : FS) (typeName id : Str) : Except Str ObjRec :=
  let path := dataPath typeName id
  match lookupA path fs with
  | none => .error (cs "file not found")
  | some content =>
    match parseObjectFile content typeName id with
    | .error e => .error e
    | .ok obj => .ok { obj with path := path }

/-- Ascending insertion by object id (`sort.Slice` by `ID <`). -/
def insertByIdObj (x : ObjRec) : List ObjRec → List ObjRec
  | [] => [x]
  | y :: ys => if strLtB x.id y.id then x :: y :: ys else y :: insertByIdObj x ys

/-- Sorts a list of objects by ascending id. -/
def sortByIdObj (l : List ObjRec) : List ObjRec := l.foldr insertByIdObj []

/-- File loop shared by `ListObjectsForType` and `LoadObjects`: parses
every `*.yaml` entry of one type directory (non-matching names are
skipped), recording repo-relative paths. -/
def parseTypeDir (typeName : Str) : List (Str × Str) → Except Str (List ObjRec)
  | [] => .ok []
  | (name, content) :: rest =>
    if endsWithSeq (cs ".yaml") name then
      let id := dropSuffix (cs ".yaml") name
      match parseObjectFile content typeName id with
      | .error e => .error e
      | .ok obj =>
        match parseTypeDir typeName rest with
        | .error e => .error e
        | .ok more => .ok ({ obj with path := dataPath typeName id } :: more)
    else parseTypeDir typeName rest

/-- Go `ListObjectsForType`, from the listing of `data/<type>/`. -/
def listObjectsForType (files : List (Str × Str)) (typeName : Str) :
    Except Str (List ObjRec) :=
  match parseTypeDir typeName files with
  | .error e => .error e
  | .ok objs => .ok (sortByIdObj objs)

/-- Go `LoadObjects`, from the listing of `data/` (type-directory name
with its file listing). -/
def loadObjects : List (Str × List (Str × Str)) → Except Str (List (Str × List ObjRec))
  | [] => .ok []
  | (typeName, files) :: rest =>
    match parseTypeDir typeName files with
    | .error e => .error e
    | .ok objs =>
      match loadObjects rest with
      | .error e => .error e
      | .ok more => .ok ((typeName, sortByIdObj objs) :: more)

/-- Go `CanonicalYAML`. -/
def canonicalYAML (data : Obj) : Except Str Str := marshalSimple data

/-- Go `WriteObject` against the file-system model. -/
def writeObjectFS (fs : FS) (obj : ObjRec) : Except Str FS :=
  if obj.id = [] ∨ obj.ty = [] then .error (cs "object missing id/type")
  else
    match canonicalYAML obj.data with
    | .error e => .error e
    | .ok b => .ok (insertSortedA (dataPath obj.ty obj.id) b fs)

/-- Go `objectFromPathAndData`. -/
def objectFromPathAndData (rel : Str) (data : Obj) : Except Str ObjRec :=
  match splitCh '/' rel with
  | [p0, p1, p2] =>
    if p0 = cs "data" ∧ endsWithSeq (cs ".yaml") p2 then
      let typeName := p1
      let id := dropSuffix (cs ".yaml") p2
      let gotId := match lookupV (cs "_id") data with
        | some (.vstr s) => s
        | _ => []
      if gotId ≠ [] ∧ gotId ≠ id then .error (cs "_id does not match path id")
      else
        let gotTy := match lookupV (cs "_type") data with
          | some (.vstr s) => s
          | _ => []
        if gotTy ≠ [] ∧ gotTy ≠ typeName then .error (cs "_type does not match path type")
        else
          let d1 := if (lookupV (cs "_id") data).isSome then data
            else insertSortedV (cs "_id") (.vstr id) data
          let d2 := if (lookupV (cs "_type") d1).isSome then d1
            else insertSortedV (cs "_type") (.vstr typeName) d1
          .ok ⟨id, typeName, d2, rel⟩
    else .error (cs "invalid data path")
  | _ => .error (cs "invalid data path")

theorem parseLinesF_eq : ∀ (fuel : ℕ) (ls : List Str) (acc : Obj), ls.length ≤ fuel →
    parseLinesF fuel ls acc = parseLines ls acc := by
  intro fuel
  induction fuel with
  | zero =>
    intro ls acc hlen
    cases ls with
    | nil => simp only [parseLinesF, parseLines]
    | cons l t => simp at hlen
  | succ n ih =>
    intro ls acc hlen
    cases ls with
    | nil => simp only [parseLinesF, parseLines]
    | cons l t =>
      have hlt : t.length ≤ n := Nat.le_of_succ_le_succ (by simpa using hlen)
      simp only [parseLinesF, parseLines]
      split
      · exact ih t acc hlt
      · split
        · rfl
        · split
          · rfl
          · split
            · rfl
            · rfl
            · split
              · rfl
              · split
                · rfl
                · split
                  · cases hp : parseArrayLines t with
                    | error e => rfl
                    | ok pr =>
                      obtain ⟨items, remaining⟩ := pr
                      exact ih remaining _
                        (le_trans (parseArrayLines_rest_len t items remaining hp) hlt)
                  · cases parseYAMLScalar _ with
                    | error e => rfl
                    | ok v => exact ih t _ hlt

/-- Fuel-saturated executable form of `parseSimple`. -/
def parseSimpleF (input : Str) : Except Str Obj :=
  parseLinesF (splitNL (replaceCRLF input)).length (splitNL (replaceCRLF input)) []

theorem parseSimpleF_eq (input : Str) : parseSimpleF input = parseSimple input :=
  parseLinesF_eq _ _ [] le_rfl

/-! ## Merge pipeline (MergeWorkspace after its Git preconditions)

The model starts where `MergeWorkspace` has computed the changed-file
set (the Git diff is an input), reads the three per-file views through
an oracle standing for `readObjectAtRef`/`mergeBase`, and runs the
merge, apply, validate, commit sequence against the file-system model.
`ValidateRepository` and the `git add`/`git commit` pair are boolean
parameters: only their success/failure drives the control flow. -/

/-- Go `MergeResult`. -/
structure MergeResult where
  merged : Bool
  changed : List Str
  conflicts : List FieldConflict
  message : Str
  workspace : Str
  mergedFiles : ℕ
  deriving DecidableEq, Repr

/-- Outcome of a merge attempt: the returned result or error, the
resulting trunk file system, and whether a commit was created. -/
inductive MergeOutcome where
  | ok (r : MergeResult) (fs : FS) (committed : Bool)
  | err (e : Str) (fs : FS)
  deriving DecidableEq, Repr

/-- Comparison used by `sort.Slice` over conflicts: by file, then by
field. -/
def conflictLeB (a b : FieldConflict) : Bool :=
  if a.file = b.file then ¬ strLtB b.field a.field else strLtB a.file b.file

/-- Insertion by `conflictLeB`. -/
def insertConflict (x : FieldConflict) : List FieldConflict → List FieldConflict
  | [] => [x]
  | y :: ys => if conflictLeB x y then x :: y :: ys else y :: insertConflict x ys

/-- Sorts conflicts by (file, field). -/
def sortConflicts (l : List FieldConflict) : List FieldConflict := l.foldr insertConflict []

/-- Per-file merge loop of `MergeWorkspace`: builds `mergedFiles` (only
for conflict-free files) and the accumulated conflict list. -/
def collectMerged (views : Str → Option Obj × Option Obj × Option Obj)
    (res man : List (Str × Str)) :
    List Str → List (Str × Option Obj) × List FieldConflict
  | [] => ([], [])
  | rel :: rest =>
    let v := views rel
    let mc := mergeThreeWayObject rel v.1 v.2.1 v.2.2 res man
    let acc := collectMerged views res man rest
    if mc.2 ≠ [] then (acc.1, mc.2 ++ acc.2)
    else ((rel, mc.1) :: acc.1, acc.2)

/-- Snapshot of the current contents of every changed path
(Go `backupPaths`). -/
def backupPaths (fs : FS) (rels : List Str) : List (Str × Option Str) :=
  rels.map fun rel => (rel, lookupA rel fs)

/-- Go `restorePaths`: rewrite the paths that existed, remove the ones
that did not. -/
def restorePaths (backups : List (Str × Option Str)) (fs : FS) : FS :=
  backups.foldl (fun acc rb =>
    match rb.2 with
    | some data => insertSortedA rb.1 data acc
    | none => eraseFS rb.1 acc) fs

/-- Apply loop of `MergeWorkspace`: delete a file whose merged map is
nil or empty, otherwise write the canonical object.  An error carries
the file system at the point of failure (which the caller rolls back). -/
def applyLoop (mm : List (Str × Option Obj)) : List Str → FS → Except (Str × FS) FS
  | [], fs => .ok fs
  | rel :: rest, fs =>
    match (lookupA rel mm).getD none with
    | none => applyLoop mm rest (eraseFS rel fs)
    | some merged =>
      if merged = [] then applyLoop mm rest (eraseFS rel fs)
      else
        match objectFromPathAndData rel merged with
        | .error e => .error (e, fs)
        | .ok obj =>
          match writeObjectFS fs obj with
          | .error e => .error (e, fs)
          | .ok fs2 => applyLoop mm rest fs2

/-- `MergeWorkspace` from the changed-file set onward. -/
def mergeWorkspaceModel (wsName : Str) (changed : List Str)
    (views : Str → Option Obj × Option Obj × Option Obj)
    (res man : List (Str × Str)) (validateOK : FS → Bool) (gitOK : Bool)
    (fs : FS) : MergeOutcome :=
  if changed = [] then
    .ok ⟨false, [], [], cs "no changes to merge", wsName, 0⟩ fs false
  else
    let mc := collectMerged views res man changed
    if mc.2 ≠ [] then
      .ok ⟨false, changed, sortConflicts mc.2, cs "conflicts require resolution", wsName, 0⟩
        fs false
    else
      let backups := backupPaths fs changed
      match applyLoop mc.1 changed fs with
      | .error ef => .err ef.1 (restorePaths backups ef.2)
      | .ok fs2 =>
        if ¬ validateOK fs2 then
          .err (cs "merge blocked by validation") (restorePaths backups fs2)
        else if ¬ gitOK then
          .err (cs "git failure") (restorePaths backups fs2)
        else .ok ⟨true, changed, [], cs "merge complete", wsName, changed.length⟩ fs2 true

/-! ## Schema validation of one property (validateProperty) -/

/-- Go `ValidationIssue`. -/
structure ValidationIssue where
  stage : Str
  path : Str
  field : Str
  message : Str
  deriving DecidableEq, Repr

/-- Byte length of a string under UTF-8 (Go `len(s)`). -/
def utf8Len (s : Str) : ℕ :=
  (s.map fun c =>
    if c.toNat < 0x80 then 1
    else if c.toNat < 0x800 then 2
    else if c.toNat < 0x10000 then 3
    else 4).sum

/-- Go `validateProperty`. -/
def validateProperty (field : Str) (value : Value) (prop : SchemaProperty)
    (path : Str) : List ValidationIssue :=
  if value = .vnull then []
  else if prop.ty = cs "string" then
    match value with
    | .vstr s =>
      (match prop.minLength with
       | some mn => if (utf8Len s : ℤ) < mn then
           [⟨cs "schema", path, field, cs "length too short"⟩] else []
       | none => []) ++
      (match prop.maxLength with
       | some mx => if mx < (utf8Len s : ℤ) then
           [⟨cs "schema", path, field, cs "length too long"⟩] else []
       | none => []) ++
      (if prop.enum ≠ [] ∧ ¬ prop.enum.contains s then
         [⟨cs "schema", path, field, cs "value must be one of enum values"⟩] else [])
    | _ => [⟨cs "schema", path, field, cs "must be a string"⟩]
  else if prop.ty = cs "number" ∨ prop.ty = cs "integer" then
    match value with
    | .vnum n =>
      (if prop.ty = cs "integer" ∧ floatOfInt64 (goInt64 n) ≠ n then
         [⟨cs "schema", path, field, cs "must be an integer"⟩] else []) ++
      (match prop.minimum with
       | some mn => if n < mn then [⟨cs "schema", path, field, cs "below minimum"⟩] else []
       | none => []) ++
      (match prop.maximum with
       | some mx => if mx < n then [⟨cs "schema", path, field, cs "above maximum"⟩] else []
       | none => [])
    | _ => [⟨cs "schema", path, field, cs "must be a number"⟩]
  else if prop.ty = cs "boolean" then
    match value with
    | .vbool _ => []
    | _ => [⟨cs "schema", path, field, cs "must be a boolean"⟩]
  else if prop.ty = cs "array" then
    match value with
    | .varr items =>
      (items.map fun item =>
        if prop.itemsType = cs "string" then
          match item with
          | .vstr _ => []
          | _ => [⟨cs "schema", path, field, cs "array items must be strings"⟩]
        else if prop.itemsType = cs "number" ∨ prop.itemsType = cs "integer" then
          match item with
          | .vnum n =>
            if prop.itemsType = cs "integer" ∧ floatOfInt64 (goInt64 n) ≠ n then
              [⟨cs "schema", path, field, cs "array items must be integers"⟩]
            else []
          | _ => [⟨cs "schema", path, field, cs "array items must be numbers"⟩]
        else []).flatten
    | _ => [⟨cs "schema", path, field, cs "must be an array"⟩]
  else []

/-- The enum list is consulted by `validateProperty` only inside its
string branch: a property whose kind is not `string` can never produce
the "value must be one of enum values" issue, whatever the value. -/
theorem enum_issue_needs_string (field : Str) (value : Value) (prop : SchemaProperty)
    (path : Str) (hty : prop.ty ≠ cs "string") :
    ValidationIssue.mk (cs "schema") path field (cs "value must be one of enum values") ∉
      validateProperty field value prop path := by
  intro hmem
  simp only [validateProperty, if_neg hty] at hmem
  split at hmem
  · exact absurd hmem (List.not_mem_nil _)
  split at hmem
  · split at hmem
    · simp only [List.mem_append] at hmem
      rcases hmem with (h | h) | h
      · split at h
        · rw [List.mem_singleton, ValidationIssue.mk.injEq] at h
          exact absurd h.2.2.2 (by decide)
        · exact absurd h (List.not_mem_nil _)
      · split at h
        · split at h
          · rw [List.mem_singleton, ValidationIssue.mk.injEq] at h
            exact absurd h.2.2.2 (by decide)
          · exact absurd h (List.not_mem_nil _)
        · exact absurd h (List.not_mem_nil _)
      · split at h
        · split at h
          · rw [List.mem_singleton, ValidationIssue.mk.injEq] at h
            exact absurd h.2.2.2 (by decide)
          · exact absurd h (List.not_mem_nil _)
        · exact absurd h (List.not_mem_nil _)
    · rw [List.mem_singleton, ValidationIssue.mk.injEq] at hmem
      exact absurd hmem.2.2.2 (by decide)
  split at hmem
  · split at hmem
    · exact absurd hmem (List.not_mem_nil _)
    · rw [List.mem_singleton, ValidationIssue.mk.injEq] at hmem
      exact absurd hmem.2.2.2 (by decide)
  split at hmem
  · split at hmem
    · rw [List.mem_flatten] at hmem
      obtain ⟨l, hl, hm⟩ := hmem
      rw [List.mem_map] at hl
      obtain ⟨item, hitem, rfl⟩ := hl
      split at hm
      · split at hm
        · exact absurd hm (List.not_mem_nil _)
        · rw [List.mem_singleton, ValidationIssue.mk.injEq] at hm
          exact absurd hm.2.2.2 (by decide)
      split at hm
      · split at hm
        · split at hm
          · rw [List.mem_singleton, ValidationIssue.mk.injEq] at hm
            exact absurd hm.2.2.2 (by decide)
          · exact absurd hm (List.not_mem_nil _)
        · rw [List.mem_singleton, ValidationIssue.mk.injEq] at hm
          exact absurd hm.2.2.2 (by decide)
      · exact absurd hm (List.not_mem_nil _)
    · rw [List.mem_singleton, ValidationIssue.mk.injEq] at hmem
      exact absurd hmem.2.2.2 (by decide)
  · exact absurd hmem (List.not_mem_nil _)

/-- C8 (amended): schema loading rejects a non-empty `enum` declaration
exactly on array-kind properties.  Every schema document containing an
array-kind property with a non-empty enum list makes LoadSchemas fail;
a `number`-, `integer`- or `boolean`-kind property carrying any enum
list is accepted by the per-property normalization (absent unrelated
length/range option errors), with the enum merely sorted, as the
end-to-end load of the `number`-kind document shows; and at validation
time the enum is consulted only for string-typed properties: a property
whose kind is not `string` never yields the enum-mismatch issue. -/
theorem C8_enum_rejected_only_for_arrays :
    (∀ (docs : List (Str × RawSchema)) (name : Str) (raw : RawSchema)
        (field : Str) (p : RawSchemaProp),
        (name, raw) ∈ docs → (field, p) ∈ raw.properties →
        p.ty = cs "array" → p.enum ≠ [] →
        isErr (loadSchemasChecked docs) = true)
    ∧ (∀ p : RawSchemaProp,
        (p.ty = cs "number" ∨ p.ty = cs "integer" ∨ p.ty = cs "boolean") →
        p.minLength = none → p.maxLength = none →
        (p.ty = cs "boolean" → p.minimum = none ∧ p.maximum = none) →
        normalizeProp p = .ok ⟨p.ty, sortStrs p.enum, p.minLength, p.maxLength,
          p.minimum, p.maximum, []⟩)
    ∧ loadSchemasChecked [(cs "t", enumNumberDoc)] = .ok enumNumberLoaded
    ∧ (∀ (field : Str) (value : Value) (prop : SchemaProperty) (path : Str),
        prop.ty ≠ cs "string" →
        ValidationIssue.mk (cs "schema") path field
          (cs "value must be one of enum values") ∉
          validateProperty field value prop path) := by
  refine ⟨?_, ?_, rfl, ?_⟩
  · intro docs name raw field p hmem hprop hty henum
    exact loadSchemas_mem_err docs name raw hmem
      (normalizeSchema_mem_err name raw field p hprop
        (normalizeProp_array_enum p hty henum))
  · exact normalizeProp_scalar_enum_ok
  · exact enum_issue_needs_string

/-- Witness for the C8 theorem: the array-kind enum document is
rejected, a boolean-kind property with an enum normalizes fine, and a
number-kind property's enum is ignored by validation. -/
theorem C8_enum_rejected_only_for_arrays_witness :
    isErr (loadSchemasChecked [(cs "s", enumArrayDoc)]) = true
    ∧ normalizeProp (RawSchemaProp.mk (cs "boolean") [cs "yes"] none none none none none) =
        .ok (SchemaProperty.mk (cs "boolean") (sortStrs [cs "yes"]) none none none none [])
    ∧ ValidationIssue.mk (cs "schema") (cs "p") (cs "f")
        (cs "value must be one of enum values") ∉
        validateProperty (cs "f") (.vstr (cs "a"))
          (SchemaProperty.mk (cs "number") [cs "a"] none none none none []) (cs "p") :=
  ⟨C8_enum_rejected_only_for_arrays.1 [(cs "s", enumArrayDoc)] (cs "s") enumArrayDoc
      (cs "x")
      (RawSchemaProp.mk (cs "array") [cs "a"] none none none none (some (cs "string")))
      (by decide) (by decide) (by decide) (by decide),
   C8_enum_rejected_only_for_arrays.2.1
      (RawSchemaProp.mk (cs "boolean") [cs "yes"] none none none none none)
      (Or.inr (Or.inr rfl)) rfl rfl (fun _ => ⟨rfl, rfl⟩),
   C8_enum_rejected_only_for_arrays.2.2.2 (cs "f") (.vstr (cs "a"))
      (SchemaProperty.mk (cs "number") [cs "a"] none none none none []) (cs "p")
      (by decide)⟩

/-! ## Order and sorted-map infrastructure -/

theorem strLtB_irrefl : ∀ a : Str, strLtB a a = false := by
  intro a
  induction a with
  | nil => rfl
  | cons c rest ih => simp [strLtB, ih]

theorem strLtB_asymm : ∀ a b : Str, strLtB a b = true → strLtB b a = false := by
  intro a
  induction a with
  | nil => intro b h; cases b with
    | nil => cases h
    | cons c r => rfl
  | cons c rest ih =>
    intro b h
    cases b with
    | nil => cases h
    | cons d r =>
      simp only [strLtB] at h ⊢
      rcases lt_trichotomy c d with hcd | hcd | hcd
      · rw [if_neg (not_lt.mpr (le_of_lt hcd)), if_pos hcd]
      · subst hcd
        rw [if_neg (lt_irrefl c), if_neg (lt_irrefl c)] at h ⊢
        exact ih r h
      · rw [if_neg (asymm hcd), if_pos hcd] at h
        cases h

theorem strLtB_trans : ∀ a b c : Str, strLtB a b = true → strLtB b c = true →
    strLtB a c = true := by
  intro a
  induction a with
  | nil =>
    intro b c hab hbc
    cases b with
    | nil => cases hab
    | cons d r =>
      cases c with
      | nil => cases hbc
      | cons e r2 => rfl
  | cons x rest ih =>
    intro b c hab hbc
    cases b with
    | nil => cases hab
    | cons y rb =>
      cases c with
      | nil => cases hbc
      | cons z rc =>
        simp only [strLtB] at hab hbc ⊢
        rcases lt_trichotomy x y with hxy | hxy | hxy
        · rcases lt_trichotomy y z with hyz | hyz | hyz
          · rw [if_pos (lt_trans hxy hyz)]
          · subst hyz; rw [if_pos hxy]
          · rw [if_neg (asymm hyz), if_pos hyz] at hbc
            cases hbc
        · subst hxy
          rcases lt_trichotomy x z with hyz | hyz | hyz
          · rw [if_pos hyz]
          · subst hyz
            rw [if_neg (lt_irrefl x), if_neg (lt_irrefl x)] at hab hbc ⊢
            exact ih _ _ hab hbc
          · rw [if_neg (not_lt.mpr (le_of_lt hyz)), if_pos hyz] at hbc
            cases hbc
        · rw [if_neg (not_lt.mpr (le_of_lt hxy)), if_pos hxy] at hab
          cases hab

theorem strLtB_conn : ∀ a b : Str, strLtB a b = false → strLtB b a = false → a = b := by
  intro a
  induction a with
  | nil =>
    intro b hab _
    cases b with
    | nil => rfl
    | cons d r => cases hab
  | cons x rest ih =>
    intro b hab hba
    cases b with
    | nil => cases hba
    | cons y rb =>
      simp only [strLtB] at hab hba
      rcases lt_trichotomy x y with hxy | hxy | hxy
      · rw [if_pos hxy] at hab; cases hab
      · subst hxy
        rw [if_neg (lt_irrefl x), if_neg (lt_irrefl x)] at hab hba
        rw [ih rb hab hba]
      · rw [if_pos hxy] at hba; cases hba

/-- Keys strictly ascending: the canonicity invariant of the map model. -/
def SortedKeys {α : Type} : List (Str × α) → Prop
  | [] => True
  | [_] => True
  | (k1, _) :: (k2, v2) :: rest => strLtB k1 k2 = true ∧ SortedKeys ((k2, v2) :: rest)

/-- Strictly ascending string list. -/
def SortedStrs : List Str → Prop
  | [] => True
  | [_] => True
  | k1 :: k2 :: rest => strLtB k1 k2 = true ∧ SortedStrs (k2 :: rest)

theorem sortedKeys_tail {α : Type} {p : Str × α} {l : List (Str × α)}
    (h : SortedKeys (p :: l)) : SortedKeys l := by
  cases l with
  | nil => trivial
  | cons q rest =>
    obtain ⟨k1, v1⟩ := p
    obtain ⟨k2, v2⟩ := q
    exact h.2

theorem sortedStrs_tail {k : Str} {l : List Str} (h : SortedStrs (k :: l)) :
    SortedStrs l := by
  cases l with
  | nil => trivial
  | cons q rest => exact h.2

theorem sortedKeys_head_lt {α : Type} {k1 : Str} {v1 : α} {l : List (Str × α)}
    (h : SortedKeys ((k1, v1) :: l)) : ∀ p ∈ l, strLtB k1 p.1 = true := by
  induction l generalizing k1 v1 with
  | nil => intro p hp; cases hp
  | cons q rest ih =>
    intro p hp
    obtain ⟨k2, v2⟩ := q
    rcases List.mem_cons.mp hp with heq | hmem
    · subst heq; exact h.1
    · exact strLtB_trans _ _ _ h.1 (ih h.2 p hmem)

theorem sortedStrs_head_lt {k1 : Str} {l : List Str} (h : SortedStrs (k1 :: l)) :
    ∀ p ∈ l, strLtB k1 p = true := by
  induction l generalizing k1 with
  | nil => intro p hp; cases hp
  | cons q rest ih =>
    intro p hp
    rcases List.mem_cons.mp hp with heq | hmem
    · subst heq; exact h.1
    · exact strLtB_trans _ _ _ h.1 (ih h.2 p hmem)

theorem lookupA_eq_none {α : Type} (k : Str) (l : List (Str × α)) :
    lookupA k l = none ↔ ∀ p ∈ l, p.1 ≠ k := by
  induction l with
  | nil => simp [lookupA]
  | cons p rest ih =>
    obtain ⟨k1, v1⟩ := p
    simp only [lookupA]
    by_cases hk : k = k1
    · rw [if_pos hk]
      constructor
      · intro h; cases h
      · intro h
        exact absurd hk.symm (h (k1, v1) (List.mem_cons_self _ _))
    · rw [if_neg hk, ih]
      constructor
      · intro h q hq
        rcases List.mem_cons.mp hq with heq | hq2
        · subst heq; exact fun he => hk he.symm
        · exact h q hq2
      · intro h q hq
        exact h q (List.mem_cons_of_mem _ hq)

theorem lookupA_not_mem {α : Type} {k : Str} {l : List (Str × α)}
    (h : ∀ p ∈ l, p.1 ≠ k) : lookupA k l = none := (lookupA_eq_none k l).mpr h

theorem sortedKeys_lookup_head_none {α : Type} {k : Str} {l : List (Str × α)}
    (h : ∀ p ∈ l, strLtB k p.1 = true) : lookupA k l = none := by
  refine lookupA_not_mem fun p hp he => ?_
  have hlt := h p hp
  rw [he, strLtB_irrefl] at hlt
  cases hlt

theorem sortedStrs_head_not_mem {k : Str} {l : List Str} (h : SortedStrs (k :: l)) :
    k ∉ l := by
  intro hmem
  have := sortedStrs_head_lt h k hmem
  rw [strLtB_irrefl] at this
  cases this

theorem mem_insertKeyU (x y : Str) (l : List Str) :
    y ∈ insertKeyU x l ↔ y = x ∨ y ∈ l := by
  induction l with
  | nil => simp [insertKeyU]
  | cons z rest ih =>
    simp only [insertKeyU]
    by_cases h1 : strLtB x z = true
    · rw [if_pos h1]; simp
    · rw [if_neg h1]
      by_cases h2 : x = z
      · rw [if_pos h2]
        subst h2
        simp only [List.mem_cons]
        tauto
      · rw [if_neg h2]
        simp only [List.mem_cons, ih]
        tauto

theorem sortedStrs_insertKeyU (x : Str) (l : List Str) (h : SortedStrs l) :
    SortedStrs (insertKeyU x l) := by
  induction l with
  | nil => trivial
  | cons z rest ih =>
    simp only [insertKeyU]
    by_cases h1 : strLtB x z = true
    · rw [if_pos h1]
      exact ⟨h1, h⟩
    · rw [if_neg h1]
      by_cases h2 : x = z
      · rw [if_pos h2]; exact h
      · rw [if_neg h2]
        have hzx : strLtB z x = true := by
          cases hzx : strLtB z x with
          | true => rfl
          | false =>
            exact absurd (strLtB_conn x z (by simpa using h1) hzx).symm (fun he => h2 he.symm)
        have hrec := ih (sortedStrs_tail h)
        cases hr : insertKeyU x rest with
        | nil => trivial
        | cons w ws =>
          refine ⟨?_, by rw [← hr]; exact hrec⟩
          have hw : w = x ∨ w ∈ rest := by
            rw [← mem_insertKeyU x w rest, hr]
            exact List.mem_cons_self _ _
          rcases hw with rfl | hw
          · exact hzx
          · exact sortedStrs_head_lt h w hw

theorem mem_unionKeys (f : Str) (b m w : Option Obj) :
    f ∈ unionKeys b m w ↔ f ∈ keysOpt b ++ keysOpt m ++ keysOpt w := by
  unfold unionKeys
  generalize keysOpt b ++ keysOpt m ++ keysOpt w = l
  induction l with
  | nil => simp
  | cons x rest ih => simp [List.foldr_cons, mem_insertKeyU, ih]

theorem sortedStrs_unionKeys (b m w : Option Obj) : SortedStrs (unionKeys b m w) := by
  unfold unionKeys
  generalize keysOpt b ++ keysOpt m ++ keysOpt w = l
  induction l with
  | nil => trivial
  | cons x rest ih => exact sortedStrs_insertKeyU x _ ih

/-- Projection of a field outcome to the merged-map contribution. -/
def putOf : FieldOut → Option Value
  | .put v => some v
  | _ => none

/-- Projection of a field outcome to the conflict contribution. -/
def clashOf : FieldOut → Option FieldConflict
  | .clash c => some c
  | _ => none

theorem mergeFields_eq (rel : Str) (res man : List (Str × Str))
    (base main ws : Option Obj) (ks : List Str) :
    mergeFields rel res man base main ws ks =
      (ks.filterMap fun f => (putOf (mergeFieldOut rel res man base main ws f)).map ((f, ·)),
       ks.filterMap fun f => clashOf (mergeFieldOut rel res man base main ws f)) := by
  induction ks with
  | nil => rfl
  | cons f fs ih =>
    simp only [mergeFields, ih, List.filterMap_cons]
    cases mergeFieldOut rel res man base main ws f with
    | put v => rfl
    | skip => rfl
    | clash c => rfl

theorem lookup_filterMap_put {β : Type} (O : Str → Option β) :
    ∀ (ks : List Str), SortedStrs ks → ∀ f ∈ ks,
    lookupA f (ks.filterMap fun g => (O g).map ((g, ·))) = O f := by
  intro ks
  induction ks with
  | nil => intro _ f hf; cases hf
  | cons g rest ih =>
    intro hs f hf
    simp only [List.filterMap_cons]
    rcases List.mem_cons.mp hf with rfl | hmem
    · cases ho : O f with
      | none =>
        simp only [ho, Option.map_none']
        refine lookupA_not_mem ?_
        intro p hp he
        rcases List.mem_filterMap.mp hp with ⟨a, ha, hpa⟩
        cases hoa : O a with
        | none => rw [hoa] at hpa; cases hpa
        | some v =>
          rw [hoa] at hpa
          simp only [Option.map_some'] at hpa
          cases hpa
          exact absurd (he ▸ ha) (sortedStrs_head_not_mem hs)
      | some v =>
        simp only [ho, Option.map_some', lookupA, if_pos rfl, if_true]
    · cases ho : O g with
      | none =>
        simp only [ho, Option.map_none']
        exact ih (sortedStrs_tail hs) f hmem
      | some v =>
        simp only [ho, Option.map_some', lookupA]
        have hne : f ≠ g := fun he => absurd (he ▸ hmem) (sortedStrs_head_not_mem hs)
        rw [if_neg hne]
        exact ih (sortedStrs_tail hs) f hmem

theorem mergeFieldOut_clash_eq (rel : Str) (res man : List (Str × Str))
    (base main ws : Option Obj) (f : Str) (c : FieldConflict)
    (h : mergeFieldOut rel res man base main ws f = .clash c) :
    c = ⟨rel, f, fill (lookupOpt f base), fill (lookupOpt f main), fill (lookupOpt f ws),
      conflictKey rel f⟩ := by
  simp only [mergeFieldOut] at h
  repeat' split at h
  all_goals first
  | (cases h; rfl)
  | cases h

theorem conflicts_field_ne (rel : Str) (res man : List (Str × Str))
    (base main ws : Option Obj) (ks : List Str) (field : Str)
    (h : clashOf (mergeFieldOut rel res man base main ws field) = none) :
    ∀ c ∈ (mergeFields rel res man base main ws ks).2, c.field ≠ field := by
  intro c hc heq
  rw [mergeFields_eq] at hc
  rcases List.mem_filterMap.mp hc with ⟨g, _, hcg⟩
  cases hout : mergeFieldOut rel res man base main ws g with
  | put v => rw [hout] at hcg; cases hcg
  | skip => rw [hout] at hcg; cases hcg
  | clash c2 =>
    rw [hout] at hcg
    simp only [clashOf] at hcg
    have hc2 : c2 = c := by
      injection hcg
    subst hc2
    have hcf := mergeFieldOut_clash_eq rel res man base main ws g c2 hout
    have hgf : g = field := by rw [hcf] at heq; exact heq
    rw [hgf] at hout
    rw [hout] at h
    cases h

theorem mergeFieldOut_eqMW (rel : Str) (res man : List (Str × Str))
    (base main ws : Option Obj) (f : Str)
    (h : fill (lookupOpt f main) = fill (lookupOpt f ws)) :
    putOf (mergeFieldOut rel res man base main ws f) = lookupOpt f main ∧
    clashOf (mergeFieldOut rel res man base main ws f) = none := by
  simp only [mergeFieldOut, if_pos h]
  cases hmo : lookupOpt f main with
  | none => simp [putOf, clashOf]
  | some v => simp [putOf, clashOf, fill]

theorem mergeFieldOut_eqMB (rel : Str) (res man : List (Str × Str))
    (base main ws : Option Obj) (f : Str)
    (h1 : fill (lookupOpt f main) ≠ fill (lookupOpt f ws))
    (h2 : fill (lookupOpt f main) = fill (lookupOpt f base)) :
    putOf (mergeFieldOut rel res man base main ws f) = lookupOpt f ws ∧
    clashOf (mergeFieldOut rel res man base main ws f) = none := by
  simp only [mergeFieldOut, if_neg h1, if_pos h2]
  cases hwo : lookupOpt f ws with
  | none => simp [putOf, clashOf]
  | some v => simp [putOf, clashOf, fill]

theorem mergeFieldOut_eqWB (rel : Str) (res man : List (Str × Str))
    (base main ws : Option Obj) (f : Str)
    (h1 : fill (lookupOpt f main) ≠ fill (lookupOpt f ws))
    (h2 : fill (lookupOpt f main) ≠ fill (lookupOpt f base))
    (h3 : fill (lookupOpt f ws) = fill (lookupOpt f base)) :
    putOf (mergeFieldOut rel res man base main ws f) = lookupOpt f main ∧
    clashOf (mergeFieldOut rel res man base main ws f) = none := by
  simp only [mergeFieldOut, if_neg h1, if_neg h2, if_pos h3]
  cases hmo : lookupOpt f main with
  | none => simp [putOf, clashOf]
  | some v => simp [putOf, clashOf, fill]

theorem mergeFieldOut_allDiff (rel : Str) (res man : List (Str × Str))
    (base main ws : Option Obj) (f : Str)
    (h1 : fill (lookupOpt f main) ≠ fill (lookupOpt f ws))
    (h2 : fill (lookupOpt f main) ≠ fill (lookupOpt f base))
    (h3 : fill (lookupOpt f ws) ≠ fill (lookupOpt f base))
    (h4 : lookupA (conflictKey rel f) res = none) :
    mergeFieldOut rel res man base main ws f =
      .clash ⟨rel, f, fill (lookupOpt f base), fill (lookupOpt f main),
        fill (lookupOpt f ws), conflictKey rel f⟩ := by
  simp only [mergeFieldOut, if_neg h1, if_neg h2, if_neg h3, h4]
  have hne1 : ¬ (([] : Str) = cs "main") := by decide
  have hne2 : ¬ (([] : Str) = cs "workspace") := by decide
  have hne3 : ¬ (([] : Str) = cs "manual") := by decide
  simp only [Option.getD_none, if_neg hne1, if_neg hne2, if_neg hne3]

/-- Versions of the C1 example data (the `_id`-free field maps the
specification's auto-merge scenario names). -/
def c1Base : Obj := [(cs "name", .vstr (cs "edge")), (cs "tier", .vstr (cs "edge"))]

/-- Main-side version of the C1 example. -/
def c1Main : Obj := [(cs "name", .vstr (cs "edge")), (cs "tier", .vstr (cs "core"))]

/-- Workspace-side version of the C1 example. -/
def c1Ws : Obj := [(cs "name", .vstr (cs "edge-gw")), (cs "tier", .vstr (cs "edge"))]

/-- C1: per-field resolution rules of the three-way merge, for every
field of the sorted key union, plus the concrete auto-merge example
(whose merged field map is `name: edge-gw, tier: core`, with no
conflicts). -/
theorem C1_merge_field_rules :
    (∀ (rel : Str) (res man : List (Str × Str)) (base main ws : Option Obj) (field : Str),
      field ∈ unionKeys base main ws →
      (fill (lookupOpt field main) = fill (lookupOpt field ws) →
        lookupV field (mergeFields rel res man base main ws (unionKeys base main ws)).1 =
          lookupOpt field main ∧
        ∀ c ∈ (mergeFields rel res man base main ws (unionKeys base main ws)).2,
          c.field ≠ field) ∧
      (fill (lookupOpt field main) ≠ fill (lookupOpt field ws) →
        fill (lookupOpt field main) = fill (lookupOpt field base) →
        lookupV field (mergeFields rel res man base main ws (unionKeys base main ws)).1 =
          lookupOpt field ws ∧
        ∀ c ∈ (mergeFields rel res man base main ws (unionKeys base main ws)).2,
          c.field ≠ field) ∧
      (fill (lookupOpt field main) ≠ fill (lookupOpt field ws) →
        fill (lookupOpt field main) ≠ fill (lookupOpt field base) →
        fill (lookupOpt field ws) = fill (lookupOpt field base) →
        lookupV field (mergeFields rel res man base main ws (unionKeys base main ws)).1 =
          lookupOpt field main ∧
        ∀ c ∈ (mergeFields rel res man base main ws (unionKeys base main ws)).2,
          c.field ≠ field) ∧
      (fill (lookupOpt field main) ≠ fill (lookupOpt field ws) →
        fill (lookupOpt field main) ≠ fill (lookupOpt field base) →
        fill (lookupOpt field ws) ≠ fill (lookupOpt field base) →
        lookupA (conflictKey rel field) res = none →
        (⟨rel, field, fill (lookupOpt field base), fill (lookupOpt field main),
          fill (lookupOpt field ws), conflictKey rel field⟩ : FieldConflict) ∈
          (mergeFields rel res man base main ws (unionKeys base main ws)).2 ∧
        lookupV field (mergeFields rel res man base main ws (unionKeys base main ws)).1 =
          none))
    ∧ mergeFields (cs "data/service/x.yaml") [] [] (some c1Base) (some c1Main) (some c1Ws)
        (unionKeys (some c1Base) (some c1Main) (some c1Ws)) =
      ([(cs "name", .vstr (cs "edge-gw")), (cs "tier", .vstr (cs "core"))], []) := by
  constructor
  · intro rel res man base main ws field hmem
    have hs := sortedStrs_unionKeys base main ws
    refine ⟨?_, ?_, ?_, ?_⟩
    · intro h
      obtain ⟨hput, hcl⟩ := mergeFieldOut_eqMW rel res man base main ws field h
      constructor
      · rw [mergeFields_eq]
        exact (lookup_filterMap_put
          (fun g => putOf (mergeFieldOut rel res man base main ws g)) _ hs field
          hmem).trans hput
      · exact conflicts_field_ne rel res man base main ws _ field hcl
    · intro h1 h2
      obtain ⟨hput, hcl⟩ := mergeFieldOut_eqMB rel res man base main ws field h1 h2
      constructor
      · rw [mergeFields_eq]
        exact (lookup_filterMap_put
          (fun g => putOf (mergeFieldOut rel res man base main ws g)) _ hs field
          hmem).trans hput
      · exact conflicts_field_ne rel res man base main ws _ field hcl
    · intro h1 h2 h3
      obtain ⟨hput, hcl⟩ := mergeFieldOut_eqWB rel res man base main ws field h1 h2 h3
      constructor
      · rw [mergeFields_eq]
        exact (lookup_filterMap_put
          (fun g => putOf (mergeFieldOut rel res man base main ws g)) _ hs field
          hmem).trans hput
      · exact conflicts_field_ne rel res man base main ws _ field hcl
    · intro h1 h2 h3 h4
      have hout := mergeFieldOut_allDiff rel res man base main ws field h1 h2 h3 h4
      constructor
      · rw [mergeFields_eq]
        refine List.mem_filterMap.mpr ⟨field, hmem, ?_⟩
        rw [hout]
        rfl
      · rw [mergeFields_eq]
        refine (lookup_filterMap_put
          (fun g => putOf (mergeFieldOut rel res man base main ws g)) _ hs field
          hmem).trans ?_
        rw [hout]
        rfl
  · decide

/-- Witness exercising the C1 theorem: a field on which the three
versions pairwise differ and no resolution is supplied yields the
recorded conflict, at a concrete input. -/
theorem C1_merge_field_rules_witness :
    (⟨cs "p", cs "tier", .vstr (cs "edge"), .vstr (cs "core"), .vstr (cs "batch"),
      conflictKey (cs "p") (cs "tier")⟩ : FieldConflict) ∈
      (mergeFields (cs "p") [] [] (some [(cs "tier", .vstr (cs "edge"))])
        (some [(cs "tier", .vstr (cs "core"))]) (some [(cs "tier", .vstr (cs "batch"))])
        (unionKeys (some [(cs "tier", .vstr (cs "edge"))])
          (some [(cs "tier", .vstr (cs "core"))])
          (some [(cs "tier", .vstr (cs "batch"))]))).2 ∧
    lookupV (cs "tier")
      (mergeFields (cs "p") [] [] (some [(cs "tier", .vstr (cs "edge"))])
        (some [(cs "tier", .vstr (cs "core"))]) (some [(cs "tier", .vstr (cs "batch"))])
        (unionKeys (some [(cs "tier", .vstr (cs "edge"))])
          (some [(cs "tier", .vstr (cs "core"))])
          (some [(cs "tier", .vstr (cs "batch"))]))).1 = none := by
  have h := (C1_merge_field_rules.1 (cs "p") [] [] (some [(cs "tier", .vstr (cs "edge"))])
    (some [(cs "tier", .vstr (cs "core"))]) (some [(cs "tier", .vstr (cs "batch"))])
    (cs "tier") (by decide)).2.2.2 (by decide) (by decide) (by decide) (by decide)
  exact ⟨h.1, h.2⟩

/-- C10: in the field comparison a missing field is indistinguishable
from an explicit null.  A field absent from base and main that the
workspace sets to null merges away silently; a field that main holds
as null while the workspace deleted it (base holding a different
value) stays in the merged object as null. -/
theorem C10_null_missing_indistinguishable :
    fill none = Value.vnull
    ∧ (∀ (rel : Str) (res man : List (Str × Str)) (base main ws : Option Obj) (field : Str),
        field ∈ unionKeys base main ws →
        lookupOpt field base = none → lookupOpt field main = none →
        lookupOpt field ws = some .vnull →
        lookupV field (mergeFields rel res man base main ws (unionKeys base main ws)).1 =
          none ∧
        ∀ c ∈ (mergeFields rel res man base main ws (unionKeys base main ws)).2,
          c.field ≠ field)
    ∧ (∀ (rel : Str) (res man : List (Str × Str)) (base main ws : Option Obj)
        (field : Str) (vb : Value),
        field ∈ unionKeys base main ws →
        lookupOpt field main = some .vnull → lookupOpt field ws = none →
        lookupOpt field base = some vb → vb ≠ .vnull →
        lookupV field (mergeFields rel res man base main ws (unionKeys base main ws)).1 =
          some .vnull ∧
        ∀ c ∈ (mergeFields rel res man base main ws (unionKeys base main ws)).2,
          c.field ≠ field) := by
  refine ⟨rfl, ?_, ?_⟩
  · intro rel res man base main ws field hmem hb hm hw
    have heq : fill (lookupOpt field main) = fill (lookupOpt field ws) := by
      rw [hm, hw]; rfl
    have h1 := (C1_merge_field_rules.1 rel res man base main ws field hmem).1 heq
    exact ⟨by rw [h1.1, hm], h1.2⟩
  · intro rel res man base main ws field vb hmem hm hw hb hvb
    have heq : fill (lookupOpt field main) = fill (lookupOpt field ws) := by
      rw [hm, hw]; rfl
    have h1 := (C1_merge_field_rules.1 rel res man base main ws field hmem).1 heq
    exact ⟨by rw [h1.1, hm], h1.2⟩

/-- Witness exercising the C10 theorem on both scenarios at concrete
inputs. -/
theorem C10_null_missing_indistinguishable_witness :
    (lookupV (cs "x")
      (mergeFields (cs "p") [] [] (some []) (some [])
        (some [(cs "x", Value.vnull)])
        (unionKeys (some []) (some []) (some [(cs "x", Value.vnull)]))).1 = none)
    ∧ (lookupV (cs "x")
      (mergeFields (cs "p") [] [] (some [(cs "x", .vstr (cs "v"))])
        (some [(cs "x", Value.vnull)]) (some [])
        (unionKeys (some [(cs "x", .vstr (cs "v"))]) (some [(cs "x", Value.vnull)])
          (some []))).1 = some Value.vnull) := by
  constructor
  · exact ((C10_null_missing_indistinguishable.2.1 (cs "p") [] [] (some []) (some [])
      (some [(cs "x", Value.vnull)]) (cs "x") (by decide) (by decide) (by decide)
      (by decide))).1
  · exact ((C10_null_missing_indistinguishable.2.2 (cs "p") [] []
      (some [(cs "x", .vstr (cs "v"))]) (some [(cs "x", Value.vnull)]) (some [])
      (cs "x") (.vstr (cs "v")) (by decide) (by decide) (by decide) (by decide)
      (by decide))).1

/-! ## Further sorted-map lemmas (insertion, erasure, extensionality) -/

theorem lookupA_insert_self {α : Type} (k : Str) (v : α) (l : List (Str × α)) :
    lookupA k (insertSortedA k v l) = some v := by
  induction l with
  | nil => simp [insertSortedA, lookupA]
  | cons p rest ih =>
    obtain ⟨k1, v1⟩ := p
    simp only [insertSortedA]
    by_cases h1 : strLtB k k1 = true
    · rw [if_pos h1]; simp [lookupA]
    · rw [if_neg h1]
      by_cases h2 : k = k1
      · rw [if_pos h2]; simp [lookupA]
      · rw [if_neg h2]
        simp only [lookupA, if_neg h2]
        exact ih

theorem lookupA_insert_ne {α : Type} (k k2 : Str) (v : α) (l : List (Str × α))
    (hne : k2 ≠ k) : lookupA k2 (insertSortedA k v l) = lookupA k2 l := by
  induction l with
  | nil => simp [insertSortedA, lookupA, if_neg hne]
  | cons p rest ih =>
    obtain ⟨k1, v1⟩ := p
    simp only [insertSortedA]
    by_cases h1 : strLtB k k1 = true
    · rw [if_pos h1]
      simp only [lookupA, if_neg hne]
    · rw [if_neg h1]
      by_cases h2 : k = k1
      · rw [if_pos h2]
        subst h2
        simp only [lookupA, if_neg hne]
      · rw [if_neg h2]
        simp only [lookupA]
        by_cases h3 : k2 = k1
        · rw [if_pos h3, if_pos h3]
        · rw [if_neg h3, if_neg h3]
          exact ih

theorem lookupA_erase_ne {α : Type} (k k2 : Str) (l : List (Str × α))
    (hne : k2 ≠ k) : lookupA k2 (eraseFS k l) = lookupA k2 l := by
  induction l with
  | nil => rfl
  | cons p rest ih =>
    obtain ⟨k1, v1⟩ := p
    simp only [eraseFS]
    by_cases h1 : k = k1
    · rw [if_pos h1]
      subst h1
      simp only [lookupA, if_neg hne]
    · rw [if_neg h1]
      simp only [lookupA]
      by_cases h3 : k2 = k1
      · rw [if_pos h3, if_pos h3]
      · rw [if_neg h3, if_neg h3]
        exact ih

theorem sortedKeys_pairwise {α : Type} (l : List (Str × α)) :
    SortedKeys l ↔ l.Pairwise (fun p q => strLtB p.1 q.1 = true) := by
  induction l with
  | nil => simp [SortedKeys]
  | cons p rest ih =>
    obtain ⟨k1, v1⟩ := p
    cases rest with
    | nil => simp [SortedKeys]
    | cons q rest2 =>
      obtain ⟨k2, v2⟩ := q
      rw [List.pairwise_cons]
      constructor
      · intro h
        have htail := ih.mp h.2
        refine ⟨?_, htail⟩
        intro r hr
        rcases List.mem_cons.mp hr with heq | hmem
        · subst heq; exact h.1
        · exact strLtB_trans _ _ _ h.1
            (List.rel_of_pairwise_cons htail hmem)
      · intro h
        exact ⟨h.1 (k2, v2) (List.mem_cons_self _ _), ih.mpr h.2⟩

theorem eraseFS_sublist {α : Type} (k : Str) (l : List (Str × α)) :
    (eraseFS k l).Sublist l := by
  induction l with
  | nil => simp [eraseFS]
  | cons p rest ih =>
    obtain ⟨k1, v1⟩ := p
    simp only [eraseFS]
    by_cases h1 : k = k1
    · rw [if_pos h1]
      exact (List.sublist_cons_self _ _)
    · rw [if_neg h1]
      exact ih.cons₂ _

theorem sortedKeys_erase {α : Type} (k : Str) (l : List (Str × α)) (h : SortedKeys l) :
    SortedKeys (eraseFS k l) := by
  rw [sortedKeys_pairwise] at h ⊢
  exact h.sublist (eraseFS_sublist k l)

theorem mem_insertSortedA {α : Type} (k : Str) (v : α) (l : List (Str × α)) (q : Str × α) :
    q ∈ insertSortedA k v l → q = (k, v) ∨ q ∈ l := by
  induction l with
  | nil => simp [insertSortedA]
  | cons p rest ih =>
    obtain ⟨k1, v1⟩ := p
    simp only [insertSortedA]
    by_cases h1 : strLtB k k1 = true
    · rw [if_pos h1]
      intro hq
      rcases List.mem_cons.mp hq with heq | hmem
      · exact Or.inl heq
      · exact Or.inr hmem
    · rw [if_neg h1]
      by_cases h2 : k = k1
      · rw [if_pos h2]
        intro hq
        rcases List.mem_cons.mp hq with heq | hmem
        · exact Or.inl heq
        · exact Or.inr (List.mem_cons_of_mem _ hmem)
      · rw [if_neg h2]
        intro hq
        rcases List.mem_cons.mp hq with heq | hmem
        · exact Or.inr (heq ▸ List.mem_cons_self _ _)
        · rcases ih hmem with hk | hr
          · exact Or.inl hk
          · exact Or.inr (List.mem_cons_of_mem _ hr)

theorem sortedKeys_insert {α : Type} (k : Str) (v : α) (l : List (Str × α))
    (h : SortedKeys l) : SortedKeys (insertSortedA k v l) := by
  rw [sortedKeys_pairwise] at h ⊢
  induction l with
  | nil => simp [insertSortedA]
  | cons p rest ih =>
    obtain ⟨k1, v1⟩ := p
    rw [List.pairwise_cons] at h
    simp only [insertSortedA]
    by_cases h1 : strLtB k k1 = true
    · rw [if_pos h1]
      rw [List.pairwise_cons]
      refine ⟨?_, List.pairwise_cons.mpr h⟩
      intro q hq
      rcases List.mem_cons.mp hq with heq | hmem
      · subst heq; exact h1
      · exact strLtB_trans _ _ _ h1 (h.1 q hmem)
    · rw [if_neg h1]
      by_cases h2 : k = k1
      · rw [if_pos h2]
        rw [List.pairwise_cons]
        subst h2
        exact h
      · rw [if_neg h2]
        have hk1k : strLtB k1 k = true := by
          cases hc : strLtB k1 k with
          | true => rfl
          | false => exact absurd (strLtB_conn k k1 (by simpa using h1) hc) h2
        rw [List.pairwise_cons]
        refine ⟨?_, ih h.2⟩
        intro q hq
        rcases mem_insertSortedA k v rest q hq with heq | hmem
        · subst heq; exact hk1k
        · exact h.1 q hmem

theorem sortedKeys_nodup_keys {α : Type} (l : List (Str × α)) (h : SortedKeys l) :
    (l.map Prod.fst).Nodup := by
  rw [sortedKeys_pairwise] at h
  exact List.Pairwise.map Prod.fst
    (fun a b hab he => by rw [he, strLtB_irrefl] at hab; cases hab) h

theorem lookupA_erase_self {α : Type} (k : Str) (l : List (Str × α))
    (h : SortedKeys l) : lookupA k (eraseFS k l) = none := by
  induction l with
  | nil => rfl
  | cons p rest ih =>
    obtain ⟨k1, v1⟩ := p
    simp only [eraseFS]
    by_cases h1 : k = k1
    · rw [if_pos h1]
      subst h1
      refine lookupA_not_mem fun q hq he => ?_
      have := sortedKeys_head_lt h q hq
      rw [he, strLtB_irrefl] at this
      cases this
    · rw [if_neg h1]
      simp only [lookupA, if_neg h1]
      exact ih (sortedKeys_tail h)

theorem lookupA_some_mem {α : Type} (k : Str) (l : List (Str × α)) (v : α)
    (h : lookupA k l = some v) : ∃ p ∈ l, p.1 = k := by
  induction l with
  | nil => cases h
  | cons p rest ih =>
    obtain ⟨k1, v1⟩ := p
    simp only [lookupA] at h
    by_cases h1 : k = k1
    · exact ⟨(k1, v1), List.mem_cons_self _ _, h1.symm⟩
    · rw [if_neg h1] at h
      rcases ih h with ⟨p2, hp2, hp2k⟩
      exact ⟨p2, List.mem_cons_of_mem _ hp2, hp2k⟩

theorem sortedKeys_ext {α : Type} : ∀ (l1 l2 : List (Str × α)),
    SortedKeys l1 → SortedKeys l2 → (∀ k, lookupA k l1 = lookupA k l2) → l1 = l2 := by
  intro l1
  induction l1 with
  | nil =>
    intro l2 _ h2 hk
    cases l2 with
    | nil => rfl
    | cons q t2 =>
      obtain ⟨k2, v2⟩ := q
      have hv := hk k2
      simp [lookupA] at hv
  | cons p t1 ih =>
    intro l2 h1 h2 hk
    obtain ⟨k1, v1⟩ := p
    cases l2 with
    | nil =>
      have hv := hk k1
      simp [lookupA] at hv
    | cons q t2 =>
      obtain ⟨k2, v2⟩ := q
      have hkeq : k1 = k2 := by
        by_contra hne
        have ha := hk k1
        have hb := hk k2
        simp only [lookupA, ite_true] at ha hb
        rw [if_neg hne] at ha
        rw [if_neg (fun he => hne he.symm)] at hb
        rcases lookupA_some_mem k1 t2 v1 ha.symm with ⟨pa, hpa, hpak⟩
        rcases lookupA_some_mem k2 t1 v2 hb with ⟨pb, hpb, hpbk⟩
        have hlt1 := sortedKeys_head_lt h2 pa hpa
        have hlt2 := sortedKeys_head_lt h1 pb hpb
        rw [hpak] at hlt1
        rw [hpbk] at hlt2
        have hasy := strLtB_asymm _ _ hlt1
        rw [hasy] at hlt2
        cases hlt2
      subst hkeq
      have hveq : v1 = v2 := by
        have hv := hk k1
        simp only [lookupA, ite_true] at hv
        exact Option.some.inj hv
      subst hveq
      have htail : ∀ k, lookupA k t1 = lookupA k t2 := by
        intro k
        by_cases hkk : k = k1
        · subst hkk
          rw [sortedKeys_lookup_head_none (sortedKeys_head_lt h1),
            sortedKeys_lookup_head_none (sortedKeys_head_lt h2)]
        · have hv := hk k
          simp only [lookupA, if_neg hkk] at hv
          exact hv
      rw [ih t2 (sortedKeys_tail h1) (sortedKeys_tail h2) htail]

/-! ## Path decomposition lemmas -/

theorem startsWithSeq_iff (p s : Str) : startsWithSeq p s = true ↔ ∃ t, s = p ++ t := by
  induction p generalizing s with
  | nil => simp [startsWithSeq]
  | cons c ps ih =>
    cases s with
    | nil =>
      simp only [startsWithSeq]
      constructor
      · intro h; cases h
      · rintro ⟨t, ht⟩; cases ht
    | cons d rest =>
      simp only [startsWithSeq, Bool.decide_and, Bool.and_eq_true, decide_eq_true_eq, ih]
      constructor
      · rintro ⟨rfl, t, rfl⟩
        exact ⟨t, rfl⟩
      · rintro ⟨t, ht⟩
        rw [List.cons_append] at ht
        cases ht
        exact ⟨rfl, t, rfl⟩

theorem endsWithSeq_iff (suf s : Str) : endsWithSeq suf s = true ↔ ∃ t, s = t ++ suf := by
  unfold endsWithSeq
  rw [startsWithSeq_iff]
  constructor
  · rintro ⟨t, ht⟩
    refine ⟨t.reverse, ?_⟩
    have := congrArg List.reverse ht
    simpa using this
  · rintro ⟨t, rfl⟩
    exact ⟨t.reverse, by simp⟩

theorem dropSuffix_append (suf s : Str) (h : endsWithSeq suf s = true) :
    dropSuffix suf s ++ suf = s := by
  rcases (endsWithSeq_iff suf s).mp h with ⟨t, rfl⟩
  unfold dropSuffix
  rw [if_pos h]
  have hlen : (t ++ suf).length - suf.length = t.length := by
    simp
  rw [hlen, List.take_left]

theorem splitCh_ne_nil (sep : Char) : ∀ s : Str, splitCh sep s ≠ [] := by
  intro s
  cases s with
  | nil => simp [splitCh]
  | cons c rest =>
    simp only [splitCh]
    by_cases hc : c = sep
    · rw [if_pos hc]; simp
    · rw [if_neg hc]
      cases hsp : splitCh sep rest <;> simp

theorem splitCh_head (sep : Char) : ∀ (s : Str) (p : Str) (ps : List Str),
    splitCh sep s = p :: ps →
    (ps = [] ∧ s = p) ∨ ∃ t, s = p ++ sep :: t ∧ splitCh sep t = ps := by
  intro s
  induction s with
  | nil =>
    intro p ps h
    simp only [splitCh] at h
    cases h
    exact Or.inl ⟨rfl, rfl⟩
  | cons c rest ih =>
    intro p ps h
    simp only [splitCh] at h
    by_cases hc : c = sep
    · rw [if_pos hc] at h
      cases h
      subst hc
      exact Or.inr ⟨rest, rfl, rfl⟩
    · rw [if_neg hc] at h
      cases hsp : splitCh sep rest with
      | nil => exact absurd hsp (splitCh_ne_nil sep rest)
      | cons p2 ps2 =>
        rw [hsp] at h
        cases h
        rcases ih _ _ hsp with ⟨hps, hs⟩ | ⟨t, hs, htl⟩
        · subst hps; subst hs
          exact Or.inl ⟨rfl, rfl⟩
        · subst hs
          exact Or.inr ⟨t, rfl, htl⟩

theorem splitCh_three (sep : Char) (s p0 p1 p2 : Str)
    (h : splitCh sep s = [p0, p1, p2]) :
    s = p0 ++ sep :: p1 ++ sep :: p2 := by
  rcases splitCh_head sep s p0 [p1, p2] h with ⟨hc, _⟩ | ⟨t, hs, ht⟩
  · cases hc
  · subst hs
    rcases splitCh_head sep t p1 [p2] ht with ⟨hc, _⟩ | ⟨t2, hs2, ht2⟩
    · cases hc
    · subst hs2
      rcases splitCh_head sep t2 p2 [] ht2 with ⟨_, hs3⟩ | ⟨t3, hs3, ht3⟩
      · subst hs3; simp
      · exact absurd ht3 (splitCh_ne_nil sep t3)

/-! ## Properties of objectFromPathAndData and the apply loop -/

theorem identityFill_lookup (data : Obj) (idv tyv : Str) :
    ((lookupV (cs "_id") data).isNone →
      lookupV (cs "_id")
        (if (lookupV (cs "_type") (if (lookupV (cs "_id") data).isSome then data
            else insertSortedV (cs "_id") (.vstr idv) data)).isSome
          then (if (lookupV (cs "_id") data).isSome then data
            else insertSortedV (cs "_id") (.vstr idv) data)
          else insertSortedV (cs "_type") (.vstr tyv)
            (if (lookupV (cs "_id") data).isSome then data
              else insertSortedV (cs "_id") (.vstr idv) data)) = some (.vstr idv)) ∧
    ((lookupV (cs "_type") data).isNone →
      lookupV (cs "_type")
        (if (lookupV (cs "_type") (if (lookupV (cs "_id") data).isSome then data
            else insertSortedV (cs "_id") (.vstr idv) data)).isSome
          then (if (lookupV (cs "_id") data).isSome then data
            else insertSortedV (cs "_id") (.vstr idv) data)
          else insertSortedV (cs "_type") (.vstr tyv)
            (if (lookupV (cs "_id") data).isSome then data
              else insertSortedV (cs "_id") (.vstr idv) data)) = some (.vstr tyv)) := by
  have hlk1 : lookupV (cs "_type") (if (lookupV (cs "_id") data).isSome then data
      else insertSortedV (cs "_id") (.vstr idv) data) = lookupV (cs "_type") data := by
    split
    · rfl
    · exact lookupA_insert_ne (cs "_id") (cs "_type") (Value.vstr idv) data (by decide)
  constructor
  · intro hnone
    rw [Option.isNone_iff_eq_none] at hnone
    have hd1 : (if (lookupV (cs "_id") data).isSome then data
        else insertSortedV (cs "_id") (.vstr idv) data) =
        insertSortedV (cs "_id") (.vstr idv) data := by
      rw [if_neg (by rw [hnone]; simp)]
    rw [hd1] at hlk1 ⊢
    split
    · exact lookupA_insert_self _ _ _
    · exact (lookupA_insert_ne (cs "_type") (cs "_id") (Value.vstr tyv)
        (insertSortedV (cs "_id") (Value.vstr idv) data) (by decide)).trans
        (lookupA_insert_self _ _ _)
  · intro hnone
    rw [Option.isNone_iff_eq_none] at hnone
    rw [if_neg (by rw [hlk1, hnone]; simp)]
    exact lookupA_insert_self _ _ _

theorem objectFromPathAndData_props (rel : Str) (data : Obj) (obj : ObjRec)
    (h : objectFromPathAndData rel data = .ok obj) :
    dataPath obj.ty obj.id = rel ∧ obj.path = rel ∧
    ((lookupV (cs "_id") data).isNone →
      lookupV (cs "_id") obj.data = some (.vstr obj.id)) ∧
    (∀ s, lookupV (cs "_id") data = some (.vstr s) → s ≠ [] → s = obj.id) ∧
    ((lookupV (cs "_type") data).isNone →
      lookupV (cs "_type") obj.data = some (.vstr obj.ty)) ∧
    (∀ s, lookupV (cs "_type") data = some (.vstr s) → s ≠ [] → s = obj.ty) := by
  simp only [objectFromPathAndData] at h
  split at h
  case h_2 => exact Except.noConfusion h
  case h_1 p0 p1 p2 heq =>
  split at h
  case isFalse => exact Except.noConfusion h
  case isTrue hcond =>
  obtain ⟨hp0, hyaml⟩ := hcond
  split at h
  case isTrue => exact Except.noConfusion h
  case isFalse hgid =>
  split at h
  case isTrue => exact Except.noConfusion h
  case isFalse hgty =>
  have hobj : obj = ⟨dropSuffix (cs ".yaml") p2, p1,
      (if (lookupV (cs "_type") (if (lookupV (cs "_id") data).isSome then data
          else insertSortedV (cs "_id") (.vstr (dropSuffix (cs ".yaml") p2)) data)).isSome
        then (if (lookupV (cs "_id") data).isSome then data
          else insertSortedV (cs "_id") (.vstr (dropSuffix (cs ".yaml") p2)) data)
        else insertSortedV (cs "_type") (.vstr p1)
          (if (lookupV (cs "_id") data).isSome then data
            else insertSortedV (cs "_id") (.vstr (dropSuffix (cs ".yaml") p2)) data)),
      rel⟩ := by
    injection h with h2
    exact h2.symm
  subst hobj
  have hrel := splitCh_three '/' rel p0 p1 p2 heq
  refine ⟨?_, rfl, ?_, ?_, ?_, ?_⟩
  · show dataPath p1 (dropSuffix (cs ".yaml") p2) = rel
    have hp2 := dropSuffix_append (cs ".yaml") p2 hyaml
    rw [hrel, hp0]
    conv_rhs => rw [← hp2]
    show cs "data/" ++ p1 ++ cs "/" ++ dropSuffix (cs ".yaml") p2 ++ cs ".yaml" = _
    have e1 : cs "data/" = cs "data" ++ [(Char.ofNat 47)] := rfl
    have e2 : cs "/" = [(Char.ofNat 47)] := rfl
    rw [e1, e2]
    simp [List.append_assoc]
  · exact (identityFill_lookup data (dropSuffix (cs ".yaml") p2) p1).1
  · intro s hs hne
    have hgid2 : (match lookupV (cs "_id") data with
        | some (.vstr s) => s
        | _ => []) = s := by rw [hs]
    rw [hgid2] at hgid
    rcases not_and_or.mp hgid with hc | hc
    · exact absurd hne (by simpa using hc)
    · simpa using hc
  · exact (identityFill_lookup data (dropSuffix (cs ".yaml") p2) p1).2
  · intro s hs hne
    have hgty2 : (match lookupV (cs "_type") data with
        | some (.vstr s) => s
        | _ => []) = s := by rw [hs]
    rw [hgty2] at hgty
    rcases not_and_or.mp hgty with hc | hc
    · exact absurd hne (by simpa using hc)
    · simpa using hc

theorem writeObjectFS_ok (fs : FS) (obj : ObjRec) (fs2 : FS)
    (h : writeObjectFS fs obj = .ok fs2) :
    obj.id ≠ [] ∧ obj.ty ≠ [] ∧ ∃ b, canonicalYAML obj.data = .ok b ∧
      fs2 = insertSortedA (dataPath obj.ty obj.id) b fs := by
  unfold writeObjectFS at h
  split at h
  · exact Except.noConfusion h
  next hcond =>
    rcases not_or.mp hcond with ⟨h1, h2⟩
    cases hcan : canonicalYAML obj.data with
    | error e => rw [hcan] at h; exact Except.noConfusion h
    | ok b =>
      rw [hcan] at h
      injection h with h3
      exact ⟨h1, h2, b, rfl, h3.symm⟩

theorem applyLoop_untouched (mm : List (Str × Option Obj)) :
    ∀ (rels : List Str) (fs fs2 : FS), applyLoop mm rels fs = .ok fs2 →
    ∀ k, k ∉ rels → lookupA k fs2 = lookupA k fs := by
  intro rels
  induction rels with
  | nil =>
    intro fs fs2 h k _
    injection h with h2
    rw [h2]
  | cons rel rest ih =>
    intro fs fs2 h k hk
    have hkrel : k ≠ rel := fun he => hk (he ▸ List.mem_cons_self _ _)
    have hkrest : k ∉ rest := fun hm => hk (List.mem_cons_of_mem _ hm)
    simp only [applyLoop] at h
    split at h
    · rw [ih _ _ h k hkrest, lookupA_erase_ne _ _ _ hkrel]
    next merged hm =>
      split at h
      · rw [ih _ _ h k hkrest, lookupA_erase_ne _ _ _ hkrel]
      · cases hop : objectFromPathAndData rel merged with
        | error e => simp only [hop] at h; exact Except.noConfusion h
        | ok obj =>
          simp only [hop] at h
          cases hw : writeObjectFS fs obj with
          | error e => simp only [hw] at h; exact Except.noConfusion h
          | ok fs3 =>
            simp only [hw] at h
            obtain ⟨_, _, b, _, hfs3⟩ := writeObjectFS_ok fs obj fs3 hw
            have hpath := (objectFromPathAndData_props rel merged obj hop).1
            rw [ih _ _ h k hkrest, hfs3, hpath]
            exact lookupA_insert_ne rel k b fs hkrel

theorem applyLoop_sorted (mm : List (Str × Option Obj)) :
    ∀ (rels : List Str) (fs fs2 : FS), SortedKeys fs →
    applyLoop mm rels fs = .ok fs2 → SortedKeys fs2 := by
  intro rels
  induction rels with
  | nil =>
    intro fs fs2 hs h
    injection h with h2
    rw [← h2]
    exact hs
  | cons rel rest ih =>
    intro fs fs2 hs h
    simp only [applyLoop] at h
    split at h
    · exact ih _ _ (sortedKeys_erase rel fs hs) h
    next merged hm =>
      split at h
      · exact ih _ _ (sortedKeys_erase rel fs hs) h
      · cases hop : objectFromPathAndData rel merged with
        | error e => simp only [hop] at h; exact Except.noConfusion h
        | ok obj =>
          simp only [hop] at h
          cases hw : writeObjectFS fs obj with
          | error e => simp only [hw] at h; exact Except.noConfusion h
          | ok fs3 =>
            simp only [hw] at h
            obtain ⟨_, _, b, _, hfs3⟩ := writeObjectFS_ok fs obj fs3 hw
            refine ih _ _ ?_ h
            rw [hfs3]
            exact sortedKeys_insert _ _ _ hs

theorem applyLoop_lookup (mm : List (Str × Option Obj)) :
    ∀ (rels : List Str) (fs fs2 : FS), rels.Nodup → SortedKeys fs →
    applyLoop mm rels fs = .ok fs2 → ∀ rel ∈ rels,
    ((lookupA rel mm).getD none = none ∨ (lookupA rel mm).getD none = some ([] : Obj) →
      lookupA rel fs2 = none) ∧
    (∀ m : Obj, (lookupA rel mm).getD none = some m → m ≠ [] →
      ∃ obj b, objectFromPathAndData rel m = .ok obj ∧ canonicalYAML obj.data = .ok b ∧
        lookupA rel fs2 = some b) := by
  intro rels
  induction rels with
  | nil => intro fs fs2 _ _ _ rel hrel; cases hrel
  | cons r0 rest ih =>
    intro fs fs2 hnd hs h rel hrel
    have hnd2 := List.nodup_cons.mp hnd
    rcases List.mem_cons.mp hrel with rfl | hmem
    · simp only [applyLoop] at h
      constructor
      · intro hcase
        rcases hcase with hnone | hempty
        · simp only [hnone] at h
          rw [applyLoop_untouched mm rest _ _ h rel hnd2.1]
          exact lookupA_erase_self rel fs hs
        · simp only [hempty, if_pos rfl, ite_true] at h
          rw [applyLoop_untouched mm rest _ _ h rel hnd2.1]
          exact lookupA_erase_self rel fs hs
      · intro m hm hmne
        simp only [hm, if_neg hmne] at h
        cases hop : objectFromPathAndData rel m with
        | error e => simp only [hop] at h; exact Except.noConfusion h
        | ok obj =>
          simp only [hop] at h
          cases hw : writeObjectFS fs obj with
          | error e => simp only [hw] at h; exact Except.noConfusion h
          | ok fs3 =>
            simp only [hw] at h
            obtain ⟨_, _, b, hcan, hfs3⟩ := writeObjectFS_ok fs obj fs3 hw
            have hpath := (objectFromPathAndData_props rel m obj hop).1
            refine ⟨obj, b, rfl, hcan, ?_⟩
            rw [applyLoop_untouched mm rest _ _ h rel hnd2.1, hfs3, hpath]
            exact lookupA_insert_self _ _ _
    · simp only [applyLoop] at h
      split at h
      · exact ih _ _ hnd2.2 (sortedKeys_erase r0 fs hs) h rel hmem
      next merged hm0 =>
        split at h
        · exact ih _ _ hnd2.2 (sortedKeys_erase r0 fs hs) h rel hmem
        · cases hop : objectFromPathAndData r0 merged with
          | error e => simp only [hop] at h; exact Except.noConfusion h
          | ok obj =>
            simp only [hop] at h
            cases hw : writeObjectFS fs obj with
            | error e => simp only [hw] at h; exact Except.noConfusion h
            | ok fs3 =>
              simp only [hw] at h
              obtain ⟨_, _, b, _, hfs3⟩ := writeObjectFS_ok fs obj fs3 hw
              refine ih _ _ hnd2.2 ?_ h rel hmem
              rw [hfs3]
              exact sortedKeys_insert _ _ _ hs

/-- Base version of the C4 counterexample: only the identity field. -/
def c4Base : Obj := [(cs "_id", .vstr (cs "x"))]

/-- Main version of the C4 counterexample. -/
def c4Main : Obj := [(cs "_id", .vstr (cs "x")), (cs "name", .vstr (cs "a"))]

/-- Workspace version of the C4 counterexample (identity field deleted,
data field equal to main's). -/
def c4Ws : Obj := [(cs "name", .vstr (cs "a"))]

/-- Path of the C4 counterexample file. -/
def c4Rel : Str := cs "data/t/x.yaml"

/-- C4 counterexample: a merge whose accumulated field map is non-empty
(`name: a`) while `mergeThreeWayObject` still returns nil because the
map lacks `_id` and a base version existed, so `MergeWorkspace` deletes
the file from trunk — the claimed "deleted iff the merged field map
contains no fields" equivalence is false.  The full pipeline run shows
the file disappearing from the trunk file system. -/
theorem C4_counterexample :
    (mergeFields c4Rel [] [] (some c4Base) (some c4Main) (some c4Ws)
      (unionKeys (some c4Base) (some c4Main) (some c4Ws))).1 =
        [(cs "name", .vstr (cs "a"))]
    ∧ mergeThreeWayObject c4Rel (some c4Base) (some c4Main) (some c4Ws) [] [] = (none, [])
    ∧ mergeWorkspaceModel (cs "w") [c4Rel]
        (fun _ => (some c4Base, some c4Main, some c4Ws)) [] [] (fun _ => true) true
        [(c4Rel, cs "old")] =
      .ok ⟨true, [c4Rel], [], cs "merge complete", cs "w", 1⟩ [] true := by
  refine ⟨by decide, by decide, by decide⟩

/-- C4 (amended): in `MergeWorkspace`, a changed file is deleted from
trunk iff its merged map is nil or empty, where `mergeThreeWayObject`
returns nil exactly when the accumulated field map is empty or lacks
`_id` while a base version existed; a non-nil merged map is written as
the canonical bytes of the object whose `_id`/`_type` are inferred from
the path when absent and cross-checked (as non-empty strings) when
present. -/
theorem C4_delete_iff :
    (∀ (rel : Str) (base main ws : Option Obj) (res man : List (Str × Str)),
      ((mergeThreeWayObject rel base main ws res man).1 = none ↔
        (mergeFields rel res man base main ws (unionKeys base main ws)).1 = [] ∨
        ((lookupV (cs "_id")
            (mergeFields rel res man base main ws (unionKeys base main ws)).1).isNone = true ∧
          base.isSome = true)))
    ∧ (∀ (mm : List (Str × Option Obj)) (rels : List Str) (fs fs2 : FS),
        rels.Nodup → SortedKeys fs → applyLoop mm rels fs = .ok fs2 → ∀ rel ∈ rels,
        (((lookupA rel mm).getD none = none ∨ (lookupA rel mm).getD none = some ([] : Obj)) →
          lookupA rel fs2 = none) ∧
        (∀ m : Obj, (lookupA rel mm).getD none = some m → m ≠ [] →
          ∃ obj b, objectFromPathAndData rel m = .ok obj ∧
            canonicalYAML obj.data = .ok b ∧ lookupA rel fs2 = some b))
    ∧ (∀ (rel : Str) (data : Obj) (obj : ObjRec), objectFromPathAndData rel data = .ok obj →
        dataPath obj.ty obj.id = rel ∧
        ((lookupV (cs "_id") data).isNone →
          lookupV (cs "_id") obj.data = some (.vstr obj.id)) ∧
        (∀ s, lookupV (cs "_id") data = some (.vstr s) → s ≠ [] → s = obj.id) ∧
        ((lookupV (cs "_type") data).isNone →
          lookupV (cs "_type") obj.data = some (.vstr obj.ty)) ∧
        (∀ s, lookupV (cs "_type") data = some (.vstr s) → s ≠ [] → s = obj.ty)) := by
  refine ⟨?_, applyLoop_lookup, ?_⟩
  · intro rel base main ws res man
    simp only [mergeThreeWayObject]
    split
    next h1 =>
      constructor
      · intro _
        right
        exact ⟨h1.1, h1.2⟩
      · intro _
        rfl
    next h1 =>
      split
      next h2 =>
        constructor
        · intro _
          left
          exact h2
        · intro _
          rfl
      next h2 =>
        constructor
        · intro hno
          exact Option.noConfusion hno
        · intro hcase
          rcases hcase with hempty | hid
          · exact absurd hempty h2
          · exact absurd ⟨hid.1, hid.2⟩ h1
  · intro rel data obj h
    obtain ⟨a, _, c, d, e, f⟩ := objectFromPathAndData_props rel data obj h
    exact ⟨a, c, d, e, f⟩

/-- Witness exercising the C4 theorem: a file whose merged map is nil
is removed from the trunk file system by the apply loop. -/
theorem C4_delete_iff_witness :
    lookupA c4Rel ([] : FS) = none :=
  (C4_delete_iff.2.1 [(c4Rel, none)] [c4Rel] [(c4Rel, cs "old")] [] (by decide)
    (by trivial) (by decide) c4Rel (by decide)).1 (Or.inl (by decide))

theorem applyLoop_err (mm : List (Str × Option Obj)) :
    ∀ (rels : List Str) (fs : FS) (e : Str) (fse : FS), SortedKeys fs →
    applyLoop mm rels fs = .error (e, fse) →
    SortedKeys fse ∧ ∀ k, k ∉ rels → lookupA k fse = lookupA k fs := by
  intro rels
  induction rels with
  | nil =>
    intro fs e fse _ h
    exact Except.noConfusion h
  | cons rel rest ih =>
    intro fs e fse hs h
    simp only [applyLoop] at h
    split at h
    · obtain ⟨h1, h2⟩ := ih _ _ _ (sortedKeys_erase rel fs hs) h
      refine ⟨h1, fun k hk => ?_⟩
      have hkrel : k ≠ rel := fun he => hk (he ▸ List.mem_cons_self _ _)
      have hkrest : k ∉ rest := fun hm => hk (List.mem_cons_of_mem _ hm)
      rw [h2 k hkrest, lookupA_erase_ne _ _ _ hkrel]
    next merged hm =>
      split at h
      · obtain ⟨h1, h2⟩ := ih _ _ _ (sortedKeys_erase rel fs hs) h
        refine ⟨h1, fun k hk => ?_⟩
        have hkrel : k ≠ rel := fun he => hk (he ▸ List.mem_cons_self _ _)
        have hkrest : k ∉ rest := fun hm => hk (List.mem_cons_of_mem _ hm)
        rw [h2 k hkrest, lookupA_erase_ne _ _ _ hkrel]
      · cases hop : objectFromPathAndData rel merged with
        | error e2 =>
          simp only [hop] at h
          injection h with h2
          have hf : fs = fse := congrArg Prod.snd h2
          rw [← hf]
          exact ⟨hs, fun k _ => rfl⟩
        | ok obj =>
          simp only [hop] at h
          cases hw : writeObjectFS fs obj with
          | error e2 =>
            simp only [hw] at h
            injection h with h2
            have hf : fs = fse := congrArg Prod.snd h2
            rw [← hf]
            exact ⟨hs, fun k _ => rfl⟩
          | ok fs3 =>
            simp only [hw] at h
            obtain ⟨_, _, b, _, hfs3⟩ := writeObjectFS_ok fs obj fs3 hw
            have hpath := (objectFromPathAndData_props rel merged obj hop).1
            have hsort3 : SortedKeys fs3 := by
              rw [hfs3]
              exact sortedKeys_insert _ _ _ hs
            obtain ⟨h1, h2⟩ := ih _ _ _ hsort3 h
            refine ⟨h1, fun k hk => ?_⟩
            have hkrel : k ≠ rel := fun he => hk (he ▸ List.mem_cons_self _ _)
            have hkrest : k ∉ rest := fun hm => hk (List.mem_cons_of_mem _ hm)
            rw [h2 k hkrest, hfs3, hpath]
            exact lookupA_insert_ne rel k b fs hkrel

theorem restorePaths_lookup (fs : FS) :
    ∀ (rels : List Str) (fs2 : FS), SortedKeys fs2 →
    SortedKeys (restorePaths (backupPaths fs rels) fs2) ∧
    ∀ p, lookupA p (restorePaths (backupPaths fs rels) fs2) =
      if p ∈ rels then lookupA p fs else lookupA p fs2 := by
  intro rels
  induction rels with
  | nil =>
    intro fs2 hs
    refine ⟨hs, fun p => ?_⟩
    simp [backupPaths, restorePaths]
  | cons rel rest ih =>
    intro fs2 hs
    have hstep : restorePaths (backupPaths fs (rel :: rest)) fs2 =
        restorePaths (backupPaths fs rest)
          (match lookupA rel fs with
           | some d => insertSortedA rel d fs2
           | none => eraseFS rel fs2) := rfl
    rw [hstep]
    cases hlf : lookupA rel fs with
    | some d =>
      obtain ⟨ihs, ihl⟩ := ih (insertSortedA rel d fs2) (sortedKeys_insert _ _ _ hs)
      refine ⟨ihs, fun p => ?_⟩
      have hgl : lookupA p (restorePaths (backupPaths fs rest) (insertSortedA rel d fs2)) =
          if p ∈ rest then lookupA p fs else lookupA p (insertSortedA rel d fs2) := ihl p
      rw [show (restorePaths (backupPaths fs rest)
          (match some d with
           | some d => insertSortedA rel d fs2
           | none => eraseFS rel fs2)) =
          restorePaths (backupPaths fs rest) (insertSortedA rel d fs2) from rfl, hgl]
      by_cases hpr : p ∈ rest
      · rw [if_pos hpr, if_pos (List.mem_cons_of_mem _ hpr)]
      · rw [if_neg hpr]
        by_cases hpe : p = rel
        · rw [hpe, lookupA_insert_self, if_pos (List.mem_cons_self _ _), hlf]
        · have hnm : p ∉ rel :: rest := by
            intro hm
            rcases List.mem_cons.mp hm with h | h
            · exact hpe h
            · exact hpr h
          rw [lookupA_insert_ne rel p d fs2 hpe, if_neg hnm]
    | none =>
      obtain ⟨ihs, ihl⟩ := ih (eraseFS rel fs2) (sortedKeys_erase _ _ hs)
      refine ⟨ihs, fun p => ?_⟩
      have hgl : lookupA p (restorePaths (backupPaths fs rest) (eraseFS rel fs2)) =
          if p ∈ rest then lookupA p fs else lookupA p (eraseFS rel fs2) := ihl p
      rw [show (restorePaths (backupPaths fs rest)
          (match (none : Option Str) with
           | some d => insertSortedA rel d fs2
           | none => eraseFS rel fs2)) =
          restorePaths (backupPaths fs rest) (eraseFS rel fs2) from rfl, hgl]
      by_cases hpr : p ∈ rest
      · rw [if_pos hpr, if_pos (List.mem_cons_of_mem _ hpr)]
      · rw [if_neg hpr]
        by_cases hpe : p = rel
        · rw [hpe, lookupA_erase_self rel fs2 hs, if_pos (List.mem_cons_self _ _), hlf]
        · have hnm : p ∉ rel :: rest := by
            intro hm
            rcases List.mem_cons.mp hm with h | h
            · exact hpe h
            · exact hpr h
          rw [lookupA_erase_ne rel p fs2 hpe, if_neg hnm]

theorem restore_exact (fs fs2 : FS) (rels : List Str)
    (h1 : SortedKeys fs) (h2 : SortedKeys fs2)
    (hagree : ∀ p, p ∉ rels → lookupA p fs2 = lookupA p fs) :
    restorePaths (backupPaths fs rels) fs2 = fs := by
  obtain ⟨hs, hl⟩ := restorePaths_lookup fs rels fs2 h2
  refine sortedKeys_ext _ _ hs h1 fun k => ?_
  rw [hl k]
  by_cases hk : k ∈ rels
  · rw [if_pos hk]
  · rw [if_neg hk, hagree k hk]

/-- C6: with an empty changed-file set, `MergeWorkspace` returns
`Merged = false` with message "no changes to merge", leaves the trunk
file system untouched, and creates no commit. -/
theorem C6_no_changes (wsName : Str)
    (views : Str → Option Obj × Option Obj × Option Obj)
    (res man : List (Str × Str)) (validateOK : FS → Bool) (gitOK : Bool) (fs : FS) :
    mergeWorkspaceModel wsName [] views res man validateOK gitOK fs =
      .ok ⟨false, [], [], cs "no changes to merge", wsName, 0⟩ fs false := rfl

/-- C3: a merge attempt either commits cleanly (result `.ok _ _ true`,
with validation having passed) or leaves the trunk file system exactly
equal to its pre-attempt contents — both when it returns a
no-change/conflict result and when it returns a blocking error, in
which case every changed path has been restored to its pre-attempt
bytes (rewriting paths that existed, removing paths that did not) and
no commit was created. -/
theorem C3_rollback (wsName : Str) (changed : List Str)
    (views : Str → Option Obj × Option Obj × Option Obj)
    (res man : List (Str × Str)) (validateOK : FS → Bool) (gitOK : Bool)
    (fs : FS) (hs : SortedKeys fs) :
    (∃ r fs2, mergeWorkspaceModel wsName changed views res man validateOK gitOK fs =
        .ok r fs2 true ∧ validateOK fs2 = true ∧ r.merged = true) ∨
    (∃ r, mergeWorkspaceModel wsName changed views res man validateOK gitOK fs =
        .ok r fs false) ∨
    (∃ e, mergeWorkspaceModel wsName changed views res man validateOK gitOK fs =
        .err e fs) := by
  by_cases hc : changed = []
  · right
    left
    exact ⟨⟨false, [], [], cs "no changes to merge", wsName, 0⟩, by rw [hc]; rfl⟩
  · by_cases hconf : (collectMerged views res man changed).2 = []
    · have hnconf : ¬ ((collectMerged views res man changed).2 ≠ []) := fun hn => hn hconf
      cases hap : applyLoop (collectMerged views res man changed).1 changed fs with
      | error ef =>
        obtain ⟨hse, hag⟩ := applyLoop_err _ changed fs ef.1 ef.2 hs (by rw [hap])
        have hres : restorePaths (backupPaths fs changed) ef.2 = fs :=
          restore_exact fs ef.2 changed hs hse hag
        right
        right
        refine ⟨ef.1, ?_⟩
        simp only [mergeWorkspaceModel, if_neg hc, if_neg hnconf, hap, hres]
      | ok fs2 =>
        have hs2 : SortedKeys fs2 := applyLoop_sorted _ changed fs fs2 hs hap
        have hag := applyLoop_untouched _ changed fs fs2 hap
        have hres : restorePaths (backupPaths fs changed) fs2 = fs :=
          restore_exact fs fs2 changed hs hs2 hag
        by_cases hv : validateOK fs2 = true
        · by_cases hg : gitOK = true
          · left
            refine ⟨⟨true, changed, [], cs "merge complete", wsName, changed.length⟩, fs2,
              ?_, hv, rfl⟩
            simp only [mergeWorkspaceModel, if_neg hc, if_neg hnconf, hap]
            rw [if_neg (not_not_intro hv), if_neg (not_not_intro hg)]
          · right
            right
            refine ⟨cs "git failure", ?_⟩
            simp only [mergeWorkspaceModel, if_neg hc, if_neg hnconf, hap]
            rw [if_neg (not_not_intro hv), if_pos hg, hres]
        · right
          right
          refine ⟨cs "merge blocked by validation", ?_⟩
          simp only [mergeWorkspaceModel, if_neg hc, if_neg hnconf, hap]
          rw [if_pos hv, hres]
    · right
      left
      refine ⟨⟨false, changed, sortConflicts (collectMerged views res man changed).2,
        cs "conflicts require resolution", wsName, 0⟩, ?_⟩
      simp only [mergeWorkspaceModel, if_neg hc, if_pos hconf]

/-- Witness exercising the C3 theorem at a concrete merge attempt whose
validation hook always fails: the attempt commits cleanly or returns
with the pre-attempt file system intact. -/
theorem C3_rollback_witness :
    (∃ r fs2, mergeWorkspaceModel (cs "w") [cs "data/t/a.yaml"]
        (fun _ => (none, none, some [(cs "k", Value.vstr (cs "v"))])) [] []
        (fun _ => false) true [(cs "data/t/a.yaml", cs "old")] = .ok r fs2 true ∧
        (fun _ => false : FS → Bool) fs2 = true ∧ r.merged = true) ∨
    (∃ r, mergeWorkspaceModel (cs "w") [cs "data/t/a.yaml"]
        (fun _ => (none, none, some [(cs "k", Value.vstr (cs "v"))])) [] []
        (fun _ => false) true [(cs "data/t/a.yaml", cs "old")] =
          .ok r [(cs "data/t/a.yaml", cs "old")] false) ∨
    (∃ e, mergeWorkspaceModel (cs "w") [cs "data/t/a.yaml"]
        (fun _ => (none, none, some [(cs "k", Value.vstr (cs "v"))])) [] []
        (fun _ => false) true [(cs "data/t/a.yaml", cs "old")] =
          .err e [(cs "data/t/a.yaml", cs "old")]) :=
  C3_rollback (cs "w") [cs "data/t/a.yaml"]
    (fun _ => (none, none, some [(cs "k", Value.vstr (cs "v"))])) [] []
    (fun _ => false) true [(cs "data/t/a.yaml", cs "old")] (by trivial)

theorem parseObjectFile_ok_props (content expTy expId : Str) (obj : ObjRec)
    (h : parseObjectFile content expTy expId = .ok obj) :
    obj.id ≠ [] ∧ obj.ty ≠ [] ∧ (expId ≠ [] → obj.id = expId) ∧
      (expTy ≠ [] → obj.ty = expTy) ∧ obj.path = [] := by
  simp only [parseObjectFile] at h
  repeat' split at h
  all_goals try exact Except.noConfusion h
  cases h
  refine ⟨fun hiv => absurd hiv (by assumption), fun htv => absurd htv (by assumption),
    fun hne => ?_, fun hne => ?_, rfl⟩
  · by_contra hiv
    exact absurd (And.intro hne hiv) (by assumption)
  · by_contra htv
    exact absurd (And.intro hne htv) (by assumption)

theorem parseTypeDir_mem (ty : Str) : ∀ (files : List (Str × Str)) (objs : List ObjRec),
    parseTypeDir ty files = .ok objs → ∀ obj ∈ objs,
    ∃ name content, (name, content) ∈ files ∧ endsWithSeq (cs ".yaml") name = true ∧
      obj.path = dataPath ty (dropSuffix (cs ".yaml") name) ∧
      parseObjectFile content ty (dropSuffix (cs ".yaml") name) =
        .ok ⟨obj.id, obj.ty, obj.data, []⟩ := by
  intro files
  induction files with
  | nil =>
    intro objs h obj hmem
    injection h with h2
    rw [← h2] at hmem
    cases hmem
  | cons pr rest ih =>
    obtain ⟨name, content⟩ := pr
    intro objs h obj hmem
    simp only [parseTypeDir] at h
    split at h
    next hyaml =>
      cases hp : parseObjectFile content ty (dropSuffix (cs ".yaml") name) with
      | error e => simp only [hp] at h; exact Except.noConfusion h
      | ok obj0 =>
        simp only [hp] at h
        cases hr : parseTypeDir ty rest with
        | error e => simp only [hr] at h; exact Except.noConfusion h
        | ok more =>
          simp only [hr] at h
          cases h
          obtain ⟨oid, oty, odata, opath⟩ := obj0
          have hpath2 : opath = [] := (parseObjectFile_ok_props content ty
            (dropSuffix (cs ".yaml") name) _ hp).2.2.2.2
          subst hpath2
          rcases List.mem_cons.mp hmem with rfl | hmem2
          · exact ⟨name, content, List.mem_cons_self _ _, hyaml, rfl, hp⟩
          · obtain ⟨n2, c2, hm2, he2, hp2, hpp2⟩ := ih more hr obj hmem2
            exact ⟨n2, c2, List.mem_cons_of_mem _ hm2, he2, hp2, hpp2⟩
    · obtain ⟨n2, c2, hm2, he2, hp2, hpp2⟩ := ih objs h obj hmem
      exact ⟨n2, c2, List.mem_cons_of_mem _ hm2, he2, hp2, hpp2⟩

theorem mem_insertByIdObj (x y : ObjRec) : ∀ l : List ObjRec,
    (y ∈ insertByIdObj x l ↔ y = x ∨ y ∈ l) := by
  intro l
  induction l with
  | nil => simp [insertByIdObj]
  | cons a t ih =>
    simp only [insertByIdObj]
    split
    · simp [List.mem_cons]
    · simp only [List.mem_cons, ih]
      tauto

theorem mem_sortByIdObj (x : ObjRec) : ∀ l : List ObjRec, x ∈ sortByIdObj l ↔ x ∈ l := by
  intro l
  induction l with
  | nil => simp [sortByIdObj]
  | cons a t ih =>
    show x ∈ insertByIdObj a (sortByIdObj t) ↔ _
    rw [mem_insertByIdObj, ih, List.mem_cons]

/-- YAML document used by the C5 counterexample: identity `z`. -/
def c5Bad : Str := cs "_id: z\n_type: team\n"

/-- The object the store returns for the C5 counterexample file. -/
def c5BadObj : ObjRec :=
  ⟨cs "z", cs "team", [(cs "_id", .vstr (cs "z")), (cs "_type", .vstr (cs "team"))],
    cs "data/team/.yaml"⟩

theorem c5Bad_pf : parseObjectFile c5Bad (cs "team") [] =
    .ok ⟨cs "z", cs "team",
      [(cs "_id", Value.vstr (cs "z")), (cs "_type", Value.vstr (cs "team"))], []⟩ := by
  have hps : parseSimple c5Bad =
      .ok [(cs "_id", Value.vstr (cs "z")), (cs "_type", Value.vstr (cs "team"))] := by
    rw [← parseSimpleF_eq]
    decide
  simp only [parseObjectFile, hps]
  decide

theorem c5Bad_pf0 : parseObjectFile c5Bad (cs "team") (dropSuffix (cs ".yaml") (cs ".yaml")) =
    .ok ⟨cs "z", cs "team",
      [(cs "_id", Value.vstr (cs "z")), (cs "_type", Value.vstr (cs "team"))], []⟩ := by
  rw [(by decide : dropSuffix (cs ".yaml") (cs ".yaml") = ([] : Str))]
  exact c5Bad_pf

/-- C5 counterexample: a file named exactly `.yaml` has empty
filename-derived id, so `ParseObjectFile` skips the `_id` cross-check
(`expectedID != ""` guard) and both `ReadObject` and
`ListObjectsForType` return an object whose `_id` (`z`) disagrees with
its path's basename (`""`) instead of rejecting the file. -/
theorem C5_counterexample :
    readObject [(cs "data/team/.yaml", c5Bad)] (cs "team") [] = .ok c5BadObj
    ∧ listObjectsForType [(cs ".yaml", c5Bad)] (cs "team") = .ok [c5BadObj]
    ∧ dropSuffix (cs ".yaml") (cs ".yaml") = []
    ∧ c5BadObj.id ≠ dropSuffix (cs ".yaml") (cs ".yaml") := by
  refine ⟨?_, ?_, by decide, by decide⟩
  · simp only [readObject]
    rw [(by decide : lookupA (dataPath (cs "team") []) [(cs "data/team/.yaml", c5Bad)] =
      some c5Bad)]
    simp only [c5Bad_pf]
    decide
  · simp only [listObjectsForType, parseTypeDir, c5Bad_pf0]
    rw [(by decide : endsWithSeq (cs ".yaml") (cs ".yaml") = true)]
    simp only [if_true]
    decide

/-- C5 (amended): objects returned by the read operations match their
path identity whenever the filename-derived id and directory-derived
type are non-empty (ParseObjectFile skips each cross-check when the
corresponding expected string is empty): a parsed object has non-empty
`_id`/`_type` equal to the expectations when those are non-empty;
`ReadObject` stamps the `data/<type>/<id>.yaml` path; every object of
`ListObjectsForType` comes from a `*.yaml` entry and carries the path
derived from that entry's name; and `LoadObjects` returns per type
directory exactly what `ListObjectsForType` returns. -/
theorem C5_path_identity :
    (∀ content expTy expId obj, parseObjectFile content expTy expId = .ok obj →
      obj.id ≠ [] ∧ obj.ty ≠ [] ∧ (expId ≠ [] → obj.id = expId) ∧
        (expTy ≠ [] → obj.ty = expTy))
    ∧ (∀ fs ty id obj, readObject fs ty id = .ok obj →
      obj.path = dataPath ty id ∧ (id ≠ [] → obj.id = id) ∧ (ty ≠ [] → obj.ty = ty))
    ∧ (∀ files ty objs, listObjectsForType files ty = .ok objs → ∀ obj ∈ objs,
      ∃ name content, (name, content) ∈ files ∧ endsWithSeq (cs ".yaml") name = true ∧
        obj.path = dataPath ty (dropSuffix (cs ".yaml") name) ∧
        (dropSuffix (cs ".yaml") name ≠ [] → obj.id = dropSuffix (cs ".yaml") name) ∧
        (ty ≠ [] → obj.ty = ty))
    ∧ (∀ dirs out, loadObjects dirs = .ok out → ∀ pr ∈ out,
      ∃ files, (pr.1, files) ∈ dirs ∧ listObjectsForType files pr.1 = .ok pr.2) := by
  refine ⟨?_, ?_, ?_, ?_⟩
  · intro content expTy expId obj h
    obtain ⟨h1, h2, h3, h4, _⟩ := parseObjectFile_ok_props content expTy expId obj h
    exact ⟨h1, h2, h3, h4⟩
  · intro fs ty id obj h
    simp only [readObject] at h
    cases hl : lookupA (dataPath ty id) fs with
    | none => simp only [hl] at h; exact Except.noConfusion h
    | some content =>
      simp only [hl] at h
      cases hp : parseObjectFile content ty id with
      | error e => simp only [hp] at h; exact Except.noConfusion h
      | ok obj0 =>
        simp only [hp] at h
        cases h
        obtain ⟨_, _, h3, h4, _⟩ := parseObjectFile_ok_props content ty id obj0 hp
        exact ⟨rfl, h3, h4⟩
  · intro files ty objs h obj hmem
    simp only [listObjectsForType] at h
    cases hp : parseTypeDir ty files with
    | error e => simp only [hp] at h; exact Except.noConfusion h
    | ok objs0 =>
      simp only [hp] at h
      cases h
      have hmem0 : obj ∈ objs0 := (mem_sortByIdObj obj objs0).mp hmem
      obtain ⟨name, content, hm, he, hpath, hpf⟩ := parseTypeDir_mem ty files objs0 hp obj hmem0
      obtain ⟨_, _, h3, h4, _⟩ := parseObjectFile_ok_props content ty
        (dropSuffix (cs ".yaml") name) _ hpf
      exact ⟨name, content, hm, he, hpath, h3, h4⟩
  · intro dirs
    induction dirs with
    | nil =>
      intro out h pr hpr
      injection h with h2
      rw [← h2] at hpr
      cases hpr
    | cons d rest ih =>
      obtain ⟨typeName, files⟩ := d
      intro out h pr hpr
      simp only [loadObjects] at h
      cases hp : parseTypeDir typeName files with
      | error e => simp only [hp] at h; exact Except.noConfusion h
      | ok objs =>
        simp only [hp] at h
        cases hr : loadObjects rest with
        | error e => simp only [hr] at h; exact Except.noConfusion h
        | ok more =>
          simp only [hr] at h
          cases h
          rcases List.mem_cons.mp hpr with rfl | hpr2
          · refine ⟨files, List.mem_cons_self _ _, ?_⟩
            simp only [listObjectsForType, hp]
          · obtain ⟨f2, hm2, hl2⟩ := ih more hr pr hpr2
            exact ⟨f2, List.mem_cons_of_mem _ hm2, hl2⟩

/-- YAML document used by the C5 witness: identity `x` of type `team`. -/
def c5Good : Str := cs "_id: x\n_type: team\n"

/-- The object the store returns for the C5 witness file. -/
def c5GoodObj : ObjRec :=
  ⟨cs "x", cs "team", [(cs "_id", .vstr (cs "x")), (cs "_type", .vstr (cs "team"))],
    cs "data/team/x.yaml"⟩

/-- Witness exercising the C5 theorem: a concrete `ReadObject` success
carries the `data/team/x.yaml` path and matching identity fields. -/
theorem c5Good_read : readObject [(dataPath (cs "team") (cs "x"), c5Good)]
    (cs "team") (cs "x") = .ok c5GoodObj := by
  have hps : parseSimple c5Good =
      .ok [(cs "_id", Value.vstr (cs "x")), (cs "_type", Value.vstr (cs "team"))] := by
    rw [← parseSimpleF_eq]
    decide
  have hpf : parseObjectFile c5Good (cs "team") (cs "x") =
      .ok ⟨cs "x", cs "team",
        [(cs "_id", Value.vstr (cs "x")), (cs "_type", Value.vstr (cs "team"))], []⟩ := by
    simp only [parseObjectFile, hps]
    decide
  simp only [readObject]
  rw [(by decide : lookupA (dataPath (cs "team") (cs "x"))
    [(dataPath (cs "team") (cs "x"), c5Good)] = some c5Good)]
  simp only [hpf]
  decide

theorem C5_path_identity_witness :
    c5GoodObj.path = dataPath (cs "team") (cs "x") ∧
    (cs "x" ≠ [] → c5GoodObj.id = cs "x") ∧
    (cs "team" ≠ [] → c5GoodObj.ty = cs "team") :=
  C5_path_identity.2.1 [(dataPath (cs "team") (cs "x"), c5Good)] (cs "team") (cs "x")
    c5GoodObj c5Good_read

/-- Identity used by the C7 example. -/
def c7Id : Str := cs "11111111-1111-4111-8111-111111111111"

/-- Input file of the C7 example (keys out of order). -/
def c7In : Str :=
  cs "name: Platform\ncode: PLAT\n_type: team\n_id: 11111111-1111-4111-8111-111111111111\n"

/-- Object read back from the C7 example file. -/
def c7Obj : ObjRec :=
  ⟨c7Id, cs "team",
    [(cs "_id", .vstr c7Id), (cs "_type", .vstr (cs "team")),
     (cs "code", .vstr (cs "PLAT")), (cs "name", .vstr (cs "Platform"))],
    dataPath (cs "team") c7Id⟩

/-- Canonical bytes written back in the C7 example. -/
def c7Out : Str :=
  cs "_id: 11111111-1111-4111-8111-111111111111\n_type: team\ncode: PLAT\nname: Platform\n"

/-- C7: Write(Read(...)) canonicalizes the example object file, with
keys rewritten in ascending lexicographic order: reading
`data/team/11111111-1111-4111-8111-111111111111.yaml` with keys in the
order name, code, _type, _id and writing the object back produces
exactly the lines `_id: ...`, `_type: team`, `code: PLAT`,
`name: Platform` in that order, each terminated by a newline. -/
theorem C7_canonicalize :
    readObject [(dataPath (cs "team") c7Id, c7In)] (cs "team") c7Id = .ok c7Obj
    ∧ writeObjectFS [(dataPath (cs "team") c7Id, c7In)] c7Obj =
        .ok [(dataPath (cs "team") c7Id, c7Out)]
    ∧ c7Out = joinNL [cs "_id: 11111111-1111-4111-8111-111111111111", cs "_type: team",
        cs "code: PLAT", cs "name: Platform"] := by
  refine ⟨?_, by decide, by decide⟩
  have hps : parseSimple c7In =
      .ok [(cs "_id", Value.vstr c7Id), (cs "_type", Value.vstr (cs "team")),
           (cs "code", Value.vstr (cs "PLAT")), (cs "name", Value.vstr (cs "Platform"))] := by
    rw [← parseSimpleF_eq]
    decide
  have hpf : parseObjectFile c7In (cs "team") c7Id =
      .ok ⟨c7Id, cs "team",
        [(cs "_id", Value.vstr c7Id), (cs "_type", Value.vstr (cs "team")),
         (cs "code", Value.vstr (cs "PLAT")), (cs "name", Value.vstr (cs "Platform"))], []⟩ := by
    simp only [parseObjectFile, hps]
    decide
  simp only [readObject]
  rw [(by decide : lookupA (dataPath (cs "team") c7Id)
    [(dataPath (cs "team") c7Id, c7In)] = some c7In)]
  simp only [hpf]
  decide

theorem ilogb_spec (x : ℚ) (hx : 0 < x) :
    (2:ℚ) ^ ilogb x ≤ x ∧ x < (2:ℚ) ^ (ilogb x + 1) := by
  have hnum0 : 0 < x.num := Rat.num_pos.mpr hx
  have hden0 : 0 < x.den := Nat.pos_of_ne_zero x.den_nz
  have hdenQ : (0:ℚ) < (x.den:ℚ) := by exact_mod_cast hden0
  have hna : x.num.natAbs ≠ 0 := Int.natAbs_ne_zero.mpr (ne_of_gt hnum0)
  have hxa : ((x.num.natAbs : ℕ) : ℚ) = (x.num:ℚ) := by
    rw [Int.cast_natAbs, abs_of_pos hnum0]
  have hA : (2:ℚ) ^ ((x.num.natAbs.log2 : ℤ)) ≤ (x.num:ℚ) := by
    rw [zpow_natCast]
    calc (2:ℚ) ^ (x.num.natAbs.log2) = ((2 ^ x.num.natAbs.log2 : ℕ) : ℚ) := by norm_cast
    _ ≤ ((x.num.natAbs : ℕ):ℚ) := by exact_mod_cast Nat.log2_self_le hna
    _ = (x.num:ℚ) := hxa
  have hA2 : (x.num:ℚ) < (2:ℚ) ^ ((x.num.natAbs.log2 : ℤ) + 1) := by
    rw [show ((x.num.natAbs.log2 : ℤ) + 1) = ((x.num.natAbs.log2 + 1 : ℕ) : ℤ) by push_cast; ring,
      zpow_natCast]
    calc (x.num:ℚ) = ((x.num.natAbs:ℕ):ℚ) := hxa.symm
    _ < ((2 ^ (x.num.natAbs.log2 + 1) : ℕ):ℚ) := by exact_mod_cast Nat.lt_log2_self
    _ = (2:ℚ) ^ (x.num.natAbs.log2 + 1) := by norm_cast
  have hB : (2:ℚ) ^ ((x.den.log2 : ℤ)) ≤ (x.den:ℚ) := by
    rw [zpow_natCast]
    calc (2:ℚ) ^ (x.den.log2) = ((2 ^ x.den.log2 : ℕ) : ℚ) := by norm_cast
    _ ≤ ((x.den : ℕ):ℚ) := by exact_mod_cast Nat.log2_self_le (by omega)
  have hB2 : (x.den:ℚ) < (2:ℚ) ^ ((x.den.log2 : ℤ) + 1) := by
    rw [show ((x.den.log2 : ℤ) + 1) = ((x.den.log2 + 1 : ℕ) : ℤ) by push_cast; ring, zpow_natCast]
    exact_mod_cast Nat.lt_log2_self
  have hxeq : x = (x.num:ℚ) / (x.den:ℚ) := (Rat.num_div_den x).symm
  have hup : x < (2:ℚ) ^ ((x.num.natAbs.log2:ℤ) - (x.den.log2:ℤ) + 1) := by
    conv_lhs => rw [hxeq]
    rw [div_lt_iff₀ hdenQ]
    calc (x.num:ℚ) < (2:ℚ) ^ ((x.num.natAbs.log2:ℤ)+1) := hA2
    _ = (2:ℚ) ^ ((x.num.natAbs.log2:ℤ) - (x.den.log2:ℤ) + 1) * (2:ℚ)^((x.den.log2:ℤ)) := by
        rw [← zpow_add₀ (show (2:ℚ) ≠ 0 by norm_num),
          show (x.num.natAbs.log2:ℤ) - (x.den.log2:ℤ) + 1 + (x.den.log2:ℤ) =
            (x.num.natAbs.log2:ℤ) + 1 by ring]
    _ ≤ (2:ℚ) ^ ((x.num.natAbs.log2:ℤ) - (x.den.log2:ℤ) + 1) * (x.den:ℚ) :=
        mul_le_mul_of_nonneg_left hB (by positivity)
  have hlo : (2:ℚ) ^ ((x.num.natAbs.log2:ℤ) - (x.den.log2:ℤ) - 1) < x := by
    conv_rhs => rw [hxeq]
    rw [lt_div_iff₀ hdenQ]
    calc (2:ℚ)^((x.num.natAbs.log2:ℤ)-(x.den.log2:ℤ)-1) * (x.den:ℚ)
        < (2:ℚ)^((x.num.natAbs.log2:ℤ)-(x.den.log2:ℤ)-1) * (2:ℚ)^((x.den.log2:ℤ)+1) :=
          mul_lt_mul_of_pos_left hB2 (by positivity)
    _ = (2:ℚ)^((x.num.natAbs.log2:ℤ)) := by
          rw [← zpow_add₀ (show (2:ℚ) ≠ 0 by norm_num),
            show (x.num.natAbs.log2:ℤ) - (x.den.log2:ℤ) - 1 + ((x.den.log2:ℤ) + 1) =
              (x.num.natAbs.log2:ℤ) by ring]
    _ ≤ (x.num:ℚ) := hA
  have key : ∀ e0 : ℤ, (2:ℚ)^(e0-1) < x → x < (2:ℚ)^(e0+1) →
      (2:ℚ) ^ (if x < (2:ℚ)^e0 then e0 - 1 else e0) ≤ x ∧
      x < (2:ℚ) ^ ((if x < (2:ℚ)^e0 then e0 - 1 else e0) + 1) := by
    intro e0 h1 h2
    split
    next hbr =>
      refine ⟨le_of_lt h1, ?_⟩
      rw [show e0 - 1 + 1 = e0 by ring]
      exact hbr
    next hbr => exact ⟨le_of_not_lt hbr, h2⟩
  exact key _ hlo hup

theorem rne_int (k : ℤ) : rne (k:ℚ) = k := by
  simp only [rne, Int.floor_intCast, sub_self]
  norm_num

theorem ratTrunc_int (s : ℤ) : ratTrunc (s:ℚ) = s := by
  simp only [ratTrunc]
  split
  · exact Int.floor_intCast s
  · rw [show -((s:ℤ):ℚ) = ((-s : ℤ):ℚ) by push_cast; ring, Int.floor_intCast]
    omega

theorem abs_ratTrunc_le (q : ℚ) : |((ratTrunc q : ℤ):ℚ)| ≤ |q| := by
  simp only [ratTrunc]
  split
  next h =>
    rw [abs_of_nonneg (show (0:ℚ) ≤ ((⌊q⌋:ℤ):ℚ) by exact_mod_cast Int.floor_nonneg.mpr h),
      abs_of_nonneg h]
    exact Int.floor_le q
  next h =>
    push_neg at h
    rw [show ((-⌊-q⌋ : ℤ):ℚ) = -((⌊-q⌋:ℤ):ℚ) by push_cast; ring, abs_neg,
      abs_of_nonneg (show (0:ℚ) ≤ ((⌊-q⌋:ℤ):ℚ) by
        exact_mod_cast Int.floor_nonneg.mpr (by linarith)),
      abs_of_neg h]
    exact Int.floor_le _

theorem roundQ_fix (q : ℚ) (h : ReprQ q) : roundQ q = q := by
  obtain ⟨m, ep, hm, he, heq, _⟩ := h
  by_cases hq0 : q = 0
  · rw [hq0]
    simp [roundQ]
  · simp only [roundQ, if_neg hq0]
    have hm0 : m ≠ 0 := by
      rintro rfl
      apply hq0
      rw [heq]
      simp
    have hxeq : |q| = ((|m| : ℤ):ℚ) * (2:ℚ)^ep := by
      rw [heq, abs_mul]
      congr 1
      · rw [Int.cast_abs]
      · exact abs_of_pos (by positivity)
    have hx0 : (0:ℚ) < |q| := abs_pos.mpr hq0
    have hspec := ilogb_spec |q| hx0
    have heup : ilogb |q| ≤ ep + 52 := by
      by_contra hlt
      push_neg at hlt
      have h2 : |q| < (2:ℚ)^(ep+53) := by
        rw [hxeq]
        calc ((|m|:ℤ):ℚ) * (2:ℚ)^ep < ((2^53:ℤ):ℚ) * (2:ℚ)^ep := by
              apply mul_lt_mul_of_pos_right _ (by positivity)
              exact_mod_cast hm
        _ = (2:ℚ)^(ep+53) := by
              rw [show ((2^53:ℤ):ℚ) = (2:ℚ)^(53:ℤ) by norm_num,
                ← zpow_add₀ (show (2:ℚ) ≠ 0 by norm_num), show (53:ℤ) + ep = ep + 53 by ring]
      have h3 : (2:ℚ)^(ilogb |q|) < (2:ℚ)^(ep+53) := lt_of_le_of_lt hspec.1 h2
      have h4 : (2:ℚ)^(ep+53) ≤ (2:ℚ)^(ilogb |q|) :=
        zpow_le_zpow_right₀ (show (1:ℚ) ≤ 2 by norm_num) (by omega)
      exact absurd h3 (not_lt.mpr h4)
    have hule : max (ilogb |q| - 52) (-1074) ≤ ep := by
      apply max_le <;> omega
    have main : ∀ u : ℤ, u ≤ ep →
        ((rne (|q| / (2:ℚ)^u) : ℤ) : ℚ) * (2:ℚ)^u = |q| := by
      intro u hu
      have hs : |q| / (2:ℚ)^u = ((|m| * 2^(ep - u).toNat : ℤ) : ℚ) := by
        rw [hxeq, div_eq_iff (show ((2:ℚ)^u) ≠ 0 by positivity)]
        push_cast
        rw [mul_assoc, ← zpow_natCast (2:ℚ) (ep - u).toNat,
          ← zpow_add₀ (show (2:ℚ) ≠ 0 by norm_num),
          show ((ep - u).toNat : ℤ) + u = ep by omega]
      rw [hs, rne_int, ← hs, div_mul_cancel₀]
      positivity
    rw [main (max (ilogb |q| - 52) (-1074)) hule]
    split
    next hneg =>
      rw [abs_of_neg hneg]
      ring
    next hpos => exact abs_of_nonneg (le_of_not_lt hpos)

theorem repr_nonint_lt (q : ℚ) (h : ReprQ q) (hni : ((ratTrunc q : ℤ) : ℚ) ≠ q) :
    |q| < 2^52 := by
  obtain ⟨m, ep, hm, he, heq, _⟩ := h
  by_cases hep : 0 ≤ ep
  · exfalso
    apply hni
    have hqint : q = ((m * 2^ep.toNat : ℤ):ℚ) := by
      rw [heq]
      push_cast
      rw [← zpow_natCast (2:ℚ) ep.toNat, show ((ep.toNat:ℤ)) = ep by omega]
    rw [hqint, ratTrunc_int]
  · push_neg at hep
    rw [heq, abs_mul, abs_of_pos (show (0:ℚ) < (2:ℚ)^ep by positivity)]
    have ha : |(m:ℚ)| < (2:ℚ)^(53:ℕ) := by
      rw [← Int.cast_abs]
      exact_mod_cast hm
    have hb : (2:ℚ)^ep ≤ (2:ℚ)^(-1:ℤ) :=
      zpow_le_zpow_right₀ (show (1:ℚ) ≤ 2 by norm_num) (show ep ≤ -1 by omega)
    calc |(m:ℚ)| * (2:ℚ)^ep < (2:ℚ)^(53:ℕ) * (2:ℚ)^ep :=
          mul_lt_mul_of_pos_right ha (by positivity)
    _ ≤ (2:ℚ)^(53:ℕ) * (2:ℚ)^(-1:ℤ) := mul_le_mul_of_nonneg_left hb (by positivity)
    _ = 2^52 := by norm_num

/-- An integer-typed schema property with no bounds. -/
def c9IntProp : SchemaProperty := ⟨cs "integer", [], none, none, none, none, []⟩

/-- The binary64 value nearest to 10^30 (an integer). -/
def c9N : ℚ := 1000000000000000019884624838656

/-- C9 counterexample: `c9N` (the float64 nearest 10^30) is a
representable integral value, `n == trunc(n)` holds, yet the integer
check reports "must be an integer", because Go evaluates
`float64(int64(n)) != n` and `int64(n)` is out of range (modelled with
the x86-64 result `-2^63`), so the round trip cannot reproduce `n`. -/
theorem c9_cast : c9N = ((1000000000000000019884624838656:ℤ):ℚ) := by norm_num [c9N]

theorem c9_repr : ReprQ c9N :=
  ⟨3552713678800501, 48, by norm_num, by norm_num, by norm_num [c9N],
    by norm_num [c9N, maxF64]⟩

theorem c9_ne : floatOfInt64 (goInt64 c9N) ≠ c9N := by
  have hint : goInt64 c9N = -(2^63) := by
    simp only [goInt64]
    rw [c9_cast, ratTrunc_int, if_neg (by decide)]
  have hfi : floatOfInt64 (-(2^63)) = ((-(2^63) : ℤ):ℚ) :=
    roundQ_fix _ ⟨-(2^52), 11, by norm_num, by norm_num, by push_cast; norm_num,
      by rw [show ((-(2^63):ℤ):ℚ) = -(2^63 : ℚ) by push_cast; ring]; norm_num [maxF64]⟩
  rw [hint, hfi, c9_cast]
  intro h
  have h2 : (-(2^63) : ℤ) = 1000000000000000019884624838656 := by exact_mod_cast h
  norm_num at h2

theorem validateProperty_integer (n : ℚ) (prop : SchemaProperty) (field path : Str)
    (hty : prop.ty = cs "integer") (hmin : prop.minimum = none)
    (hmax : prop.maximum = none) :
    validateProperty field (.vnum n) prop path =
      (if floatOfInt64 (goInt64 n) ≠ n then
        [⟨cs "schema", path, field, cs "must be an integer"⟩] else []) := by
  simp only [validateProperty, hty, hmin, hmax]
  rw [if_neg (show ¬(Value.vnum n = Value.vnull) from fun h => Value.noConfusion h)]
  rw [if_neg (show ¬(cs "integer" = cs "string") by decide)]
  simp only [or_true, ite_true, true_and, List.append_nil]

theorem c9_validate : validateProperty (cs "f") (.vnum c9N) c9IntProp (cs "p") =
    [⟨cs "schema", cs "p", cs "f", cs "must be an integer"⟩] := by
  rw [validateProperty_integer c9N c9IntProp (cs "f") (cs "p") rfl rfl rfl, if_pos c9_ne]

theorem C9_counterexample :
    ReprQ c9N ∧ ((ratTrunc c9N : ℤ) : ℚ) = c9N ∧
    validateProperty (cs "f") (.vnum c9N) c9IntProp (cs "p") =
      [⟨cs "schema", cs "p", cs "f", cs "must be an integer"⟩] :=
  ⟨c9_repr, by rw [c9_cast, ratTrunc_int], c9_validate⟩

/-- Membership form of the scalar integer check: for an integer-typed
property with arbitrary bounds, the "must be an integer" issue appears
in `validateProperty`'s output exactly when the int64 round trip moves
the value (the bound issues carry different messages). -/
theorem validateProperty_int_mem (n : ℚ) (prop : SchemaProperty) (field path : Str)
    (hty : prop.ty = cs "integer") :
    (ValidationIssue.mk (cs "schema") path field (cs "must be an integer") ∈
      validateProperty field (.vnum n) prop path) ↔ floatOfInt64 (goInt64 n) ≠ n := by
  simp only [validateProperty, hty]
  rw [if_neg (show ¬(Value.vnum n = Value.vnull) from fun h => Value.noConfusion h)]
  rw [if_neg (show ¬(cs "integer" = cs "string") by decide)]
  simp only [or_true, ite_true, true_and, List.mem_append]
  constructor
  · rintro ((h | h) | h)
    · split at h
      next hc => exact hc
      · exact absurd h (List.not_mem_nil _)
    · split at h
      · split at h
        · rw [List.mem_singleton, ValidationIssue.mk.injEq] at h
          exact absurd h.2.2.2 (by decide)
        · exact absurd h (List.not_mem_nil _)
      · exact absurd h (List.not_mem_nil _)
    · split at h
      · split at h
        · rw [List.mem_singleton, ValidationIssue.mk.injEq] at h
          exact absurd h.2.2.2 (by decide)
        · exact absurd h (List.not_mem_nil _)
      · exact absurd h (List.not_mem_nil _)
  · intro hne
    left; left
    rw [if_pos hne]
    exact List.mem_singleton.mpr rfl

/-- `validateProperty` on an array value of an array-kind property with
integer items: the per-item map applies the int64 round-trip check to
each numeric element. -/
theorem validateProperty_arr_int (items : List Value) (prop : SchemaProperty)
    (field path : Str) (hty : prop.ty = cs "array") (hit : prop.itemsType = cs "integer") :
    validateProperty field (.varr items) prop path =
      (items.map fun item =>
        match item with
        | .vnum m => if floatOfInt64 (goInt64 m) ≠ m then
            [ValidationIssue.mk (cs "schema") path field (cs "array items must be integers")]
          else []
        | _ => [ValidationIssue.mk (cs "schema") path field
            (cs "array items must be numbers")]).flatten := by
  simp only [validateProperty, hty, hit,
    show (Value.varr items = Value.vnull) = False from eq_false (fun h => Value.noConfusion h),
    show (cs "array" = cs "string") = False from eq_false (by decide),
    show (cs "array" = cs "number" ∨ cs "array" = cs "integer") = False from
      eq_false (by decide),
    show (cs "array" = cs "boolean") = False from eq_false (by decide),
    show (cs "integer" = cs "string") = False from eq_false (by decide),
    or_true, ite_true, true_and, ite_false]

/-- Membership form of the array integer check: the "array items must
be integers" issue appears exactly when some numeric element fails the
int64 round trip. -/
theorem validateProperty_arr_int_mem (items : List Value) (prop : SchemaProperty)
    (field path : Str) (hty : prop.ty = cs "array") (hit : prop.itemsType = cs "integer") :
    (ValidationIssue.mk (cs "schema") path field (cs "array items must be integers") ∈
      validateProperty field (.varr items) prop path) ↔
    ∃ m : ℚ, Value.vnum m ∈ items ∧ floatOfInt64 (goInt64 m) ≠ m := by
  rw [validateProperty_arr_int items prop field path hty hit]
  constructor
  · intro h
    rw [List.mem_flatten] at h
    obtain ⟨l, hl, hm⟩ := h
    rw [List.mem_map] at hl
    obtain ⟨item, hitem, rfl⟩ := hl
    split at hm
    · split at hm
      next hc => exact ⟨_, hitem, hc⟩
      · exact absurd hm (List.not_mem_nil _)
    · rw [List.mem_singleton, ValidationIssue.mk.injEq] at hm
      exact absurd hm.2.2.2 (by decide)
  · rintro ⟨m, hmem, hne⟩
    rw [List.mem_flatten]
    refine ⟨_, List.mem_map.mpr ⟨Value.vnum m, hmem, rfl⟩, ?_⟩
    show ValidationIssue.mk (cs "schema") path field (cs "array items must be integers") ∈
      (if floatOfInt64 (goInt64 m) ≠ m then
        [ValidationIssue.mk (cs "schema") path field (cs "array items must be integers")]
      else [])
    rw [if_pos hne]
    exact List.mem_singleton.mpr rfl

/-- C9 (amended): for a representable float64 value `n` bound to an
integer-typed property (with arbitrary bounds), the "must be an
integer" issue is reported iff `float64(int64(n)) ≠ n`, and an
array-kind property with integer items reports "array items must be
integers" iff some numeric element fails that same check; when
`trunc(n)` lies in int64 range the check is equivalent to
`n ≠ trunc(n)`, but when `trunc(n)` is outside int64 range the issue
fires (under the modelled x86-64 conversion) even for integral `n`. -/
theorem C9_integer_check (n : ℚ) (hn : ReprQ n) :
    ((-(2:ℤ)^63 ≤ ratTrunc n ∧ ratTrunc n < 2^63 →
       (floatOfInt64 (goInt64 n) ≠ n ↔ ((ratTrunc n : ℤ) : ℚ) ≠ n))
     ∧ (¬(-(2:ℤ)^63 ≤ ratTrunc n ∧ ratTrunc n < 2^63) → floatOfInt64 (goInt64 n) ≠ n))
    ∧ (∀ (prop : SchemaProperty) (field path : Str), prop.ty = cs "integer" →
        (ValidationIssue.mk (cs "schema") path field (cs "must be an integer") ∈
          validateProperty field (.vnum n) prop path ↔ floatOfInt64 (goInt64 n) ≠ n))
    ∧ (∀ (prop : SchemaProperty) (field path : Str) (items : List Value),
        prop.ty = cs "array" → prop.itemsType = cs "integer" →
        (ValidationIssue.mk (cs "schema") path field (cs "array items must be integers") ∈
          validateProperty field (.varr items) prop path ↔
        ∃ m : ℚ, Value.vnum m ∈ items ∧ floatOfInt64 (goInt64 m) ≠ m)) := by
  refine ⟨⟨?_, ?_⟩, ?_, ?_⟩
  · intro hrange
    have hg : goInt64 n = ratTrunc n := by
      simp only [goInt64]
      rw [if_pos hrange]
    rw [hg]
    constructor
    · intro hne hti
      apply hne
      show roundQ ((ratTrunc n : ℤ):ℚ) = n
      rw [hti]
      exact roundQ_fix n hn
    · intro hti
      have hsmall : |n| < 2^52 := repr_nonint_lt n hn hti
      have htQ : |((ratTrunc n : ℤ):ℚ)| ≤ |n| := abs_ratTrunc_le n
      have htlt : |ratTrunc n| < 2^53 := by
        have h2 : |((ratTrunc n : ℤ):ℚ)| < 2^53 :=
          lt_of_le_of_lt htQ (lt_trans hsmall (by norm_num))
        exact_mod_cast h2
      have hrt : ReprQ ((ratTrunc n : ℤ):ℚ) :=
        ⟨ratTrunc n, 0, htlt, by norm_num, by rw [zpow_zero, mul_one],
          le_trans htQ (le_trans (le_of_lt hsmall) (by norm_num [maxF64]))⟩
      show roundQ ((ratTrunc n : ℤ):ℚ) ≠ n
      rw [roundQ_fix _ hrt]
      exact hti
  · intro hrange
    have hg : goInt64 n = -(2^63) := by
      simp only [goInt64]
      rw [if_neg hrange]
    rw [hg]
    have hfix : roundQ ((-(2^63) : ℤ):ℚ) = ((-(2^63):ℤ):ℚ) :=
      roundQ_fix _ ⟨-(2^52), 11, by norm_num, by norm_num, by push_cast; norm_num,
        by rw [show ((-(2^63):ℤ):ℚ) = -(2^63 : ℚ) by push_cast; ring]; norm_num [maxF64]⟩
    show roundQ ((-(2^63) : ℤ):ℚ) ≠ n
    rw [hfix]
    intro he
    apply hrange
    have ht : ratTrunc n = -(2^63) := by
      rw [← he, ratTrunc_int]
    rw [ht]
    exact ⟨le_refl _, by decide⟩
  · intro prop field path hty
    exact validateProperty_int_mem n prop field path hty
  · intro prop field path items hty hit
    exact validateProperty_arr_int_mem items prop field path hty hit

/-- Witness exercising the C9 theorem at the representable value 3/2,
both for a scalar integer-typed property and for an integer-items
array property holding the single element 3/2. -/
theorem C9_integer_check_witness :
    (ValidationIssue.mk (cs "schema") (cs "p") (cs "f") (cs "must be an integer") ∈
      validateProperty (cs "f") (.vnum (3/2 : ℚ)) c9IntProp (cs "p") ↔
      floatOfInt64 (goInt64 (3/2 : ℚ)) ≠ (3/2 : ℚ))
    ∧ (ValidationIssue.mk (cs "schema") (cs "p") (cs "f") (cs "array items must be integers") ∈
        validateProperty (cs "f") (.varr [.vnum (3/2 : ℚ)])
          (SchemaProperty.mk (cs "array") [] none none none none (cs "integer")) (cs "p") ↔
      ∃ m : ℚ, Value.vnum m ∈ [Value.vnum (3/2 : ℚ)] ∧ floatOfInt64 (goInt64 m) ≠ m) :=
  ⟨(C9_integer_check (3/2) ⟨3, -1, by norm_num, by norm_num, by norm_num,
      by rw [abs_of_nonneg (show (0:ℚ) ≤ 3/2 by norm_num)]; norm_num [maxF64]⟩).2.1
      c9IntProp (cs "f") (cs "p") rfl,
   (C9_integer_check (3/2) ⟨3, -1, by norm_num, by norm_num, by norm_num,
      by rw [abs_of_nonneg (show (0:ℚ) ≤ 3/2 by norm_num)]; norm_num [maxF64]⟩).2.2
      (SchemaProperty.mk (cs "array") [] none none none none (cs "integer"))
      (cs "f") (cs "p") [.vnum (3/2 : ℚ)] rfl rfl⟩

/-! ## Round-trip infrastructure for the YAML codec (C2) -/

theorem char_toNat_inj (c d : Char) (h : c.toNat = d.toNat) : c = d :=
  Char.ext (UInt32.ext h)

theorem hasSpHash_append (x y : Str) : hasSpHash (x ++ y) = false ↔
    hasSpHash x = false ∧ ¬(x.getLast? = some ' ' ∧ y.head? = some '#') ∧
      hasSpHash y = false := by
  induction x with
  | nil => simp [hasSpHash]
  | cons a tail ih =>
    cases tail with
    | nil =>
      cases y with
      | nil => simp [hasSpHash]
      | cons b t =>
        show hasSpHash (a :: b :: t) = false ↔ _
        simp only [hasSpHash, decide_eq_false_iff_not, not_or, Bool.not_eq_true,
          List.getLast?_singleton, List.head?_cons, Option.some.injEq]
        tauto
    | cons b t =>
      have ih2 := ih
      simp only [List.cons_append] at ih2
      show hasSpHash (a :: b :: (t ++ y)) = false ↔ _
      simp only [hasSpHash, decide_eq_false_iff_not, not_or, Bool.not_eq_true,
        List.getLast?_cons_cons, ih2]
      tauto

theorem hasSpHash_no_space (l : Str) (h : ∀ c ∈ l, c ≠ ' ') : hasSpHash l = false := by
  induction l with
  | nil => rfl
  | cons a tail ih =>
    cases tail with
    | nil => rfl
    | cons b t =>
      simp only [hasSpHash, decide_eq_false_iff_not, not_or, Bool.not_eq_true]
      refine ⟨fun hab => h a (List.mem_cons_self _ _) hab.1, ?_⟩
      exact ih (fun c hc => h c (List.mem_cons_of_mem _ hc))

theorem trimLeftP_eq_self (p : Char → Bool) (l : Str)
    (h : ∀ c, l.head? = some c → p c = false) : trimLeftP p l = l := by
  cases l with
  | nil => rfl
  | cons a t =>
    simp only [trimLeftP, List.dropWhile_cons, h a rfl]
    rfl

theorem trimRightP_eq_self (p : Char → Bool) (l : Str)
    (h : ∀ c, l.getLast? = some c → p c = false) : trimRightP p l = l := by
  have hd : List.dropWhile p l.reverse = l.reverse := by
    cases hr : l.reverse with
    | nil => rfl
    | cons c t =>
      have hc : p c = false := h c (by rw [← List.head?_reverse, hr]; rfl)
      simp [List.dropWhile_cons, hc]
  unfold trimRightP
  rw [hd, List.reverse_reverse]

theorem trimSpace_eq_self (l : Str)
    (hh : ∀ c, l.head? = some c → goIsSpace c = false)
    (hl : ∀ c, l.getLast? = some c → goIsSpace c = false) : trimSpace l = l := by
  unfold trimSpace
  rw [trimRightP_eq_self _ _ hl, trimLeftP_eq_self _ _ hh]

theorem trimSpace_cons_space (c : Char) (hc : goIsSpace c = true) (l : Str) :
    trimSpace (c :: l) = trimSpace l := by
  unfold trimSpace trimRightP
  rw [show (c :: l).reverse = l.reverse ++ [c] from by simp, List.dropWhile_append]
  split
  next he =>
    have hdw : l.reverse.dropWhile goIsSpace = [] := by
      cases hd : l.reverse.dropWhile goIsSpace
      · rfl
      · rw [hd] at he; cases he
    rw [hdw, show List.dropWhile goIsSpace [c] = [] from by
      simp [List.dropWhile_cons, hc]]
  next =>
    rw [show (List.dropWhile goIsSpace l.reverse ++ [c]).reverse =
      c :: (List.dropWhile goIsSpace l.reverse).reverse from by simp]
    show trimLeftP goIsSpace (c :: _) = _
    simp [trimLeftP, List.dropWhile_cons, hc]

theorem idxOf_none (k : Str) (h : ∀ c ∈ k, c ≠ ':') : idxOf ':' k = none := by
  induction k with
  | nil => rfl
  | cons a t ih =>
    simp only [idxOf, if_neg (h a (List.mem_cons_self _ _)),
      ih (fun c hc => h c (List.mem_cons_of_mem _ hc))]
    rfl

theorem idxOf_append_colon (k t : Str) (h : ∀ c ∈ k, c ≠ ':') :
    idxOf ':' (k ++ ':' :: t) = some k.length := by
  induction k with
  | nil => simp [idxOf]
  | cons a ks ih =>
    simp only [List.cons_append, idxOf, if_neg (h a (List.mem_cons_self _ _)),
      List.append_eq, ih (fun c hc => h c (List.mem_cons_of_mem _ hc)), List.length_cons]
    rfl

theorem splitNL_append_nl (l t : Str) (h : '\n' ∉ l) :
    splitNL (l ++ '\n' :: t) = l :: splitNL t := by
  induction l with
  | nil => simp [splitNL]
  | cons a ls ih =>
    have ha : a ≠ '\n' := fun he => h (he ▸ List.mem_cons_self _ _)
    simp only [List.cons_append, splitNL, if_neg ha, List.append_eq,
      ih (fun hm => h (List.mem_cons_of_mem _ hm))]

theorem splitNL_joinNL (ls : List Str) (h : ∀ l ∈ ls, '\n' ∉ l) :
    splitNL (joinNL ls) = ls ++ [[]] := by
  induction ls with
  | nil => rfl
  | cons l rest ih =>
    have hjoin : joinNL (l :: rest) = l ++ '\n' :: joinNL rest := by
      simp [joinNL]
    rw [hjoin, splitNL_append_nl l _ (h l (List.mem_cons_self _ _)),
      ih (fun l2 hl2 => h l2 (List.mem_cons_of_mem _ hl2))]
    rfl

theorem replaceCRLF_eq_self (s : Str) (h : ∀ c ∈ s, c ≠ '\r') : replaceCRLF s = s := by
  induction s with
  | nil => rfl
  | cons a tail ih =>
    cases tail with
    | nil => rfl
    | cons b t =>
      have ha : a ≠ '\r' := h a (List.mem_cons_self _ _)
      rw [show replaceCRLF (a :: b :: t) =
          (if a = '\r' ∧ b = '\n' then '\n' :: replaceCRLF t else a :: replaceCRLF (b :: t))
        from rfl,
        if_neg (show ¬(a = '\r' ∧ b = '\n') from fun hc => ha hc.1),
        ih (fun c hc => h c (List.mem_cons_of_mem _ hc))]

theorem spanDigits_append (ds r : Str) (hd : ∀ c ∈ ds, isDigitCh c = true)
    (hr : ∀ c, r.head? = some c → isDigitCh c = false) :
    spanDigits (ds ++ r) = (ds, r) := by
  induction ds with
  | nil =>
    cases r with
    | nil => rfl
    | cons c t =>
      simp only [List.nil_append, spanDigits, List.takeWhile_cons, List.dropWhile_cons,
        hr c rfl]
      rfl
  | cons d ds2 ih =>
    have hd1 : isDigitCh d = true := hd d (List.mem_cons_self _ _)
    have ih2 := ih (fun c hc => hd c (List.mem_cons_of_mem _ hc))
    simp only [spanDigits, Prod.mk.injEq] at ih2
    simp only [spanDigits, List.cons_append, List.takeWhile_cons, List.dropWhile_cons, hd1,
      ite_true, Prod.mk.injEq, List.cons.injEq, true_and]
    exact ⟨ih2.1, ih2.2⟩

theorem insertSortedA_append {α : Type} (k : Str) (v : α) : ∀ acc : List (Str × α),
    (∀ p ∈ acc, strLtB p.1 k = true) → insertSortedA k v acc = acc ++ [(k, v)] := by
  intro acc
  induction acc with
  | nil => intro _; rfl
  | cons p rest ih =>
    obtain ⟨k1, v1⟩ := p
    intro h
    have h1 : strLtB k1 k = true := h (k1, v1) (List.mem_cons_self _ _)
    have hne : k ≠ k1 := by
      rintro rfl
      rw [strLtB_irrefl] at h1
      cases h1
    simp only [insertSortedA, strLtB_asymm _ _ h1, if_neg hne]
    rw [ih (fun p hp => h p (List.mem_cons_of_mem _ hp))]
    simp

theorem lookupA_none_of_lt {α : Type} (k : Str) : ∀ acc : List (Str × α),
    (∀ p ∈ acc, strLtB p.1 k = true) → lookupA k acc = none := by
  intro acc
  induction acc with
  | nil => intro _; rfl
  | cons p rest ih =>
    obtain ⟨k1, v1⟩ := p
    intro h
    have h1 : strLtB k1 k = true := h (k1, v1) (List.mem_cons_self _ _)
    have hne : k ≠ k1 := by
      rintro rfl
      rw [strLtB_irrefl] at h1
      cases h1
    simp only [lookupA, if_neg hne]
    exact ih (fun p hp => h p (List.mem_cons_of_mem _ hp))

theorem isDigitCh_digitCh (d : ℕ) (h : d < 10) : isDigitCh (digitCh d) = true := by
  interval_cases d <;> decide

theorem digVal_digitCh (d : ℕ) (h : d < 10) : digVal (digitCh d) = d := by
  interval_cases d <;> decide

theorem goIsSpace_eq_false_of (c : Char) (h1 : 33 ≤ c.toNat) (h2 : c.toNat ≤ 126) :
    goIsSpace c = false := by
  cases hg : goIsSpace c
  · rfl
  · exfalso
    simp only [goIsSpace, decide_eq_true_eq] at hg
    rcases hg with h|h|h|h|h|h|h|h|h|h|h|h|h|h|h
    all_goals first
      | exact absurd (h ▸ h1) (by decide)
      | exact absurd (h ▸ h2) (by decide)
      | omega

theorem isSpaceTab_eq_false_of (c : Char) (h1 : 33 ≤ c.toNat) : isSpaceTab c = false := by
  cases hg : isSpaceTab c
  · rfl
  · exfalso
    simp only [isSpaceTab, decide_eq_true_eq] at hg
    rcases hg with h|h
    all_goals exact absurd (h ▸ h1) (by decide)

theorem isDigitCh_toNat (c : Char) (h : isDigitCh c = true) :
    48 ≤ c.toNat ∧ c.toNat ≤ 57 := by
  simpa [isDigitCh, decide_eq_true_eq] using h

theorem isSafeCh_toNat (c : Char) (h : isSafeCh c = true) :
    33 ≤ c.toNat ∧ c.toNat ≤ 126 := by
  simp only [isSafeCh, decide_eq_true_eq] at h
  rcases h with h|h|h|h|h|h|h
  all_goals first
    | omega
    | (rw [h]; decide)

theorem digitsVal_foldl (l : Str) (acc : ℕ) :
    l.foldl (fun a c => 10 * a + digVal c) acc = acc * 10 ^ l.length + digitsVal l := by
  induction l generalizing acc with
  | nil => simp [digitsVal]
  | cons c t ih =>
    show List.foldl _ (10 * acc + digVal c) t = _
    rw [ih]
    have hdv : digitsVal (c :: t) = digVal c * 10 ^ t.length + digitsVal t := by
      show List.foldl _ (10 * 0 + digVal c) t = _
      rw [ih]
      ring
    rw [hdv, List.length_cons]
    ring

theorem digitsVal_append (a b : Str) :
    digitsVal (a ++ b) = digitsVal a * 10 ^ b.length + digitsVal b := by
  show List.foldl _ 0 (a ++ b) = _
  rw [List.foldl_append]
  rw [show List.foldl (fun a c => 10 * a + digVal c) 0 a = digitsVal a from rfl,
    digitsVal_foldl]

theorem digitsVal_replicate_zero (j : ℕ) :
    digitsVal (List.replicate j (digitCh 0)) = 0 := by
  induction j with
  | zero => rfl
  | succ n ih =>
    show List.foldl _ (10 * 0 + digVal (digitCh 0)) (List.replicate n (digitCh 0)) = 0
    rw [digVal_digitCh 0 (by norm_num)]
    exact ih

theorem natDigitsCore_val (n : ℕ) : digitsVal ((natDigitsCore n).reverse) = n := by
  induction n using Nat.strong_induction_on with
  | _ n ih =>
    cases n with
    | zero =>
      rw [show natDigitsCore 0 = [] from by simp [natDigitsCore]]
      rfl
    | succ m =>
      rw [show natDigitsCore (m + 1) =
        digitCh ((m + 1) % 10) :: natDigitsCore ((m + 1) / 10) from by
          simp [natDigitsCore]]
      rw [List.reverse_cons, digitsVal_append,
        ih ((m + 1) / 10) (Nat.div_lt_self (Nat.succ_pos m) (by omega))]
      show _ * 10 ^ 1 + digitsVal [digitCh ((m + 1) % 10)] = m + 1
      have : digitsVal [digitCh ((m + 1) % 10)] = (m + 1) % 10 := by
        show 10 * 0 + digVal (digitCh ((m + 1) % 10)) = (m + 1) % 10
        rw [digVal_digitCh _ (Nat.mod_lt _ (by norm_num))]
        omega
      rw [this]
      omega

theorem digitsVal_natDigits (n : ℕ) : digitsVal (natDigits n) = n := by
  by_cases h : n = 0
  · subst h; decide
  · rw [natDigits, if_neg h]
    exact natDigitsCore_val n

theorem chars_natDigitsCore (n : ℕ) : ∀ c ∈ natDigitsCore n, isDigitCh c = true := by
  induction n using Nat.strong_induction_on with
  | _ n ih =>
    cases n with
    | zero => intro c hc; rw [show natDigitsCore 0 = [] from by simp [natDigitsCore]] at hc; cases hc
    | succ m =>
      intro c hc
      rw [show natDigitsCore (m + 1) =
        digitCh ((m + 1) % 10) :: natDigitsCore ((m + 1) / 10) from by
          simp [natDigitsCore]] at hc
      rcases List.mem_cons.mp hc with rfl | hc2
      · exact isDigitCh_digitCh _ (Nat.mod_lt _ (by norm_num))
      · exact ih ((m + 1) / 10) (Nat.div_lt_self (Nat.succ_pos m) (by omega)) c hc2

theorem chars_natDigits (n : ℕ) : ∀ c ∈ natDigits n, isDigitCh c = true := by
  intro c hc
  by_cases h : n = 0
  · subst h
    rw [natDigits, if_pos rfl] at hc
    rcases List.mem_singleton.mp hc with rfl
    decide
  · rw [natDigits, if_neg h, List.mem_reverse] at hc
    exact chars_natDigitsCore n c hc

theorem natDigits_ne_nil (n : ℕ) : natDigits n ≠ [] := by
  by_cases h : n = 0
  · subst h; decide
  · rw [natDigits, if_neg h]
    intro he
    rw [List.reverse_eq_nil_iff] at he
    cases n with
    | zero => exact h rfl
    | succ m =>
      rw [show natDigitsCore (m + 1) =
        digitCh ((m + 1) % 10) :: natDigitsCore ((m + 1) / 10) from by
          simp [natDigitsCore]] at he
      cases he

theorem pnl_sign_other (d : Char) (rest : Str) (hp : d ≠ '+') (hm : d ≠ '-')
    (h1 h2 h3 : Str → ℚ × Str) :
    parseNumberLit.match_1 (fun _ => ℚ × Str) (d :: rest) (fun r => h1 r) (fun r => h2 r)
      (fun r => h3 r) = h3 (d :: rest) := by
  split
  next r heq =>
    injection heq with hh _
    exact absurd hh hp
  next r heq =>
    injection heq with hh _
    exact absurd hh hm
  next => rfl

theorem pnl_dot_dot (r2 : Str) (h1 : List Char → Option ℚ) (h2 : Str → Option ℚ) :
    parseNumberLit.match_2 (fun _ => Option ℚ) ('.' :: r2) h1 h2 = h1 r2 := rfl

theorem spanDigits_all (ds : Str) (hd : ∀ c ∈ ds, isDigitCh c = true) :
    spanDigits ds = (ds, []) := by
  have h := spanDigits_append ds [] hd (fun c hc => by cases hc)
  rwa [List.append_nil] at h

theorem parseExpTail_nil (sgn : ℚ) (ids fds : Str) :
    parseExpTail sgn ids fds [] =
      some (sgn * ((digitsVal ids : ℚ) + (digitsVal fds : ℚ) / 10 ^ fds.length)) := rfl

theorem parseNumberLit_digits (ds : Str) (hne : ds ≠ [])
    (hd : ∀ c ∈ ds, isDigitCh c = true) :
    parseNumberLit ds = some ((digitsVal ds : ℚ)) := by
  obtain ⟨d, rest, rfl⟩ := List.exists_cons_of_ne_nil hne
  have hd1 := hd d (List.mem_cons_self _ _)
  have hp : d ≠ '+' := fun he => absurd (he ▸ hd1) (by decide)
  have hm : d ≠ '-' := fun he => absurd (he ▸ hd1) (by decide)
  simp only [parseNumberLit]
  rw [pnl_sign_other d rest hp hm, spanDigits_all _ hd]
  rw [if_pos (show ¬(d :: rest = []) from fun h => List.noConfusion h)]
  show parseExpTail 1 (d :: rest) [] [] = _
  rw [parseExpTail_nil]
  norm_num [show digitsVal [] = 0 from rfl]

theorem parseNumberLit_intDec (t : ℤ) : parseNumberLit (intDec t) = some ((t : ℚ)) := by
  by_cases ht : t < 0
  · rw [intDec, if_pos ht]
    have hdl := chars_natDigits t.natAbs
    have hnn := natDigits_ne_nil t.natAbs
    obtain ⟨d, rest, hds⟩ := List.exists_cons_of_ne_nil hnn
    simp only [parseNumberLit]
    rw [hds]
    rw [spanDigits_all _ (hds ▸ hdl)]
    show parseExpTail (-1) (d :: rest) [] [] = _
    rw [parseExpTail_nil, ← hds]
    rw [digitsVal_natDigits]
    rw [show digitsVal [] = 0 from rfl]
    have habs : ((t.natAbs : ℚ)) = -(t : ℚ) := by
      rw [Int.cast_natAbs, abs_of_neg ht]
      push_cast
      ring
    rw [habs]
    norm_num
  · rw [intDec, if_neg ht]
    rw [parseNumberLit_digits _ (natDigits_ne_nil _) (chars_natDigits _), digitsVal_natDigits]
    congr 1
    rw [Int.cast_natAbs, abs_of_nonneg (by exact_mod_cast not_lt.mp ht)]

theorem repr_den_pow2 (q : ℚ) (h : ReprQ q) : ∃ j, q.den = 2 ^ j := by
  obtain ⟨m, e, hm, he, heq, _⟩ := h
  by_cases he0 : 0 ≤ e
  · refine ⟨0, ?_⟩
    have hq : q = ((m * 2^e.toNat : ℤ):ℚ) := by
      rw [heq]
      push_cast
      rw [← zpow_natCast (2:ℚ) e.toNat, show ((e.toNat:ℤ)) = e by omega]
    rw [hq]
    exact Rat.den_intCast _
  · push_neg at he0
    have hq2 : q = Rat.divInt m (2^(-e).toNat) := by
      rw [Rat.divInt_eq_div, heq]
      push_cast
      rw [← zpow_natCast (2:ℚ) (-e).toNat, show (((-e).toNat:ℤ)) = -e by omega,
        zpow_neg, div_eq_mul_inv, inv_inv]
    have hdvd : (q.den : ℤ) ∣ (2:ℤ)^(-e).toNat := by
      rw [hq2]
      exact Rat.den_dvd _ _
    have hdvd2 : q.den ∣ 2^(-e).toNat := by
      rw [show ((2:ℤ)^(-e).toNat) = ((2^(-e).toNat : ℕ) : ℤ) by push_cast; ring] at hdvd
      exact_mod_cast hdvd
    obtain ⟨i, _, hi⟩ := (Nat.dvd_prime_pow Nat.prime_two).mp hdvd2
    exact ⟨i, hi⟩

theorem den_one_cast (q : ℚ) (h : q.den = 1) : ((q.num : ℤ) : ℚ) = q := by
  conv_rhs => rw [← Rat.num_div_den q]
  rw [h]
  norm_num

theorem pnl_sign_minus (X : Str) (h1 h2 h3 : Str → ℚ × Str) :
    parseNumberLit.match_1 (fun _ => ℚ × Str) ('-' :: X) (fun r => h1 r) (fun r => h2 r)
      (fun r => h3 r) = h2 X := rfl

theorem parseNumberLit_exactDec (q : ℚ) (hden : ∃ j, q.den = 2 ^ j) :
    parseNumberLit (exactDec q) = some q := by
  obtain ⟨j, hj⟩ := hden
  have hk : q.den.log2 = j := by rw [hj, Nat.log2_two_pow]
  by_cases hj0 : j = 0
  · subst hj0
    have hd1 : q.den = 1 := by rw [hj]; rfl
    have hI : exactDec q = intDec q.num := by
      simp only [exactDec, hk, pow_zero, mul_one]
      rfl
    rw [hI, parseNumberLit_intDec, den_one_cast q hd1]
  · have hkge : 1 ≤ j := Nat.one_le_iff_ne_zero.mpr hj0
    set N : ℕ := (q.num * 5 ^ j).natAbs with hN
    set ds : Str := natDigits N with hds
    set padded : Str :=
      if ds.length ≤ j then List.replicate (j + 1 - ds.length) (digitCh 0) ++ ds else ds
      with hpad
    have hPdig : ∀ c ∈ padded, isDigitCh c = true := by
      intro c hc
      rw [hpad] at hc
      split at hc
      · rcases List.mem_append.mp hc with hc2 | hc2
        · rw [List.eq_of_mem_replicate hc2]
          exact isDigitCh_digitCh 0 (by norm_num)
        · exact chars_natDigits N c hc2
      · exact chars_natDigits N c hc
    have hdsne : ds ≠ [] := natDigits_ne_nil N
    have hPlen : j + 1 ≤ padded.length := by
      rw [hpad]
      split
      next hle =>
        rw [List.length_append, List.length_replicate]
        omega
      next hgt =>
        omega
    have hPval : digitsVal padded = N := by
      rw [hpad]
      split
      · rw [digitsVal_append, digitsVal_replicate_zero, digitsVal_natDigits]
        norm_num
      · exact digitsVal_natDigits N
    set ids : Str := padded.take (padded.length - j) with hids
    set fds : Str := padded.drop (padded.length - j) with hfds
    have hsplit : padded = ids ++ fds := (List.take_append_drop _ _).symm
    have hIdig : ∀ c ∈ ids, isDigitCh c = true :=
      fun c hc => hPdig c (List.take_subset _ _ hc)
    have hFdig : ∀ c ∈ fds, isDigitCh c = true :=
      fun c hc => hPdig c (List.drop_subset _ _ hc)
    have hIlen : ids.length = padded.length - j := by
      rw [hids, List.length_take]
      omega
    have hFlen : fds.length = j := by
      rw [hfds, List.length_drop]
      omega
    have hIne : ids ≠ [] := by
      intro he
      have h2 := congrArg List.length he
      rw [hIlen] at h2
      simp at h2
      omega
    have hbody : exactDec q =
        (if q.num < 0 then '-' :: (ids ++ '.' :: fds) else ids ++ '.' :: fds) := by
      simp only [exactDec, hk, if_neg hj0, ← hN, ← hds, ← hpad, ← hids, ← hfds]
    have hNsum : digitsVal ids * 10 ^ j + digitsVal fds = N := by
      rw [← hPval]
      conv_rhs => rw [hsplit]
      rw [digitsVal_append, hFlen]
    have hvalsum : (digitsVal ids : ℚ) + (digitsVal fds : ℚ) / 10 ^ fds.length =
        (N : ℚ) / 10 ^ j := by
      rw [hFlen, eq_div_iff (show ((10:ℚ)^j) ≠ 0 by positivity), add_mul,
        div_mul_cancel₀ _ (show ((10:ℚ)^j) ≠ 0 by positivity)]
      push_cast [← hNsum]
      ring
    have hqeq : q = (q.num : ℚ) / (2:ℚ)^j := by
      conv_lhs => rw [← Rat.num_div_den q]
      rw [hj]
      push_cast
      ring
    have hqn : (N : ℚ) / 10 ^ j = |q| := by
      rw [hN, Int.cast_natAbs,
        show |q.num * 5 ^ j| = |q.num| * 5 ^ j from by
          rw [abs_mul, abs_of_pos (show (0:ℤ) < 5 ^ j by positivity)]]
      conv_rhs => rw [hqeq]
      rw [abs_div, abs_of_pos (show (0:ℚ) < 2 ^ j by positivity)]
      push_cast
      rw [show ((10:ℚ))^j = 2^j * 5^j from by rw [← mul_pow]; norm_num]
      rw [div_eq_div_iff (by positivity) (show ((2:ℚ)^j) ≠ 0 from by positivity)]
      ring
    obtain ⟨d, rest, hdr⟩ := List.exists_cons_of_ne_nil hIne
    have hd1 : isDigitCh d = true := hIdig d (by rw [hdr]; exact List.mem_cons_self _ _)
    have hp : d ≠ '+' := fun he => absurd (he ▸ hd1) (by decide)
    have hm : d ≠ '-' := fun he => absurd (he ▸ hd1) (by decide)
    have hdothead : ∀ c, (('.' :: fds) : Str).head? = some c → isDigitCh c = false :=
      fun c hc => by rw [show c = '.' from (Option.some.inj hc).symm]; decide
    by_cases hneg : q.num < 0
    · rw [hbody, if_pos hneg]
      simp only [parseNumberLit]
      rw [spanDigits_append ids ('.' :: fds) hIdig hdothead]
      rw [show ((ids, '.' :: fds) : Str × Str).1 = ids from rfl,
        show ((ids, '.' :: fds) : Str × Str).2 = '.' :: fds from rfl]
      rw [if_pos hIne, pnl_dot_dot]
      rw [spanDigits_all fds hFdig]
      rw [show ((fds, ([] : Str)) : Str × Str).1 = fds from rfl,
        show ((fds, ([] : Str)) : Str × Str).2 = ([] : Str) from rfl]
      rw [parseExpTail_nil, hvalsum, hqn]
      rw [abs_of_neg (show q < 0 from by
        rw [hqeq]
        apply div_neg_of_neg_of_pos
        · exact_mod_cast hneg
        · positivity)]
      norm_num
    · rw [hbody, if_neg hneg]
      simp only [parseNumberLit]
      rw [show ids ++ '.' :: fds = d :: (rest ++ '.' :: fds) from by rw [hdr]; rfl]
      rw [pnl_sign_other d (rest ++ '.' :: fds) hp hm]
      rw [show (((1:ℚ), d :: (rest ++ '.' :: fds))).2 = ids ++ '.' :: fds from by
          rw [hdr]; rfl,
        show (((1:ℚ), d :: (rest ++ '.' :: fds))).1 = (1:ℚ) from rfl]
      rw [spanDigits_append ids ('.' :: fds) hIdig hdothead]
      rw [show ((ids, '.' :: fds) : Str × Str).1 = ids from rfl,
        show ((ids, '.' :: fds) : Str × Str).2 = '.' :: fds from rfl]
      rw [if_pos hIne, pnl_dot_dot]
      rw [spanDigits_all fds hFdig]
      rw [show ((fds, ([] : Str)) : Str × Str).1 = fds from rfl,
        show ((fds, ([] : Str)) : Str × Str).2 = ([] : Str) from rfl]
      rw [parseExpTail_nil, hvalsum, hqn]
      rw [abs_of_nonneg (show 0 ≤ q from by
        rw [hqeq]
        apply div_nonneg
        · exact_mod_cast not_lt.mp hneg
        · positivity)]
      norm_num

/-- Characters that can occur in a number literal. -/
def numCh (c : Char) : Prop :=
  isDigitCh c = true ∨ c = '-' ∨ c = '+' ∨ c = '.' ∨ c = 'e' ∨ c = 'E'

theorem chars_stripZeros {P : Char → Prop} (l : Str) (h : ∀ c ∈ l, P c) :
    ∀ c ∈ stripZeros l, P c := by
  intro c hc
  unfold stripZeros trimRightP at hc
  rw [List.mem_reverse] at hc
  exact h c (List.mem_reverse.mp ((List.dropWhile_sublist _).subset hc))

theorem chars_expPart (x : ℤ) : ∀ c ∈ expPart x, numCh c := by
  intro c hc
  simp only [expPart] at hc
  have hds2 : ∀ c2, c2 ∈ (if (natDigits x.natAbs).length < 2
      then digitCh 0 :: natDigits x.natAbs else natDigits x.natAbs) → numCh c2 := by
    intro c2 hc2
    split at hc2
    · rcases List.mem_cons.mp hc2 with rfl | hc3
      · exact Or.inl (by decide)
      · exact Or.inl (chars_natDigits _ _ hc3)
    · exact Or.inl (chars_natDigits _ _ hc2)
  split at hc
  · rcases List.mem_cons.mp hc with rfl | hc2
    · exact Or.inr (Or.inl rfl)
    · exact hds2 c hc2
  · rcases List.mem_cons.mp hc with rfl | hc2
    · exact Or.inr (Or.inr (Or.inl rfl))
    · exact hds2 c hc2

theorem chars_dsBlock (m : ℤ) :
    ∀ c ∈ (if stripZeros (natDigits m.natAbs) = [] then [digitCh 0]
      else stripZeros (natDigits m.natAbs)), isDigitCh c = true := by
  intro c hc
  split at hc
  · rcases List.mem_singleton.mp hc with rfl
    decide
  · exact chars_stripZeros _ (chars_natDigits _) c hc

end WF
